import Mathlib

/-! Verification of the pit-core interface/identity subsystem.

This file is a shallow embedding of the pit-core Rust crate: the attribute
grammar, the type grammar with its canonical renderer, content addressing,
the generic mangling codec, and the metadata merge tree, together with
theorems checking the specification claims against that embedding.

Modelling conventions:
* Rust `String`/`&str` values are `List Char`; UTF-8 byte order and
  `char` order agree, so lexicographic comparison of `List Char` by
  code point models Rust string `Ord`.
* nom parsers are total functions `List Char → Option (List Char × α)`;
  `none` is a parse failure, `some (rest, v)` is success with the
  unconsumed remainder `rest`.
* `BTreeMap` values are association lists sorted strictly by key; the
  `insertA` operation below implements ordered insert-or-replace.
* `usize` is modelled as `Nat`; where Rust parses integers from text the
  64-bit overflow check is modelled explicitly (`usizeCap`).
* `[u8; 32]` values are `List Nat` of length 32 with entries below 256.
-/

namespace Pit

/-- Character list of a string literal, for readable concrete inputs. -/
def str (s : String) : List Char := s.data

/-- Whitespace recognised by nom `multispace0`: space, tab, CR, LF. -/
def isWs (c : Char) : Bool := c = ' ' || c = '\t' || c = '\r' || c = '\n'

/-- ASCII alphanumeric, as nom `AsChar::is_alphanum` on `char`. -/
def isAlnum (c : Char) : Bool := c.isAlpha || c.isDigit

/-- Characters admitted by `ident`: alphanumeric or `_`, `$`, `.`. -/
def isIdentCh (c : Char) : Bool := isAlnum c || c = '_' || c = '$' || c = '.'

/-- Hexadecimal digit, as Rust `char::is_digit(16)`. -/
def isHexCh (c : Char) : Bool :=
  c.isDigit || ('a' ≤ c && c ≤ 'f') || ('A' ≤ c && c ≤ 'F')

/-- Lexicographic strict order on lists, comparing elements through a
numeric measure `f`; with `f` injective this models Rust `Ord` on
`String` (`f = Char.toNat`) and on byte arrays (`f = id`). -/
def lexLtBy (f : α → Nat) : List α → List α → Bool
  | _, [] => false
  | [], _ :: _ => true
  | a :: s, b :: t =>
    if f a < f b then true else if f b < f a then false else lexLtBy f s t

/-- Strict lexicographic order on `List Char`, modelling `Ord` on `String`. -/
def lexLt (a b : List Char) : Bool := lexLtBy Char.toNat a b

/-- Strict lexicographic order on byte lists, modelling `Ord` on `[u8; 32]`. -/
def lexLtN (a b : List Nat) : Bool := lexLtBy id a b

/-- Boolean left-to-right stable insertion into a `le`-sorted list; together
with `insSort` this models Rust `sort_by_key` (both are stable sorts, hence
agree on every input). -/
def ordInsert (le : α → α → Bool) (a : α) : List α → List α
  | [] => [a]
  | b :: l => if le a b then a :: b :: l else b :: ordInsert le a l

/-- Stable insertion sort used to model Rust `Vec::sort_by_key`. -/
def insSort (le : α → α → Bool) : List α → List α
  | [] => []
  | a :: l => ordInsert le a (insSort le l)

/-- Ordered insert-or-replace into an association list sorted strictly by
`lt` on keys: the model of `BTreeMap::insert`. -/
def insertA (lt : κ → κ → Bool) [DecidableEq κ] (k : κ) (v : β) :
    List (κ × β) → List (κ × β)
  | [] => [(k, v)]
  | (q, w) :: l =>
    if lt k q then (k, v) :: (q, w) :: l
    else if k = q then (k, v) :: l
    else (q, w) :: insertA lt k v l

/-- Key lookup in an association list: the model of `BTreeMap::get`. -/
def lookupA [DecidableEq κ] (k : κ) : List (κ × β) → Option β
  | [] => none
  | (q, w) :: l => if k = q then some w else lookupA k l

/-- Key removal from an association list: the model of `BTreeMap::remove`
(well-formed maps hold each key at most once). -/
def removeA [DecidableEq κ] (k : κ) : List (κ × β) → List (κ × β)
  | [] => []
  | (q, w) :: l => if k = q then l else (q, w) :: removeA k l

/-- Building a map from an iterator of pairs, later keys overwriting
earlier ones: the model of `collect::<BTreeMap<_, _>>()`. -/
def toMapA (lt : κ → κ → Bool) [DecidableEq κ] (l : List (κ × β)) :
    List (κ × β) :=
  l.foldl (fun m p => insertA lt p.1 p.2 m) []

/-- Well-formedness of a map model: keys strictly ascending in `lt`. -/
def MapWF (lt : κ → κ → Bool) (m : List (κ × β)) : Prop :=
  m.Pairwise (fun p q => lt p.1 q.1 = true)

/-- First-some choice on options (the shape of `Option::or`). -/
def orO (a b : Option α) : Option α :=
  match a with
  | some x => some x
  | none => b

/-- Value attached to the last occurrence of key `k` in a pair list. -/
def lastPair [DecidableEq κ] (k : κ) (l : List (κ × β)) : Option β :=
  l.foldl (fun acc p => if p.1 = k then some p.2 else acc) none

/-- Lowercase hexadecimal digit characters, as produced by the `hex` crate
and by Rust `format!("\x7b:x\x7d")`. -/
def hexDigitCh : Nat → Char
  | 0 => '0' | 1 => '1' | 2 => '2' | 3 => '3' | 4 => '4'
  | 5 => '5' | 6 => '6' | 7 => '7' | 8 => '8' | 9 => '9'
  | 10 => 'a' | 11 => 'b' | 12 => 'c' | 13 => 'd' | 14 => 'e' | 15 => 'f'
  | _ => '*'

/-- Decimal digit characters, as produced by `Display` for `usize`. -/
def decDigitCh : Nat → Char
  | 0 => '0' | 1 => '1' | 2 => '2' | 3 => '3' | 4 => '4'
  | 5 => '5' | 6 => '6' | 7 => '7' | 8 => '8' | 9 => '9'
  | _ => '*'

/-- Numeric value of a hexadecimal digit character (either case); callers
only apply it to characters already checked with `isHexCh`, mirroring the
`unwrap`ed decodes in the source. -/
def valHexCh : Char → Nat
  | '0' => 0 | '1' => 1 | '2' => 2 | '3' => 3 | '4' => 4
  | '5' => 5 | '6' => 6 | '7' => 7 | '8' => 8 | '9' => 9
  | 'a' => 10 | 'b' => 11 | 'c' => 12 | 'd' => 13 | 'e' => 14 | 'f' => 15
  | 'A' => 10 | 'B' => 11 | 'C' => 12 | 'D' => 13 | 'E' => 14 | 'F' => 15
  | _ => 0

/-- Numeric value of a decimal digit character. -/
def valDecCh (c : Char) : Nat := c.toNat - 48

/-- Big-endian base-16 digit values of a natural number. -/
def hexDigitsOf (n : Nat) : List Nat :=
  if h : n < 16 then [n] else hexDigitsOf (n / 16) ++ [n % 16]
termination_by n
decreasing_by exact Nat.div_lt_self (by omega) (by omega)

/-- Big-endian base-10 digit values of a natural number. -/
def decDigitsOf (n : Nat) : List Nat :=
  if h : n < 10 then [n] else decDigitsOf (n / 10) ++ [n % 10]
termination_by n
decreasing_by exact Nat.div_lt_self (by omega) (by omega)

/-- Rust `format!("\x7b:x\x7d")` on a `usize`. -/
def natToHex (n : Nat) : List Char := (hexDigitsOf n).map hexDigitCh

/-- Rust `format!("\x7b\x7d")` (decimal `Display`) on a `usize`. -/
def natToDec (n : Nat) : List Char := (decDigitsOf n).map decDigitCh

/-- 64-bit `usize` overflow threshold for the modelled integer parses. -/
def usizeCap : Nat := 2 ^ 64

/-- Fold a character list of hexadecimal digits to its value. -/
def hexValOf (s : List Char) : Nat :=
  s.foldl (fun a c => 16 * a + valHexCh c) 0

/-- Fold a character list of decimal digits to its value. -/
def decValOf (s : List Char) : Nat :=
  s.foldl (fun a c => 10 * a + valDecCh c) 0

/-- Leading `+` sign accepted by Rust integer `FromStr`/`from_str_radix`. -/
def stripPlus (s : List Char) : List Char :=
  match s with
  | c :: r => if c = '+' then r else s
  | [] => s

/-- Rust `usize::from_str_radix(s, 16)`: optional leading `+`, then a
nonempty run of hexadecimal digits, rejecting 64-bit overflow. -/
def fromStrRadix16 (s : List Char) : Option Nat :=
  let t := stripPlus s
  if t ≠ [] ∧ t.all isHexCh ∧ hexValOf t < usizeCap then some (hexValOf t)
  else none

/-- Rust `str::parse::<usize>()`: optional leading `+`, then a nonempty
run of decimal digits, rejecting 64-bit overflow. -/
def parseUsize (s : List Char) : Option Nat :=
  let t := stripPlus s
  if t ≠ [] ∧ t.all Char.isDigit ∧ decValOf t < usizeCap then some (decValOf t)
  else none

/-- Two lowercase hexadecimal characters of one byte, as `hex::encode`. -/
def encByte (b : Nat) : List Char := [hexDigitCh (b / 16), hexDigitCh (b % 16)]

/-- Rust `hex::encode` on a byte slice: lowercase, two digits per byte. -/
def hexEncode (bytes : List Nat) : List Char := bytes.flatMap encByte

/-- Rust `hex::decode_to_slice` on an even-length, pre-validated digit
string (the source always checks the digits first and `unwrap`s). -/
def hexDecodePairs : List Char → List Nat
  | a :: b :: t => (16 * valHexCh a + valHexCh b) :: hexDecodePairs t
  | _ => []

/-- Model of a nom parser over `&str`: `none` is a parse failure,
`some (rest, v)` a success leaving `rest` unconsumed. -/
def P (α : Type) : Type := List Char → Option (List Char × α)

/-- nom `tag`: match a literal, returning the matched text. -/
def tagP (t : List Char) (s : List Char) : Option (List Char × List Char) :=
  if s.take t.length = t then some (s.drop t.length, t) else none

/-- nom `character::complete::char`. -/
def charP (c : Char) (s : List Char) : Option (List Char × Char) :=
  match s with
  | x :: r => if x = c then some (r, c) else none
  | [] => none

/-- nom `bytes::complete::take` (complete: fails on short input). -/
def takeP (n : Nat) (s : List Char) : Option (List Char × List Char) :=
  if n ≤ s.length then some (s.drop n, s.take n) else none

/-- nom `take_while_m_n m n f`: up to `n` chars satisfying `f`, failing
when fewer than `m` match. -/
def takeWhileMN (m n : Nat) (f : Char → Bool) (s : List Char) :
    Option (List Char × List Char) :=
  if m ≤ ((s.take n).takeWhile f).length then
    some (s.drop ((s.take n).takeWhile f).length, (s.take n).takeWhile f)
  else none

/-- nom `multispace0` (never fails). -/
def multispace0 (s : List Char) : Option (List Char × List Char) :=
  some (s.dropWhile isWs, s.takeWhile isWs)

/-- nom `opt`. -/
def optP (p : P α) (s : List Char) : Option (List Char × Option α) :=
  match p s with
  | none => some (s, none)
  | some (r, v) => some (r, some v)

/-- nom `alphanumeric1` (ASCII alphanumeric run, at least one char). -/
def alphanumeric1 (s : List Char) : Option (List Char × List Char) :=
  if s.takeWhile isAlnum = [] then none
  else some (s.drop (s.takeWhile isAlnum).length, s.takeWhile isAlnum)

/-- The crate's `ident`: `split_at_position1_complete` keeping the longest
run of `isIdentCh` characters, failing on an empty run. -/
def ident (s : List Char) : Option (List Char × List Char) :=
  if s.takeWhile isIdentCh = [] then none
  else some (s.drop (s.takeWhile isIdentCh).length, s.takeWhile isIdentCh)

/-- nom `anychar`. -/
def anycharP (s : List Char) : Option (List Char × Char) :=
  match s with
  | [] => none
  | c :: r => some (r, c)

/-- nom `none_of`: one char not in the forbidden set. -/
def noneOfP (bad : List Char) (s : List Char) : Option (List Char × Char) :=
  match s with
  | [] => none
  | c :: r => if c ∈ bad then none else some (r, c)

/-- nom `Parser::and_then`: run the second parser over the OUTPUT of the
first one (not over the remaining input). -/
def andThenP (p : P (List Char)) (g : P β) (s : List Char) :
    Option (List Char × β) :=
  match p s with
  | none => none
  | some (r, o) =>
    match g o with
    | none => none
    | some (_, b) => some (r, b)

/-- nom `Parser::map_opt`. -/
def mapOptP (p : P α) (f : α → Option β) (s : List Char) :
    Option (List Char × β) :=
  match p s with
  | none => none
  | some (r, v) =>
    match f v with
    | none => none
    | some b => some (r, b)

/-- nom `Parser::map`. -/
def mapP (p : P α) (f : α → β) (s : List Char) : Option (List Char × β) :=
  match p s with
  | none => none
  | some (r, v) => some (r, f v)

/-- nom `Parser::or` (alternation with backtracking). -/
def orP (p q : P α) (s : List Char) : Option (List Char × α) :=
  match p s with
  | some rv => some rv
  | none => q s

/-- nom tuple of two parsers. -/
def pair2P (p : P α) (q : P β) (s : List Char) :
    Option (List Char × (α × β)) :=
  match p s with
  | none => none
  | some (r1, a) =>
    match q r1 with
    | none => none
    | some (r2, b) => some (r2, (a, b))

/-- nom tuple of three parsers. -/
def pair3P (p : P α) (q : P β) (t : P γ) (s : List Char) :
    Option (List Char × (α × β × γ)) :=
  match p s with
  | none => none
  | some (r1, a) =>
    match q r1 with
    | none => none
    | some (r2, b) =>
      match t r2 with
      | none => none
      | some (r3, c) => some (r3, (a, b, c))

/-- nom `delimited`. -/
def delimitedP (a : P α) (p : P β) (b : P γ) (s : List Char) :
    Option (List Char × β) :=
  match a s with
  | none => none
  | some (r1, _) =>
    match p r1 with
    | none => none
    | some (r2, v) =>
      match b r2 with
      | none => none
      | some (r3, _) => some (r3, v)

/-- Fuel-indexed body of nom `many0`; the fuel is only bookkeeping for
structural recursion, while the `r.length < s.length` test is nom's own
infinite-loop protection (`many0` errors when the inner parser succeeds
without consuming; our inner parsers never lengthen their input). -/
def many0F (p : P α) : Nat → List Char → Option (List Char × List α)
  | 0, _ => none
  | fuel + 1, s =>
    match p s with
    | none => some (s, [])
    | some (r, v) =>
      if r.length < s.length then
        match many0F p fuel r with
        | none => none
        | some (r2, vs) => some (r2, v :: vs)
      else none

/-- nom `many0`. -/
def many0 (p : P α) (s : List Char) : Option (List Char × List α) :=
  many0F p (s.length + 1) s

/-- Fuel-indexed tail loop of nom `separated_list0`: after a first
element, repeatedly parse a separator (which must consume, nom's
protection) and an element; a soft failure of either ends the list. The
final `i2.length < i.length` test is bookkeeping for structural
recursion and always holds for the non-lengthening parsers used here. -/
def sepTailF (sep : P γ) (p : P α) :
    Nat → List Char → Option (List Char × List α)
  | 0, _ => none
  | fuel + 1, i =>
    match sep i with
    | none => some (i, [])
    | some (s1, _) =>
      if s1.length = i.length then none
      else
        match p s1 with
        | none => some (i, [])
        | some (i2, o) =>
          if i2.length < i.length then
            match sepTailF sep p fuel i2 with
            | none => none
            | some (r, l) => some (r, o :: l)
          else none

/-- nom `separated_list0`. -/
def sepList0 (sep : P γ) (p : P α) (s : List Char) :
    Option (List Char × List α) :=
  match p s with
  | none => some (s, [])
  | some (i1, o) =>
    match sepTailF sep p (i1.length + 1) i1 with
    | none => none
    | some (r, l) => some (r, o :: l)

/-- One-step unfolding of the `separated_list0` tail loop at adequate fuel. -/
def sepTail (sep : P γ) (p : P α) (s : List Char) :
    Option (List Char × List α) :=
  sepTailF sep p (s.length + 1) s

/-- nom `many1` (for a deterministic inner parser this matches nom's
per-iteration progress check). -/
def many1 (p : P α) (s : List Char) : Option (List Char × List α) :=
  match p s with
  | none => none
  | some (r, v) =>
    if r.length < s.length then
      match many0 p r with
      | none => none
      | some (r2, vs) => some (r2, v :: vs)
    else none

/-- nom `multi::count`: exactly `n` repetitions. -/
def countP (p : P α) : Nat → P (List α)
  | 0 => fun s => some (s, [])
  | n + 1 => fun s =>
    match p s with
    | none => none
    | some (r, v) =>
      match countP p n r with
      | none => none
      | some (r2, vs) => some (r2, v :: vs)

/-- Attribute key-value pair (`Attr` in `lib.rs`). -/
structure Attr where
  name : List Char
  value : List Char
deriving DecidableEq

/-- Rust `Display` for `Attr`: the text `[name=value]`. -/
def renderAttr (a : Attr) : List Char :=
  '[' :: (a.name ++ '=' :: (a.value ++ [']']))

/-- The crate's `Attr::as_ver`: decode a versioned-capability attribute
(`hex value + 1`) when the name matches. -/
def Attr.as_ver (a : Attr) (k : List Char) : Option Nat :=
  if a.name = k then (fromStrRadix16 a.value).map (· + 1) else none

/-- The crate's `Attr::from_ver`: encode `ver - 1` in hex, omitting the
attribute entirely for version 0. -/
def Attr.from_ver (ver : Nat) (k : List Char) : Option Attr :=
  if ver = 0 then none else some ⟨k, natToHex (ver - 1)⟩

/-- The crate's `Attr::as_wasm_abi`. -/
def Attr.as_wasm_abi (a : Attr) : Option Nat := a.as_ver (str "wasmAbiVer")

/-- The crate's `Attr::from_wasm_abi`. -/
def Attr.from_wasm_abi (ver : Nat) : Option Attr :=
  Attr.from_ver ver (str "wasmAbiVer")

/-- The crate's free function `merge(a, b)`: chain both attribute lists
into a `BTreeMap` keyed by name (later inserts win) and read the map back
out as a name-sorted list. -/
def merge (a b : List Attr) : List Attr :=
  (toMapA lexLt ((a ++ b).map (fun x => (x.name, x.value)))).map
    (fun p => ⟨p.1, p.2⟩)

/-- Balanced-bracket value scanner (`parse_balanced` in `lib.rs`): read
characters while tracking bracket depth and stop, without consuming, at
the `]` that would drop below the entry depth. -/
def parse_balanced_aux : Nat → List Char → List Char →
    Option (List Char × List Char)
  | _, _, [] => none
  | i, acc, c :: t =>
    if c = '[' then parse_balanced_aux (i + 1) (acc ++ [c]) t
    else if c = ']' then
      if i = 0 then some (c :: t, acc)
      else parse_balanced_aux (i - 1) (acc ++ [c]) t
    else parse_balanced_aux i (acc ++ [c]) t

/-- The crate's `parse_balanced`. -/
def parse_balanced (s : List Char) : Option (List Char × List Char) :=
  parse_balanced_aux 0 [] s

/-- The crate's `parse_attr`: `[name=value]` with surrounding whitespace,
a name of non-`=` characters, and a balanced value. -/
def parse_attr (a0 : List Char) : Option (List Char × Attr) := do
  let a := a0
  let (a, _) ← multispace0 a
  let (a, _) ← charP '[' a
  let (a, _) ← multispace0 a
  let (a, name) ← many0 (noneOfP (str "=")) a
  let (a, _) ← multispace0 a
  let (a, _) ← charP '=' a
  let (a, _) ← multispace0 a
  let (a, value) ← parse_balanced a
  let (a, _) ← charP ']' a
  let (a, _) ← multispace0 a
  some (a, ⟨name, value⟩)

/-- Ascending-by-name comparison used to model `sort_by_key(|a| a.name)`. -/
def attrLe (x y : Attr) : Bool := !(lexLt y.name x.name)

/-- The crate's `parse_attrs`: many attributes, stably sorted by name. -/
def parse_attrs (a0 : List Char) : Option (List Char × List Attr) := do
  let a := a0
  let (a, b) ← many0 parse_attr a
  some (a, insSort attrLe b)

/-- First value attached to an attribute name in a list (well-formed
merged lists hold each name once). -/
def findVal (n : List Char) (l : List Attr) : Option (List Char) :=
  lookupA n (l.map fun x => (x.name, x.value))

/-- Value of the last occurrence of an attribute name in a list. -/
def lastVal (n : List Char) (l : List Attr) : Option (List Char) :=
  lastPair n (l.map fun x => (x.name, x.value))

/-- Base64 value of one standard-alphabet character. -/
def b64Val (c : Char) : Option Nat :=
  if 'A' ≤ c ∧ c ≤ 'Z' then some (c.toNat - 65)
  else if 'a' ≤ c ∧ c ≤ 'z' then some (c.toNat - 97 + 26)
  else if '0' ≤ c ∧ c ≤ '9' then some (c.toNat - 48 + 52)
  else if c = '+' then some 62
  else if c = '/' then some 63
  else none

/-- Base64 character of one 6-bit value (standard alphabet). -/
def b64Ch (i : Nat) : Char :=
  if i < 26 then Char.ofNat (65 + i)
  else if i < 52 then Char.ofNat (97 + i - 26)
  else if i < 62 then Char.ofNat (48 + i - 52)
  else if i = 62 then '+'
  else '/'

/-- Six-bit values of a base64 text, failing on any foreign character. -/
def b64Vals : List Char → Option (List Nat)
  | [] => some []
  | c :: t =>
    match b64Val c, b64Vals t with
    | some v, some r => some (v :: r)
    | _, _ => none

/-- Bytes of a list of 6-bit values, in unpadded standard base64: full
quads give three bytes; a trailing pair or triple gives one or two bytes
and must have zero spare bits (`InvalidLastSymbol` otherwise); a single
trailing value (length ≡ 1 mod 4) is invalid. -/
def b64DecodeVals : List Nat → Option (List Nat)
  | [] => some []
  | [_] => none
  | [a, b] => if b % 16 = 0 then some [a * 4 + b / 16] else none
  | [a, b, c] =>
    if c % 4 = 0 then some [a * 4 + b / 16, b % 16 * 16 + c / 4] else none
  | a :: b :: c :: d :: t =>
    match b64DecodeVals t with
    | none => none
    | some r =>
      some ((a * 4 + b / 16) :: (b % 16 * 16 + c / 4) :: (c % 4 * 64 + d) :: r)

/-- Decode of `base64::engine::general_purpose::STANDARD_NO_PAD`. -/
def b64Decode (s : List Char) : Option (List Nat) :=
  (b64Vals s).bind b64DecodeVals

/-- Encode of `base64::engine::general_purpose::STANDARD_NO_PAD`. -/
def b64EncodeBytes : List Nat → List Char
  | [] => []
  | [a] => [b64Ch (a / 4), b64Ch (a % 4 * 16)]
  | [a, b] => [b64Ch (a / 4), b64Ch (a % 4 * 16 + b / 16), b64Ch (b % 16 * 4)]
  | a :: b :: c :: t =>
    b64Ch (a / 4) :: b64Ch (a % 4 * 16 + b / 16) ::
      b64Ch (b % 16 * 4 + c / 64) :: b64Ch (c % 64) :: b64EncodeBytes t

/-- The base64 crate's conservative `decoded_len_estimate` for an input
of `n` characters: `(n / 4 + (n % 4 > 0)) * 3`, an upper bound computed
before any decoding. -/
def b64EstLen (n : Nat) : Nat :=
  (n / 4 + (if n % 4 > 0 then 1 else 0)) * 3

/-- `Engine::decode_slice` into the fixed 32-byte id buffer of
`parse_resty`: it first errors (`OutputSliceTooSmall`) whenever the
conservative estimate exceeds the buffer, and only then decodes. -/
def decodeSlice32 (be : List Char) : Option (List Nat) :=
  if b64EstLen be.length ≤ 32 then b64Decode be else none

/-- Rust `str::strip_prefix`. -/
def stripPre (t s : List Char) : Option (List Char) :=
  if s.take t.length = t then some (s.drop t.length) else none

/-- Rust `str::split_once` on a single-character pattern. -/
def splitOnce (c : Char) : List Char → Option (List Char × List Char)
  | [] => none
  | x :: t =>
    if x = c then some ([], t)
    else
      match splitOnce c t with
      | none => none
      | some (a, b) => some (x :: a, b)

/-- Resource-type reference (`ResTy` in `lib.rs`). -/
inductive ResTy where
  | None : ResTy
  | Of : List Nat → ResTy
  | This : ResTy
deriving DecidableEq

/-- Final branch of the crate's `parse_resty`: an optional run of
exactly 64 hex digits, with absence mapped to `ResTy::None`. -/
def restyHexFall (a : List Char) : Option (List Char × ResTy) :=
  match optP (takeWhileMN 64 64 isHexCh) a with
  | none => none
  | some (r, some d) => some (r, ResTy.Of (hexDecodePairs d))
  | some (r, none) => some (r, ResTy.None)

/-- The crate's `parse_resty` (with `restyHexFall` above naming its final
`opt(take_while_m_n(64, 64, hex))` step, and `decodeSlice32` naming its
`decode_slice` call into the 32-byte buffer). -/
def parse_resty (a : List Char) : Option (List Char × ResTy) :=
  match stripPre (str "this") a with
  | some r => some (r, ResTy.This)
  | none =>
    match stripPre (str "~b64") a with
    | none => restyHexFall a
    | some rest =>
      match splitOnce '~' rest with
      | none => restyHexFall a
      | some (be, after) =>
        match decodeSlice32 be with
        | some bytes =>
          if bytes.length = 32 then some (after, ResTy.Of bytes)
          else restyHexFall a
        | none => restyHexFall a

/-- Condition under which `parse_resty` takes its base64 branch: a
`~b64` prefix, a closing `~`, and a `decode_slice` into the 32-byte
buffer yielding exactly 32 bytes (`b64At_false` below proves this can
never hold: the size estimate rejects every 32-byte decode first). -/
def b64At (s : List Char) : Bool :=
  match stripPre (str "~b64") s with
  | none => false
  | some rest =>
    match splitOnce '~' rest with
    | none => false
    | some (be, _) =>
      match decodeSlice32 be with
      | none => false
      | some bytes => bytes.length == 32

/-- Condition under which `parse_resty` reads a hex id: at least 64
leading hexadecimal digits. -/
def hex64At (s : List Char) : Bool :=
  64 ≤ ((s.take 64).takeWhile isHexCh).length

/-- Arity tree (`Arity` in `lib.rs`): labels mapped to sub-arities; the
list is the `BTreeMap` contents in ascending label order. -/
inductive Arity where
  | mk : List (List Char × Arity) → Arity

/-- Field accessor for `Arity::to_fill`. -/
def Arity.to_fill : Arity → List (List Char × Arity)
  | .mk l => l

mutual
/-- `Mangle::mangle` for `Arity`: `;<count>` then `P<label><subtree>`
for each entry in map order. -/
def mangleArity : Arity → List Char
  | .mk l => ';' :: (natToDec l.length ++ mangleArityList l)

/-- Mangling of an `Arity` entry list. -/
def mangleArityList : List (List Char × Arity) → List Char
  | [] => []
  | (a, b) :: t => 'P' :: (a ++ mangleArity b ++ mangleArityList t)
end

/-- The count parser `tag(";").and_then(alphanumeric1.map_opt(parse))`
appearing in `Arity::demangle` and `Param::demangle`: note nom's
`and_then` runs the inner parser over the OUTPUT of `tag(";")`, i.e.
over the one-character string `;` itself. -/
def mangleCount (s : List Char) : Option (List Char × Nat) :=
  andThenP (tagP (str ";")) (mapOptP alphanumeric1 parseUsize) s

/-- `Mangle::demangle` for `Arity`: header count, then `many1` of
`(label, child count)` pairs, then the right-to-left stack reduction. -/
def Arity.demangle (a : List Char) : Option (List Char × Arity) := do
  let (a, b) ← mangleCount a
  let (a, m) ← many1 (pair2P (andThenP (tagP (str "P")) alphanumeric1)
    mangleCount) a
  let stack := m.reverse.foldl
    (fun (stack : List (List Char × Arity)) (ij : List Char × Nat) =>
      (ij.1, Arity.mk (toMapA lexLt (stack.take ij.2))) :: stack.drop ij.2)
    []
  some (a, Arity.mk (toMapA lexLt (stack.take b)))

/-- Generic parameter (`Param` in `generics.rs`). -/
inductive Param where
  | Attr : Attr → Param
  | Interface : List Nat → List (List Char × Param) → Param

mutual
/-- `Mangle::mangle` for `Param`: an attribute mangles as its own
`[name=value]` text; an interface reference as `R<hex id>;<count>`
followed by `;<label>;<mangled param>` per entry. -/
def mangleParam : Param → List Char
  | .Attr a => renderAttr a
  | .Interface rid params =>
    'R' :: (hexEncode rid ++ ';' :: (natToDec params.length ++
      mangleParamList params))

/-- Mangling of a `Param` entry list. -/
def mangleParamList : List (List Char × Param) → List Char
  | [] => []
  | (a, b) :: t => ';' :: (a ++ ';' :: (mangleParam b ++ mangleParamList t))
end

/-- The `parse_nonattr` branch of `Param::demangle`, parameterized by
the recursive occurrence; its header is
`tag("R").and_then(take_while_m_n(64, 64, hex))`, which again runs the
hex scan over the literal `R` itself. -/
def parse_nonattrF (g : P Param) (a : List Char) :
    Option (List Char × Param) := do
  let (a, b) ← pair2P
    (andThenP (tagP (str "R")) (mapP (takeWhileMN 64 64 isHexCh)
      hexDecodePairs))
    mangleCount a
  let (a, params) ← countP
    (pair2P (andThenP (tagP (str ";")) alphanumeric1)
      (andThenP (tagP (str ";")) g)) b.2 a
  some (a, Param.Interface b.1 (toMapA lexLt params))

/-- Fuel-indexed `Mangle::demangle` for `Param` (the fuel only feeds the
structural recursion; `Param.demangle` below supplies enough). -/
def demangleParamF : Nat → List Char → Option (List Char × Param)
  | 0, _ => none
  | fuel + 1, a =>
    orP (mapP parse_attr Param.Attr) (parse_nonattrF (demangleParamF fuel)) a

/-- `Mangle::demangle` for `Param`. -/
def Param.demangle (a : List Char) : Option (List Char × Param) :=
  demangleParamF (a.length + 1) a

/-- Strict order on `Nat` keys as a Bool (for `BTreeMap<usize, _>`). -/
def natLt (a b : Nat) : Bool := a < b

/-- Attribute list sorted strictly ascending by name (no duplicates). -/
def sortedAttrs (l : List Attr) : Prop :=
  l.Pairwise (fun x y => lexLt x.name y.name = true)

/-- Attributes of one method parameter or return slot (`ParamEntry`). -/
structure ParamEntry where
  attrs : List Attr
deriving DecidableEq

/-- Rust `ParamEntry::default()`. -/
def ParamEntry.default : ParamEntry := ⟨[]⟩

/-- The crate's `ParamEntry::merge`. -/
def ParamEntry.merge (self x : ParamEntry) : ParamEntry :=
  ⟨Pit.merge self.attrs x.attrs⟩

/-- Attributes, parameter slots and return slots of a method
(`MethEntry`); the slot lists model `BTreeMap<usize, ParamEntry>`. -/
structure MethEntry where
  attrs : List Attr
  params : List (Nat × ParamEntry)
  returns : List (Nat × ParamEntry)
deriving DecidableEq

/-- Rust `MethEntry::default()`. -/
def MethEntry.default : MethEntry := ⟨[], [], []⟩

/-- The key-wise merge loop shared by `Info::merge`, `InfoEntry::merge`
and `MethEntry::merge`: chain both maps and, entry by entry, merge into
what the accumulator already holds (`m.remove(&k).unwrap_or_default()
.merge(v)` then insert). -/
def mergeFold (lt : κ → κ → Bool) [DecidableEq κ] (dflt : β)
    (mrg : β → β → β) (a b : List (κ × β)) : List (κ × β) :=
  (a ++ b).foldl
    (fun m p => insertA lt p.1 (mrg ((lookupA p.1 m).getD dflt) p.2) m) []

/-- The crate's `MethEntry::merge`. -/
def MethEntry.merge (self x : MethEntry) : MethEntry :=
  ⟨Pit.merge self.attrs x.attrs,
   mergeFold natLt ParamEntry.default ParamEntry.merge self.params x.params,
   mergeFold natLt ParamEntry.default ParamEntry.merge self.returns x.returns⟩

/-- Attributes and methods of one interface (`InfoEntry`). -/
structure InfoEntry where
  attrs : List Attr
  methods : List (List Char × MethEntry)
deriving DecidableEq

/-- Rust `InfoEntry::default()`. -/
def InfoEntry.default : InfoEntry := ⟨[], []⟩

/-- The crate's `InfoEntry::merge`. -/
def InfoEntry.merge (self x : InfoEntry) : InfoEntry :=
  ⟨Pit.merge self.attrs x.attrs,
   mergeFold lexLt MethEntry.default MethEntry.merge self.methods x.methods⟩

/-- Top-level interface information map (`Info`), keyed by 32-byte id. -/
structure Info where
  interfaces : List (List Nat × InfoEntry)
deriving DecidableEq

/-- Rust `Info::default()`. -/
def Info.default : Info := ⟨[]⟩

/-- The crate's `Info::merge`. -/
def Info.merge (self x : Info) : Info :=
  ⟨mergeFold lexLtN InfoEntry.default InfoEntry.merge self.interfaces
    x.interfaces⟩

/-- Normal form of a `MethEntry` as Rust can only build it through
parsing or merging: attribute lists strictly name-sorted and the slot
maps well-formed. -/
def MethEntry.norm (m : MethEntry) : Prop :=
  sortedAttrs m.attrs ∧ MapWF natLt m.params ∧ MapWF natLt m.returns ∧
    (∀ p ∈ m.params, sortedAttrs p.2.attrs) ∧
    (∀ p ∈ m.returns, sortedAttrs p.2.attrs)

/-- Normal form of an `InfoEntry`. -/
def InfoEntry.norm (e : InfoEntry) : Prop :=
  sortedAttrs e.attrs ∧ MapWF lexLt e.methods ∧
    ∀ q ∈ e.methods, MethEntry.norm q.2

/-- Normal form of an `Info`. -/
def Info.norm (i : Info) : Prop :=
  MapWF lexLtN i.interfaces ∧ ∀ q ∈ i.interfaces, InfoEntry.norm q.2

instance (l : List Attr) : Decidable (sortedAttrs l) :=
  inferInstanceAs
    (Decidable (l.Pairwise fun (x y : Attr) => lexLt x.name y.name = true))

instance (lt : κ → κ → Bool) (m : List (κ × β)) : Decidable (MapWF lt m) :=
  inferInstanceAs
    (Decidable (m.Pairwise fun (p q : κ × β) => lt p.1 q.1 = true))

instance (m : MethEntry) : Decidable m.norm :=
  inferInstanceAs (Decidable (sortedAttrs m.attrs ∧ MapWF natLt m.params ∧
    MapWF natLt m.returns ∧ (∀ p ∈ m.params, sortedAttrs p.2.attrs) ∧
    (∀ p ∈ m.returns, sortedAttrs p.2.attrs)))

instance (e : InfoEntry) : Decidable e.norm :=
  inferInstanceAs (Decidable (sortedAttrs e.attrs ∧ MapWF lexLt e.methods ∧
    ∀ q ∈ e.methods, MethEntry.norm q.2))

instance (i : Info) : Decidable i.norm :=
  inferInstanceAs (Decidable (MapWF lexLtN i.interfaces ∧
    ∀ q ∈ i.interfaces, InfoEntry.norm q.2))

/-- Method argument type (`Arg` in `lib.rs`). -/
inductive Arg where
  | I32 : Arg
  | I64 : Arg
  | F32 : Arg
  | F64 : Arg
  | Resource : ResTy → Bool → Bool → List Attr → Arg
deriving DecidableEq

/-- Method signature (`Sig` in `lib.rs`). -/
structure Sig where
  ann : List Attr
  params : List Arg
  rets : List Arg
deriving DecidableEq

/-- Interface (`Interface` in `lib.rs`); `methods` models the
`BTreeMap<String, Sig>` contents in ascending key order. -/
structure Interface where
  methods : List (List Char × Sig)
  ann : List Attr
deriving DecidableEq

/-- Capability lookup context threaded through rendering (`gattrs`). -/
def GAttrs : Type := List Char → Option Nat

/-- Concatenated `Display` text of an attribute list (the render code
joins the `[name=value]` texts with no separator). -/
def renderAttrs (l : List Attr) : List Char := l.flatMap renderAttr

/-- `ResTy::render`: nothing for `None`; the id in `~b64…~` form when
capability `ridFmtVer` is at least 1 and lowercase hex otherwise;
literal `this` for `This`. -/
def renderResTy (g : GAttrs) : ResTy → List Char
  | ResTy.None => []
  | ResTy.Of v =>
    if 1 ≤ (g (str "ridFmtVer")).getD 0 then
      '~' :: 'b' :: '6' :: '4' :: (b64EncodeBytes v ++ ['~'])
    else hexEncode v
  | ResTy.This => str "this"

/-- `Arg::render`. -/
def renderArg (g : GAttrs) : Arg → List Char
  | Arg.I32 => str "I32"
  | Arg.I64 => str "I64"
  | Arg.F32 => str "F32"
  | Arg.F64 => str "F64"
  | Arg.Resource ty nullable take ann =>
    renderAttrs ann ++ 'R' :: (renderResTy g ty ++
      (if nullable then ['n'] else []) ++ (if take then [] else ['&']))

/-- Comma-joined argument list, as the `Sig::render` loops emit it. -/
def renderArgsJ (g : GAttrs) : List Arg → List Char
  | [] => []
  | a :: t => renderArg g a ++ t.flatMap (fun b => ',' :: renderArg g b)

/-- `Sig::render`. -/
def renderSig (g : GAttrs) (sg : Sig) : List Char :=
  renderAttrs sg.ann ++ '(' :: (renderArgsJ g sg.params ++
    (str ") -> (" ++ (renderArgsJ g sg.rets ++ [')'])))

/-- Ascending-by-key comparison modelling `sort_by_key(|a| a.0)` over
the method list. -/
def methLe (x y : List Char × Sig) : Bool := !(lexLt y.1 x.1)

/-- Semicolon-joined method list as `Interface::render` emits it. -/
def renderMethodsJ (g : GAttrs) : List (List Char × Sig) → List Char
  | [] => []
  | (k, sg) :: t =>
    k ++ renderSig g sg ++
      t.flatMap (fun q => ';' :: (q.1 ++ renderSig g q.2))

/-- `Interface::render`: annotations, `{`, name-sorted methods joined
by `;`, `}`. -/
def renderInterface (g : GAttrs) (v : Interface) : List Char :=
  renderAttrs v.ann ++ '\x7b' ::
    (renderMethodsJ g (insSort methLe v.methods) ++ ['\x7d'])

/-- `find_map(|a| a.as_ver(name))` over an attribute list. -/
def findAsVer (ab : List Char) (l : List Attr) : Option Nat :=
  l.findSome? (fun a => a.as_ver ab)

/-- `Display` for `Interface`: render with the interface's own
annotations supplying the capability lookup. -/
def displayInterface (v : Interface) : List Char :=
  renderInterface (fun ab => findAsVer ab v.ann) v

/-- `Interface::rid` parameterized by the hash: stream the `Display`
text through SHA3-256 (`h` stands for the hash so every fact proved
holds for SHA3-256 in particular). -/
def rid (h : List Char → List Nat) (v : Interface) : List Nat :=
  h (displayInterface v)

/-- The crate's `parse_arg`. -/
def parse_arg (a0 : List Char) : Option (List Char × Arg) := do
  let (a, ann) ← parse_attrs a0
  let (a, _) ← multispace0 a
  match stripPre (str "R") a with
  | some b => do
    let (a, d) ← parse_resty b
    let (a, k) ← optP (tagP (str "n")) a
    let (a, tk) ← optP (tagP (str "&")) a
    some (a, Arg.Resource d k.isSome tk.isNone ann)
  | none => do
    let (a, c) ← takeP 3 a
    if c = str "I32" then some (a, Arg.I32)
    else if c = str "I64" then some (a, Arg.I64)
    else if c = str "F32" then some (a, Arg.F32)
    else if c = str "F64" then some (a, Arg.F64)
    else none

/-- The crate's `parse_sig`. -/
def parse_sig (a0 : List Char) : Option (List Char × Sig) := do
  let (a, b) ← parse_attrs a0
  let (a, _) ← multispace0 a
  let (a, params) ← delimitedP (charP '(') (sepList0 (charP ',') parse_arg)
    (charP ')') a
  let (a, _) ← multispace0 a
  let (a, _) ← tagP (str "->") a
  let (a, _) ← multispace0 a
  let (a, rets) ← delimitedP (charP '(') (sepList0 (charP ',') parse_arg)
    (charP ')') a
  some (a, ⟨b, params, rets⟩)

/-- The inner `go` of `parse_interface`: semicolon-separated
`ident Sig` pairs collected into the method map, empty annotations. -/
def parse_interface_go (a0 : List Char) : Option (List Char × Interface) := do
  let (a, s) ← sepList0 (charP ';') (pair3P multispace0 ident parse_sig) a0
  let (a, _) ← multispace0 a
  some (a, ⟨toMapA lexLt (s.map (fun t => (t.2.1, t.2.2))), []⟩)

/-- The crate's `parse_interface`. -/
def parse_interface (a0 : List Char) : Option (List Char × Interface) := do
  let (a, _) ← multispace0 a0
  let (a, b) ← parse_attrs a
  let (a, c) ← delimitedP (charP '\x7b') parse_interface_go (charP '\x7d') a
  some (a, ⟨c.methods, b⟩)

/-- True when the text does not begin with whitespace (so a leading
`multispace0` consumes nothing). -/
def headNotWs (s : List Char) : Bool :=
  match s with
  | [] => true
  | c :: _ => !isWs c

/-- Bracket-balance check qualifying an attribute value: scanning from
depth `d`, never a `]` at depth zero, ending back at depth zero. -/
def balGo : Nat → List Char → Bool
  | d, [] => d == 0
  | d, c :: t =>
    if c = '[' then balGo (d + 1) t
    else if c = ']' then (if d == 0 then false else balGo (d - 1) t)
    else balGo d t

/-- Attribute representable by its own rendering: no `=` in the name,
no leading whitespace in name or value, and a balanced value. -/
def validAttr (a : Attr) : Bool :=
  a.name.all (fun c => !(c = '=')) && headNotWs a.name &&
    headNotWs a.value && balGo 0 a.value

/-- Attribute list as `parse_attrs` can produce it: every attribute
representable and the list sorted by name (so the stable re-sort is the
identity). -/
def ValidAttrList (l : List Attr) : Prop :=
  (∀ a ∈ l, validAttr a = true) ∧ l.Pairwise (fun x y => attrLe x y = true)

/-- Resource reference with a well-formed 32-byte id. -/
def ValidResTy : ResTy → Prop
  | ResTy.None => True
  | ResTy.This => True
  | ResTy.Of id => id.length = 32 ∧ ∀ b ∈ id, b < 256

/-- Argument built from valid components. -/
def ValidArg : Arg → Prop
  | Arg.Resource ty _ _ ann => ValidAttrList ann ∧ ValidResTy ty
  | _ => True

/-- Signature built from valid components. -/
def ValidSig (sg : Sig) : Prop :=
  ValidAttrList sg.ann ∧ (∀ p ∈ sg.params, ValidArg p) ∧
    ∀ p ∈ sg.rets, ValidArg p

/-- Method name acceptable to `ident`: nonempty, ident charset. -/
def ValidMethodName (n : List Char) : Prop :=
  n ≠ [] ∧ ∀ c ∈ n, isIdentCh c = true

/-- Interface built from valid components whose own annotations select
the hex `ResTy` form (no usable `ridFmtVer` capability). -/
def ValidInterface (v : Interface) : Prop :=
  ValidAttrList v.ann ∧ MapWF lexLt v.methods ∧
    (∀ q ∈ v.methods, ValidMethodName q.1 ∧ ValidSig q.2) ∧
    findAsVer (str "ridFmtVer") v.ann = none

instance (l : List Attr) : Decidable (ValidAttrList l) :=
  inferInstanceAs (Decidable ((∀ a ∈ l, validAttr a = true) ∧
    l.Pairwise fun (x y : Attr) => attrLe x y = true))

instance (t : ResTy) : Decidable (ValidResTy t) := by
  cases t with
  | None => exact inferInstanceAs (Decidable True)
  | Of id =>
    exact inferInstanceAs (Decidable (id.length = 32 ∧ ∀ b ∈ id, b < 256))
  | This => exact inferInstanceAs (Decidable True)

instance (ar : Arg) : Decidable (ValidArg ar) := by
  cases ar with
  | Resource ty nb tk ann =>
    exact inferInstanceAs (Decidable (ValidAttrList ann ∧ ValidResTy ty))
  | I32 => exact inferInstanceAs (Decidable True)
  | I64 => exact inferInstanceAs (Decidable True)
  | F32 => exact inferInstanceAs (Decidable True)
  | F64 => exact inferInstanceAs (Decidable True)

instance (sg : Sig) : Decidable (ValidSig sg) :=
  inferInstanceAs (Decidable (ValidAttrList sg.ann ∧
    (∀ p ∈ sg.params, ValidArg p) ∧ ∀ p ∈ sg.rets, ValidArg p))

instance (n : List Char) : Decidable (ValidMethodName n) :=
  inferInstanceAs (Decidable (n ≠ [] ∧ ∀ c ∈ n, isIdentCh c = true))

instance (v : Interface) : Decidable (ValidInterface v) :=
  inferInstanceAs (Decidable (ValidAttrList v.ann ∧ MapWF lexLt v.methods ∧
    (∀ q ∈ v.methods, ValidMethodName q.1 ∧ ValidSig q.2) ∧
    findAsVer (str "ridFmtVer") v.ann = none))

/-- Text at which an attempt at a further attribute fails: either the
end of input or a character that is neither whitespace nor `[`. -/
def attrStop (s : List Char) : Bool :=
  match s with
  | [] => true
  | c :: _ => !isWs c && !(c = '[')

/-- Context directly following an argument inside a signature: a comma
or the closing parenthesis. -/
def argCtx (rest : List Char) : Bool :=
  match rest with
  | c :: _ => c = ',' || c = ')'
  | [] => false

/-- Text whose first character (if any) differs from `c`. -/
def headNe (c : Char) : List Char → Prop
  | [] => True
  | d :: _ => ¬ d = c

/-- Context directly following a signature inside an interface: the
method separator or the closing brace. -/
def sigCtx (rest : List Char) : Bool :=
  match rest with
  | c :: _ => c = ';' || c = '\x7d'
  | [] => false

/-- One line of the `InfoEntry` grammar (the local `InfoLine` enum inside
`InfoEntry::parse`). -/
inductive InfoLine where
  | Root : Attr → InfoLine
  | Method : List Char → Attr → InfoLine
  | Param : List Char → Nat → Attr → InfoLine
  | Return : List Char → Nat → Attr → InfoLine
deriving DecidableEq

/-- Shared body of the `param` and `return` branches of
`parse_info_line`: whitespace, a method name (`alphanumeric1`), more
whitespace, an index (`alphanumeric1` then `str::parse::<usize>`, whose
failure aborts the line parse), whitespace and an attribute. -/
def parse_meth_idx_attr (a0 : List Char) :
    Option (List Char × (List Char × Nat × Attr)) := do
  let (a, _) ← multispace0 a0
  let (a, mname) ← alphanumeric1 a
  let (a, _) ← multispace0 a
  let (a, idxs) ← alphanumeric1 a
  match parseUsize idxs with
  | none => none
  | some idx => do
    let (a, _) ← multispace0 a
    let (a, attr) ← parse_attr a
    some (a, (mname, idx, attr))

/-- The crate's `parse_info_line` (local to `InfoEntry::parse`): skip
whitespace, then try the `root`, `param`, `return` and `method` tags in
that order; once a tag matches, a failure in the rest of that branch
fails the whole line parse. -/
def parse_info_line (s0 : List Char) : Option (List Char × InfoLine) := do
  let (a, _) ← multispace0 s0
  match tagP (str "root") a with
  | some (a, _) => do
    let (a, _) ← multispace0 a
    let (a, attr) ← parse_attr a
    some (a, InfoLine.Root attr)
  | none =>
    match tagP (str "param") a with
    | some (a, _) =>
      match parse_meth_idx_attr a with
      | none => none
      | some (a, (m, i, x)) => some (a, InfoLine.Param m i x)
    | none =>
      match tagP (str "return") a with
      | some (a, _) =>
        match parse_meth_idx_attr a with
        | none => none
        | some (a, (m, i, x)) => some (a, InfoLine.Return m i x)
      | none =>
        match tagP (str "method") a with
        | some (a, _) => do
          let (a, _) ← multispace0 a
          let (a, mname) ← alphanumeric1 a
          let (a, _) ← multispace0 a
          let (a, attr) ← parse_attr a
          some (a, InfoLine.Method mname attr)
        | none => none

/-- `map.entry(k).or_insert_with(Default::default)` followed by a
mutation `f` of the entry, on the association-list map model. -/
def updEntryA (lt : κ → κ → Bool) [DecidableEq κ] (dflt : β) (k : κ)
    (f : β → β) (m : List (κ × β)) : List (κ × β) :=
  insertA lt k (f ((lookupA k m).getD dflt)) m

/-- One turn of the line-processing loop of `InfoEntry::parse`: push a
root attribute, or push an attribute into the named method entry (or its
parameter or return slot), creating missing entries with defaults. -/
def applyInfoLine (st : List Attr × List (List Char × MethEntry)) :
    InfoLine → List Attr × List (List Char × MethEntry)
  | InfoLine.Root a => (st.1 ++ [a], st.2)
  | InfoLine.Method k a =>
    (st.1, updEntryA lexLt MethEntry.default k
      (fun m => ⟨m.attrs ++ [a], m.params, m.returns⟩) st.2)
  | InfoLine.Param k i a =>
    (st.1, updEntryA lexLt MethEntry.default k
      (fun m => ⟨m.attrs,
        updEntryA natLt ParamEntry.default i
          (fun p => ⟨p.attrs ++ [a]⟩) m.params,
        m.returns⟩) st.2)
  | InfoLine.Return k i a =>
    (st.1, updEntryA lexLt MethEntry.default k
      (fun m => ⟨m.attrs, m.params,
        updEntryA natLt ParamEntry.default i
          (fun p => ⟨p.attrs ++ [a]⟩) m.returns⟩) st.2)

/-- The attribute sort `InfoEntry::parse` applies to a parameter or
return slot (`param_entry.attrs.sort_by_key(|k| k.name.clone())`). -/
def sortParamA (p : ParamEntry) : ParamEntry := ⟨insSort attrLe p.attrs⟩

/-- The attribute sorts `InfoEntry::parse` applies inside one method
entry: its own attributes and those of every slot. -/
def sortMethA (m : MethEntry) : MethEntry :=
  ⟨insSort attrLe m.attrs,
   m.params.map (fun q => (q.1, sortParamA q.2)),
   m.returns.map (fun q => (q.1, sortParamA q.2))⟩

/-- The crate's `InfoEntry::parse`: whitespace, `many0` of info lines,
the build loop over the lines, the attribute sorts, and trailing
whitespace. -/
def InfoEntry.parse (s0 : List Char) : Option (List Char × InfoEntry) := do
  let (a, _) ← multispace0 s0
  let (a, lines) ← many0 parse_info_line a
  let st := lines.foldl applyInfoLine
    (([], []) : List Attr × List (List Char × MethEntry))
  let (a, _) ← multispace0 a
  some (a, ⟨insSort attrLe st.1, st.2.map (fun q => (q.1, sortMethA q.2))⟩)

/-- The crate's `parse_interface_entry` (local to `Info::parse`):
whitespace, exactly 64 hex digits decoded to the 32-byte id, whitespace,
`:`, whitespace, then `[` `InfoEntry::parse` `]`. -/
def parse_interface_entry (s0 : List Char) :
    Option (List Char × (List Nat × InfoEntry)) := do
  let (a, _) ← multispace0 s0
  let (a, hex_id) ← takeWhileMN 64 64 isHexCh a
  let idb := hexDecodePairs hex_id
  let (a, _) ← multispace0 a
  let (a, _) ← tagP (str ":") a
  let (a, _) ← multispace0 a
  let (a, entry) ← delimitedP (tagP (str "[")) InfoEntry.parse
    (tagP (str "]")) a
  some (a, (idb, entry))

/-- The crate's `Info::parse`: `many0` interface entries collected into
the id-keyed `BTreeMap`. -/
def Info.parse (s0 : List Char) : Option (List Char × Info) := do
  let (a, entries) ← many0 parse_interface_entry s0
  some (a, ⟨toMapA lexLtN entries⟩)

/-- The `method`/`param`/`return` lines one method contributes to the
`Display` text of an `InfoEntry` (each `writeln!` ends in a newline). -/
def renderMethLines (k : List Char) (m : MethEntry) : List Char :=
  m.attrs.flatMap (fun a => str "method " ++ k ++ ' ' :: renderAttr a ++
    ['\n']) ++
  m.params.flatMap (fun q => q.2.attrs.flatMap (fun a =>
    str "param " ++ k ++ ' ' :: natToDec q.1 ++ ' ' :: renderAttr a ++
      ['\n'])) ++
  m.returns.flatMap (fun q => q.2.attrs.flatMap (fun a =>
    str "return " ++ k ++ ' ' :: natToDec q.1 ++ ' ' :: renderAttr a ++
      ['\n']))

/-- Rust `Display` for `InfoEntry`: `root` lines for its own attributes,
then each method's lines in map order. -/
def renderInfoEntry (e : InfoEntry) : List Char :=
  e.attrs.flatMap (fun a => str "root " ++ renderAttr a ++ ['\n']) ++
  e.methods.flatMap (fun q => renderMethLines q.1 q.2)

/-- Rust `Display` for `Info`: `hex(id): [entry]` for each interface in
map order, with no separator between entries. -/
def renderInfo (i : Info) : List Char :=
  i.interfaces.flatMap (fun q =>
    hexEncode q.1 ++ str ": [" ++ renderInfoEntry q.2 ++ str "]")

/-- The text of one info line as `Display` for `InfoEntry` writes it. -/
def renderLine : InfoLine → List Char
  | InfoLine.Root a => str "root " ++ renderAttr a ++ ['\n']
  | InfoLine.Method k a => str "method " ++ k ++ ' ' :: renderAttr a ++
      ['\n']
  | InfoLine.Param k i a => str "param " ++ k ++ ' ' :: natToDec i ++
      ' ' :: renderAttr a ++ ['\n']
  | InfoLine.Return k i a => str "return " ++ k ++ ' ' :: natToDec i ++
      ' ' :: renderAttr a ++ ['\n']

/-- The info lines one method entry stands for. -/
def mlinesOf (k : List Char) (m : MethEntry) : List InfoLine :=
  m.attrs.map (InfoLine.Method k) ++
  m.params.flatMap (fun q => q.2.attrs.map (InfoLine.Param k q.1)) ++
  m.returns.flatMap (fun q => q.2.attrs.map (InfoLine.Return k q.1))

/-- The info lines an `InfoEntry` renders to. -/
def linesOf (e : InfoEntry) : List InfoLine :=
  e.attrs.map InfoLine.Root ++
  e.methods.flatMap (fun q => mlinesOf q.1 q.2)

/-- A line the render can produce and the line parse reads back: method
names nonempty and alphanumeric, indices within `usize` range,
attributes representable by their own text. -/
def ValidLine : InfoLine → Prop
  | InfoLine.Root a => validAttr a = true
  | InfoLine.Method k a => k ≠ [] ∧ k.all isAlnum = true ∧
      validAttr a = true
  | InfoLine.Param k i a => k ≠ [] ∧ k.all isAlnum = true ∧
      i < usizeCap ∧ validAttr a = true
  | InfoLine.Return k i a => k ≠ [] ∧ k.all isAlnum = true ∧
      i < usizeCap ∧ validAttr a = true

/-- Attribute list in the shape `InfoEntry::parse` outputs: every
attribute representable and names strictly ascending (sorted, no
duplicates). -/
def ValidAttrListS (l : List Attr) : Prop :=
  (∀ a ∈ l, validAttr a = true) ∧ sortedAttrs l

/-- Method entry that survives the render/parse cycle: sorted
representable attribute lists, well-formed slot maps with `usize`
indices, every slot carrying at least one attribute, and at least one
line overall (an entry with no lines renders to nothing and is lost). -/
def MethEntry.wfR (m : MethEntry) : Prop :=
  ValidAttrListS m.attrs ∧ MapWF natLt m.params ∧ MapWF natLt m.returns ∧
  (∀ q ∈ m.params, q.2.attrs ≠ [] ∧ ValidAttrListS q.2.attrs ∧
    q.1 < usizeCap) ∧
  (∀ q ∈ m.returns, q.2.attrs ≠ [] ∧ ValidAttrListS q.2.attrs ∧
    q.1 < usizeCap) ∧
  (m.attrs ≠ [] ∨ m.params ≠ [] ∨ m.returns ≠ [])

/-- Interface entry that survives the render/parse cycle. -/
def InfoEntry.wfR (e : InfoEntry) : Prop :=
  ValidAttrListS e.attrs ∧ MapWF lexLt e.methods ∧
  ∀ q ∈ e.methods, (q.1 ≠ [] ∧ q.1.all isAlnum = true) ∧
    MethEntry.wfR q.2

/-- Info tree that survives the render/parse cycle: well-formed id map
with genuine 32-byte ids, entries themselves well-formed. -/
def Info.wfR (i : Info) : Prop :=
  MapWF lexLtN i.interfaces ∧
  ∀ q ∈ i.interfaces, (q.1.length = 32 ∧ ∀ b ∈ q.1, b < 256) ∧
    InfoEntry.wfR q.2

instance (l : List Attr) : Decidable (ValidAttrListS l) :=
  inferInstanceAs (Decidable ((∀ a ∈ l, validAttr a = true) ∧
    sortedAttrs l))

instance (m : MethEntry) : Decidable m.wfR :=
  inferInstanceAs (Decidable (ValidAttrListS m.attrs ∧
    MapWF natLt m.params ∧ MapWF natLt m.returns ∧
    (∀ q ∈ m.params, q.2.attrs ≠ [] ∧ ValidAttrListS q.2.attrs ∧
      q.1 < usizeCap) ∧
    (∀ q ∈ m.returns, q.2.attrs ≠ [] ∧ ValidAttrListS q.2.attrs ∧
      q.1 < usizeCap) ∧
    (m.attrs ≠ [] ∨ m.params ≠ [] ∨ m.returns ≠ [])))

instance (e : InfoEntry) : Decidable e.wfR :=
  inferInstanceAs (Decidable (ValidAttrListS e.attrs ∧
    MapWF lexLt e.methods ∧
    ∀ q ∈ e.methods, (q.1 ≠ [] ∧ q.1.all isAlnum = true) ∧
      MethEntry.wfR q.2))

instance (i : Info) : Decidable i.wfR :=
  inferInstanceAs (Decidable (MapWF lexLtN i.interfaces ∧
    ∀ q ∈ i.interfaces, (q.1.length = 32 ∧ ∀ b ∈ q.1, b < 256) ∧
      InfoEntry.wfR q.2))

/-- The method key a line addresses, if any. -/
def lineKey : InfoLine → Option (List Char)
  | InfoLine.Root _ => none
  | InfoLine.Method k _ => some k
  | InfoLine.Param k _ _ => some k
  | InfoLine.Return k _ _ => some k

/-- The text `Display` for `Info` writes for one interface entry. -/
def entryText (q : List Nat × InfoEntry) : List Char :=
  hexEncode q.1 ++ str ": [" ++ renderInfoEntry q.2 ++ str "]"

theorem lexLtBy_irrefl (f : α → Nat) : ∀ l, lexLtBy f l l = false := by
  intro l
  induction l with
  | nil => rfl
  | cons a t ih => simp [lexLtBy, ih]

theorem lexLtBy_eq_of_not_lt {f : α → Nat} (hf : Function.Injective f) :
    ∀ {x y : List α}, lexLtBy f x y = false → lexLtBy f y x = false → x = y := by
  intro x
  induction x with
  | nil => intro y hxy _; cases y with
    | nil => rfl
    | cons b t => simp [lexLtBy] at hxy
  | cons a s ih =>
    intro y hxy hyx
    cases y with
    | nil => simp [lexLtBy] at hyx
    | cons b t =>
      simp only [lexLtBy] at hxy hyx
      rcases Nat.lt_trichotomy (f a) (f b) with h | h | h
      · simp [h] at hxy
      · have hab : a = b := hf h
        subst hab
        simp only [Nat.lt_irrefl, if_false] at hxy hyx
        rw [ih hxy hyx]
      · simp [h] at hyx

theorem lexLtBy_trans {f : α → Nat} :
    ∀ {x y z : List α}, lexLtBy f x y = true → lexLtBy f y z = true →
      lexLtBy f x z = true := by
  intro x
  induction x with
  | nil =>
    intro y z hxy hyz
    cases y with
    | nil => simp [lexLtBy] at hxy
    | cons b t =>
      cases z with
      | nil => simp [lexLtBy] at hyz
      | cons c u => simp [lexLtBy]
  | cons a s ih =>
    intro y z hxy hyz
    cases y with
    | nil => simp [lexLtBy] at hxy
    | cons b t =>
      cases z with
      | nil => simp [lexLtBy] at hyz
      | cons c u =>
        simp only [lexLtBy] at hxy hyz ⊢
        rcases Nat.lt_trichotomy (f a) (f b) with hab | hab | hab
        · rcases Nat.lt_trichotomy (f b) (f c) with hbc | hbc | hbc
          · simp [Nat.lt_trans hab hbc]
          · rw [← hbc]; simp [hab]
          · simp [Nat.lt_asymm hbc, hbc] at hyz
        · rcases Nat.lt_trichotomy (f b) (f c) with hbc | hbc | hbc
          · rw [hab]; simp [hbc]
          · rw [hab, hbc]
            simp only [Nat.lt_irrefl, if_false]
            rw [hab] at hxy
            rw [hbc] at hyz
            simp only [Nat.lt_irrefl, if_false] at hxy hyz
            exact ih hxy hyz
          · simp [Nat.lt_asymm hbc, hbc] at hyz
        · simp [Nat.lt_asymm hab, hab] at hxy

theorem lexLtBy_asymm {f : α → Nat} {x y : List α}
    (h : lexLtBy f x y = true) : lexLtBy f y x = false := by
  by_contra hc
  have hyx : lexLtBy f y x = true := by
    cases hxy : lexLtBy f y x with
    | false => exact absurd hxy hc
    | true => rfl
  have := lexLtBy_trans (f := f) h hyx
  rw [lexLtBy_irrefl] at this
  exact Bool.noConfusion this

theorem insSort_of_pairwise (le : α → α → Bool) :
    ∀ l : List α, l.Pairwise (fun a b => le a b = true) → insSort le l = l := by
  intro l
  induction l with
  | nil => intro _; rfl
  | cons a t ih =>
    intro h
    rcases List.pairwise_cons.mp h with ⟨ha, ht⟩
    rw [insSort, ih ht]
    cases t with
    | nil => rfl
    | cons b u => simp [ordInsert, ha b (by simp)]

theorem lookupA_insertA (lt : κ → κ → Bool) [DecidableEq κ] (k k0 : κ)
    (v : β) : ∀ m : List (κ × β),
    lookupA k (insertA lt k0 v m) = if k = k0 then some v else lookupA k m := by
  intro m
  induction m with
  | nil => simp [insertA, lookupA]
  | cons p l ih =>
    obtain ⟨q, w⟩ := p
    by_cases h1 : lt k0 q
    · simp [insertA, h1, lookupA]
    · by_cases h2 : k0 = q
      · subst h2
        by_cases hk : k = k0 <;> simp [insertA, h1, lookupA, hk]
      · by_cases hk : k = q
        · subst hk
          simp [insertA, h1, h2, lookupA, Ne.symm h2]
        · simp [insertA, h1, h2, lookupA, hk, ih]

theorem mem_insertA (lt : κ → κ → Bool) [DecidableEq κ] (k : κ) (v : β) :
    ∀ (m : List (κ × β)) (p : κ × β), p ∈ insertA lt k v m →
      p = (k, v) ∨ p ∈ m := by
  intro m
  induction m with
  | nil => intro p hp; simp [insertA] at hp; exact Or.inl hp
  | cons q l ih =>
    obtain ⟨q1, w1⟩ := q
    intro p hp
    by_cases h1 : lt k q1
    · simp [insertA, h1] at hp
      rcases hp with h | h | h
      · exact Or.inl (by simp [h])
      · exact Or.inr (by simp [h])
      · exact Or.inr (by simp [h])
    · by_cases h2 : k = q1
      · subst h2
        rw [insertA, if_neg h1, if_pos rfl] at hp
        rcases List.mem_cons.mp hp with h | h
        · exact Or.inl h
        · exact Or.inr (List.mem_cons_of_mem _ h)
      · rw [insertA, if_neg h1, if_neg h2] at hp
        rcases List.mem_cons.mp hp with h | h
        · exact Or.inr (by simp [h])
        · rcases ih p h with h3 | h3
          · exact Or.inl h3
          · exact Or.inr (List.mem_cons_of_mem _ h3)

theorem mapWF_insertA (lt : κ → κ → Bool) [DecidableEq κ]
    (htrans : ∀ a b c : κ, lt a b = true → lt b c = true → lt a c = true)
    (hasym : ∀ a b : κ, lt a b ≠ true → a ≠ b → lt b a = true)
    (k : κ) (v : β) :
    ∀ m : List (κ × β), MapWF lt m → MapWF lt (insertA lt k v m) := by
  intro m
  induction m with
  | nil => intro _; simp [insertA, MapWF]
  | cons q l ih =>
    obtain ⟨q1, w1⟩ := q
    intro hwf
    rcases List.pairwise_cons.mp hwf with ⟨hhead, htail⟩
    by_cases h1 : lt k q1
    · simp only [insertA, if_pos h1]
      refine List.pairwise_cons.mpr ⟨?_, hwf⟩
      intro p hp
      rcases List.mem_cons.mp hp with h | h
      · subst h; exact h1
      · exact htrans k q1 p.1 h1 (hhead p h)
    · by_cases h2 : k = q1
      · subst h2
        simp only [insertA, if_neg h1, if_pos rfl]
        exact List.pairwise_cons.mpr ⟨hhead, htail⟩
      · simp only [insertA, if_neg h1, if_neg h2]
        refine List.pairwise_cons.mpr ⟨?_, ih htail⟩
        intro p hp
        rcases mem_insertA lt k v l p hp with h | h
        · rw [h]; exact hasym k q1 h1 h2
        · exact hhead p h

theorem lastPair_aux [DecidableEq κ] (k : κ) :
    ∀ (l : List (κ × β)) (init : Option β),
      l.foldl (fun acc p => if p.1 = k then some p.2 else acc) init =
        orO (lastPair k l) init := by
  intro l
  induction l with
  | nil => intro init; simp [lastPair, orO]
  | cons p t ih =>
    intro init
    obtain ⟨q, w⟩ := p
    have hcons : lastPair k ((q, w) :: t) =
        t.foldl (fun acc p => if p.1 = k then some p.2 else acc)
          (if q = k then some w else none) := rfl
    rw [List.foldl_cons, hcons]
    simp only []
    by_cases h : q = k
    · simp only [if_pos h]
      rw [ih (some w)]
      cases lastPair k t <;> simp [orO]
    · simp only [if_neg h]
      rw [ih init, ih none]
      cases lastPair k t <;> simp [orO]

theorem lookupA_foldl_insertA (lt : κ → κ → Bool) [DecidableEq κ] (k : κ) :
    ∀ (l : List (κ × β)) (m : List (κ × β)),
      lookupA k (l.foldl (fun m p => insertA lt p.1 p.2 m) m) =
        orO (lastPair k l) (lookupA k m) := by
  intro l
  induction l with
  | nil => intro m; simp [lastPair, orO]
  | cons p t ih =>
    intro m
    obtain ⟨q, w⟩ := p
    have hcons : lastPair k ((q, w) :: t) =
        t.foldl (fun acc p => if p.1 = k then some p.2 else acc)
          (if q = k then some w else none) := rfl
    rw [List.foldl_cons, hcons, lastPair_aux k t]
    rw [ih, lookupA_insertA]
    by_cases h : k = q
    · subst h
      simp only [if_pos rfl]
      cases lastPair k t <;> simp [orO]
    · simp only [if_neg h, if_neg (fun e => h (Eq.symm e))]
      cases lastPair k t <;> simp [orO]

theorem lookupA_toMapA (lt : κ → κ → Bool) [DecidableEq κ] (k : κ)
    (l : List (κ × β)) : lookupA k (toMapA lt l) = lastPair k l := by
  rw [toMapA, lookupA_foldl_insertA]
  cases lastPair k l <;> simp [orO, lookupA]

theorem mapWF_toMapA (lt : κ → κ → Bool) [DecidableEq κ]
    (htrans : ∀ a b c : κ, lt a b = true → lt b c = true → lt a c = true)
    (hasym : ∀ a b : κ, lt a b ≠ true → a ≠ b → lt b a = true)
    (l : List (κ × β)) : MapWF lt (toMapA lt l) := by
  have gen : ∀ (l : List (κ × β)) (m : List (κ × β)), MapWF lt m →
      MapWF lt (l.foldl (fun m p => insertA lt p.1 p.2 m) m) := by
    intro l
    induction l with
    | nil => intro m hm; exact hm
    | cons p t ih =>
      intro m hm
      simp only [List.foldl_cons]
      exact ih _ (mapWF_insertA lt htrans hasym p.1 p.2 m hm)
  exact gen l [] (by simp [MapWF])

theorem hexDigitsOf_spec (n : Nat) :
    hexDigitsOf n ≠ [] ∧ (∀ d ∈ hexDigitsOf n, d < 16) ∧
      (hexDigitsOf n).foldl (fun a d => 16 * a + d) 0 = n := by
  induction n using Nat.strong_induction_on with
  | _ n ih =>
    by_cases h : n < 16
    · rw [hexDigitsOf, dif_pos h]
      refine ⟨by simp, ?_, by simp⟩
      intro d hd
      simp at hd
      omega
    · rw [hexDigitsOf, dif_neg h]
      have hlt : n / 16 < n := Nat.div_lt_self (by omega) (by omega)
      obtain ⟨h1, h2, h3⟩ := ih (n / 16) hlt
      refine ⟨by simp, ?_, ?_⟩
      · intro d hd
        rcases List.mem_append.mp hd with hm | hm
        · exact h2 d hm
        · simp at hm
          omega
      · rw [List.foldl_append, h3]
        simp
        omega

theorem decDigitsOf_spec (n : Nat) :
    decDigitsOf n ≠ [] ∧ (∀ d ∈ decDigitsOf n, d < 10) ∧
      (decDigitsOf n).foldl (fun a d => 10 * a + d) 0 = n := by
  induction n using Nat.strong_induction_on with
  | _ n ih =>
    by_cases h : n < 10
    · rw [decDigitsOf, dif_pos h]
      refine ⟨by simp, ?_, by simp⟩
      intro d hd
      simp at hd
      omega
    · rw [decDigitsOf, dif_neg h]
      have hlt : n / 10 < n := Nat.div_lt_self (by omega) (by omega)
      obtain ⟨h1, h2, h3⟩ := ih (n / 10) hlt
      refine ⟨by simp, ?_, ?_⟩
      · intro d hd
        rcases List.mem_append.mp hd with hm | hm
        · exact h2 d hm
        · simp at hm
          omega
      · rw [List.foldl_append, h3]
        simp
        omega

theorem valHexCh_hexDigitCh : ∀ d, d < 16 → valHexCh (hexDigitCh d) = d := by
  decide

theorem isHexCh_hexDigitCh : ∀ d, d < 16 → isHexCh (hexDigitCh d) = true := by
  decide

theorem isDigit_decDigitCh : ∀ d, d < 10 → (decDigitCh d).isDigit = true := by
  decide

theorem valDecCh_decDigitCh : ∀ d, d < 10 → valDecCh (decDigitCh d) = d := by
  decide

theorem stripPlus_id (s : List Char) (h : ∀ c ∈ s, c ≠ '+') :
    stripPlus s = s := by
  cases s with
  | nil => rfl
  | cons c r => simp [stripPlus, h c (by simp)]

theorem foldl_map_valHex (l : List Nat) (hd : ∀ d ∈ l, d < 16) :
    ∀ i, (l.map hexDigitCh).foldl (fun a c => 16 * a + valHexCh c) i =
      l.foldl (fun a d => 16 * a + d) i := by
  induction l with
  | nil => intro i; rfl
  | cons d t ih =>
    intro i
    simp only [List.map_cons, List.foldl_cons]
    rw [valHexCh_hexDigitCh d (hd d (by simp))]
    exact ih (fun x hx => hd x (by simp [hx])) _

theorem foldl_map_valDec (l : List Nat) (hd : ∀ d ∈ l, d < 10) :
    ∀ i, (l.map decDigitCh).foldl (fun a c => 10 * a + valDecCh c) i =
      l.foldl (fun a d => 10 * a + d) i := by
  induction l with
  | nil => intro i; rfl
  | cons d t ih =>
    intro i
    simp only [List.map_cons, List.foldl_cons]
    rw [valDecCh_decDigitCh d (hd d (by simp))]
    exact ih (fun x hx => hd x (by simp [hx])) _

theorem hexValOf_natToHex (n : Nat) : hexValOf (natToHex n) = n := by
  obtain ⟨h1, h2, h3⟩ := hexDigitsOf_spec n
  rw [hexValOf, natToHex, foldl_map_valHex _ h2, h3]

theorem decValOf_natToDec (n : Nat) : decValOf (natToDec n) = n := by
  obtain ⟨h1, h2, h3⟩ := decDigitsOf_spec n
  rw [decValOf, natToDec, foldl_map_valDec _ h2, h3]

theorem natToHex_ne_nil (n : Nat) : natToHex n ≠ [] := by
  obtain ⟨h1, _, _⟩ := hexDigitsOf_spec n
  simp [natToHex, h1]

theorem natToDec_ne_nil (n : Nat) : natToDec n ≠ [] := by
  obtain ⟨h1, _, _⟩ := decDigitsOf_spec n
  simp [natToDec, h1]

theorem natToHex_all_hex (n : Nat) : (natToHex n).all isHexCh = true := by
  obtain ⟨_, h2, _⟩ := hexDigitsOf_spec n
  rw [natToHex, List.all_eq_true]
  intro c hc
  rcases List.mem_map.mp hc with ⟨d, hd, rfl⟩
  exact isHexCh_hexDigitCh d (h2 d hd)

theorem natToDec_all_digit (n : Nat) : (natToDec n).all Char.isDigit = true := by
  obtain ⟨_, h2, _⟩ := decDigitsOf_spec n
  rw [natToDec, List.all_eq_true]
  intro c hc
  rcases List.mem_map.mp hc with ⟨d, hd, rfl⟩
  exact isDigit_decDigitCh d (h2 d hd)

theorem hexDigitCh_ne_plus : ∀ d, d < 16 → hexDigitCh d ≠ '+' := by
  decide

theorem decDigitCh_ne_plus : ∀ d, d < 10 → decDigitCh d ≠ '+' := by
  decide

theorem natToHex_no_plus (n : Nat) : ∀ c ∈ natToHex n, c ≠ '+' := by
  intro c hc
  rcases List.mem_map.mp hc with ⟨d, hd, rfl⟩
  obtain ⟨_, h2, _⟩ := hexDigitsOf_spec n
  exact hexDigitCh_ne_plus d (h2 d hd)

theorem natToDec_no_plus (n : Nat) : ∀ c ∈ natToDec n, c ≠ '+' := by
  intro c hc
  rcases List.mem_map.mp hc with ⟨d, hd, rfl⟩
  obtain ⟨_, h2, _⟩ := decDigitsOf_spec n
  exact decDigitCh_ne_plus d (h2 d hd)

theorem fromStrRadix16_natToHex (n : Nat) (hn : n < usizeCap) :
    fromStrRadix16 (natToHex n) = some n := by
  rw [fromStrRadix16]
  simp only [stripPlus_id _ (natToHex_no_plus n)]
  rw [if_pos ⟨natToHex_ne_nil n, natToHex_all_hex n,
    by rw [hexValOf_natToHex]; exact hn⟩, hexValOf_natToHex]

theorem parseUsize_natToDec (n : Nat) (hn : n < usizeCap) :
    parseUsize (natToDec n) = some n := by
  rw [parseUsize]
  simp only [stripPlus_id _ (natToDec_no_plus n)]
  rw [if_pos ⟨natToDec_ne_nil n, natToDec_all_digit n,
    by rw [decValOf_natToDec]; exact hn⟩, decValOf_natToDec]

theorem hexDecodePairs_hexEncode (bytes : List Nat)
    (hb : ∀ b ∈ bytes, b < 256) : hexDecodePairs (hexEncode bytes) = bytes := by
  induction bytes with
  | nil => rfl
  | cons b t ih =>
    have hblt := hb b (by simp)
    have h1 : b / 16 < 16 := by omega
    have h2 : b % 16 < 16 := by omega
    simp only [hexEncode, List.flatMap_cons, encByte, List.cons_append,
      List.nil_append, hexDecodePairs]
    rw [valHexCh_hexDigitCh _ h1, valHexCh_hexDigitCh _ h2]
    refine congrArg₂ List.cons (by omega) ?_
    exact ih (fun x hx => hb x (by simp [hx]))

theorem hexEncode_length (bytes : List Nat) :
    (hexEncode bytes).length = 2 * bytes.length := by
  induction bytes with
  | nil => rfl
  | cons b t ih =>
    simp only [hexEncode, List.flatMap_cons, encByte] at ih ⊢
    simp [ih]
    omega

theorem hexEncode_all_hex (bytes : List Nat) (hb : ∀ b ∈ bytes, b < 256) :
    ∀ c ∈ hexEncode bytes, isHexCh c = true := by
  induction bytes with
  | nil => intro c hc; simp [hexEncode] at hc
  | cons b t ih =>
    intro c hc
    have hblt := hb b (by simp)
    simp only [hexEncode, List.flatMap_cons, encByte, List.cons_append,
      List.nil_append, List.mem_cons] at hc
    rcases hc with h | h | h
    · rw [h]; exact isHexCh_hexDigitCh _ (by omega)
    · rw [h]; exact isHexCh_hexDigitCh _ (by omega)
    · exact ih (fun x hx => hb x (by simp [hx])) c h

theorem many0F_mono (p : P α) :
    ∀ (f1 : Nat) (f2 : Nat) (s : List Char), s.length < f1 → s.length < f2 →
      many0F p f1 s = many0F p f2 s := by
  intro f1
  induction f1 with
  | zero => intro f2 s h1; omega
  | succ g ih =>
    intro f2 s h1 h2
    cases f2 with
    | zero => omega
    | succ g2 =>
      rw [many0F, many0F]
      cases hps : p s with
      | none => rfl
      | some rv =>
        obtain ⟨r, v⟩ := rv
        by_cases hlen : r.length < s.length
        · simp only [if_pos hlen]
          rw [ih g2 r (by omega) (by omega)]
        · simp only [if_neg hlen]

theorem many0_eq (p : P α) (s : List Char) :
    many0 p s = match p s with
      | none => some (s, [])
      | some (r, v) =>
        if r.length < s.length then
          match many0 p r with
          | none => none
          | some (r2, vs) => some (r2, v :: vs)
        else none := by
  rw [many0, many0F]
  cases hps : p s with
  | none => rfl
  | some rv =>
    obtain ⟨r, v⟩ := rv
    by_cases hlen : r.length < s.length
    · simp only [if_pos hlen]
      rw [many0, many0F_mono p s.length (r.length + 1) r (by omega) (by omega)]
    · simp only [if_neg hlen]

theorem many0_of_fail {p : P α} {s : List Char} (h : p s = none) :
    many0 p s = some (s, []) := by
  rw [many0_eq, h]

theorem many0_of_step {p : P α} {s r r2 : List Char} {v : α} {vs : List α}
    (h : p s = some (r, v)) (hlen : r.length < s.length)
    (hrec : many0 p r = some (r2, vs)) :
    many0 p s = some (r2, v :: vs) := by
  rw [many0_eq, h]
  simp only [if_pos hlen, hrec]

theorem sepTailF_mono (sep : P γ) (p : P α) :
    ∀ (f1 : Nat) (f2 : Nat) (s : List Char), s.length < f1 → s.length < f2 →
      sepTailF sep p f1 s = sepTailF sep p f2 s := by
  intro f1
  induction f1 with
  | zero => intro f2 s h1; omega
  | succ g ih =>
    intro f2 s h1 h2
    cases f2 with
    | zero => omega
    | succ g2 =>
      rw [sepTailF, sepTailF]
      cases hsep : sep s with
      | none => rfl
      | some rv =>
        obtain ⟨s1, u⟩ := rv
        by_cases hne : s1.length = s.length
        · simp only [if_pos hne]
        · simp only [if_neg hne]
          cases hp : p s1 with
          | none => rfl
          | some rv2 =>
            obtain ⟨i2, o⟩ := rv2
            by_cases hlen : i2.length < s.length
            · simp only [if_pos hlen]
              rw [ih g2 i2 (by omega) (by omega)]
            · simp only [if_neg hlen]

theorem sepTail_eq (sep : P γ) (p : P α) (s : List Char) :
    sepTail sep p s = match sep s with
      | none => some (s, [])
      | some (s1, _) =>
        if s1.length = s.length then none
        else
          match p s1 with
          | none => some (s, [])
          | some (i2, o) =>
            if i2.length < s.length then
              match sepTail sep p i2 with
              | none => none
              | some (r, l) => some (r, o :: l)
            else none := by
  rw [sepTail, sepTailF]
  cases hsep : sep s with
  | none => rfl
  | some rv =>
    obtain ⟨s1, u⟩ := rv
    by_cases hne : s1.length = s.length
    · simp only [if_pos hne]
    · simp only [if_neg hne]
      cases hp : p s1 with
      | none => rfl
      | some rv2 =>
        obtain ⟨i2, o⟩ := rv2
        by_cases hlen : i2.length < s.length
        · simp only [if_pos hlen]
          rw [sepTail, sepTailF_mono sep p s.length (i2.length + 1) i2
            (by omega) (by omega)]
        · simp only [if_neg hlen]

theorem sepList0_eq (sep : P γ) (p : P α) (s : List Char) :
    sepList0 sep p s = match p s with
      | none => some (s, [])
      | some (i1, o) =>
        match sepTail sep p i1 with
        | none => none
        | some (r, l) => some (r, o :: l) := by
  rw [sepList0]
  cases hp : p s with
  | none => rfl
  | some rv =>
    obtain ⟨i1, o⟩ := rv
    rfl

theorem charToNat_inj : Function.Injective Char.toNat := by
  intro a b h
  have hv : a.val = b.val := by
    apply UInt32.eq_of_toBitVec_eq
    apply BitVec.eq_of_toNat_eq
    exact h
  exact Char.eq_of_val_eq hv

theorem lexLt_trans {a b c : List Char} (h1 : lexLt a b = true)
    (h2 : lexLt b c = true) : lexLt a c = true :=
  lexLtBy_trans h1 h2

theorem lexLt_asymm_total {a b : List Char} (h1 : lexLt a b ≠ true)
    (h2 : a ≠ b) : lexLt b a = true := by
  cases hba : lexLt b a with
  | true => rfl
  | false =>
    exfalso
    have hab : lexLt a b = false := by
      cases hx : lexLt a b with
      | false => rfl
      | true => exact absurd hx h1
    exact h2 (lexLtBy_eq_of_not_lt charToNat_inj hab hba)

theorem lastPair_append [DecidableEq κ] (k : κ) (l1 l2 : List (κ × β)) :
    lastPair k (l1 ++ l2) = orO (lastPair k l2) (lastPair k l1) := by
  rw [lastPair, List.foldl_append]
  rw [lastPair_aux k l2]
  rfl

/-- C6: the attribute-list merge takes the right-hand value on a name
present in both sides, keeps every name present in only one side, and
returns exactly one attribute per distinct name, sorted ascending by
name (strict pairwise order below gives both uniqueness and sortedness);
the name-keyed lookup equation makes the kept values precise, with
`lastVal` reading the last occurrence to the right. -/
theorem c6_merge_attrs_spec (a b : List Attr) :
    (merge a b).Pairwise (fun x y => lexLt x.name y.name = true) ∧
    ∀ n, findVal n (merge a b) = orO (lastVal n b) (lastVal n a) := by
  constructor
  · rw [merge]
    rw [List.pairwise_map]
    exact mapWF_toMapA lexLt (fun x y z => lexLtBy_trans)
      (fun x y => lexLt_asymm_total) _
  · intro n
    rw [merge, findVal]
    have hmm : ((toMapA lexLt ((a ++ b).map fun x => (x.name, x.value))).map
        (fun p => (⟨p.1, p.2⟩ : Attr))).map (fun x => (x.name, x.value)) =
        toMapA lexLt ((a ++ b).map fun x => (x.name, x.value)) := by
      generalize toMapA lexLt ((a ++ b).map fun x => (x.name, x.value)) = l
      induction l with
      | nil => rfl
      | cons p t ih => simp [ih]
    rw [hmm, lookupA_toMapA, List.map_append, lastPair_append]
    rfl

/-- C9: version 0 encodes as no attribute at all; every `usize` version
`v ≥ 1` encodes as a `wasmAbiVer` attribute holding `v - 1` in lowercase
hex, and reading that attribute back with `as_wasm_abi` recovers `v`; in
particular encoding 3 and decoding yields 3. -/
theorem c9_versioned_attr :
    Attr.from_wasm_abi 0 = none ∧
    (∀ v, 1 ≤ v → v < usizeCap →
      ∃ a, Attr.from_wasm_abi v = some a ∧
        a.value = natToHex (v - 1) ∧ a.as_wasm_abi = some v) ∧
    (Attr.from_wasm_abi 3).bind Attr.as_wasm_abi = some 3 := by
  refine ⟨rfl, ?_, ?_⟩
  · intro v h1 h2
    refine ⟨⟨str "wasmAbiVer", natToHex (v - 1)⟩, ?_, rfl, ?_⟩
    · rw [Attr.from_wasm_abi, Attr.from_ver, if_neg (by omega)]
    · rw [Attr.as_wasm_abi, Attr.as_ver, if_pos rfl]
      rw [fromStrRadix16_natToHex (v - 1) (by omega)]
      simp only [Option.map_some']
      congr 1
      omega
  · have h3 : Attr.from_wasm_abi 3 = some ⟨str "wasmAbiVer", natToHex 2⟩ := by
      rw [Attr.from_wasm_abi, Attr.from_ver, if_neg (by omega)]
    rw [h3]
    show Attr.as_wasm_abi ⟨str "wasmAbiVer", natToHex 2⟩ = some 3
    rw [Attr.as_wasm_abi, Attr.as_ver, if_pos rfl]
    rw [fromStrRadix16_natToHex 2 (by simp [usizeCap])]
    rfl

/-- Witness for C9: the hypotheses hold at the concrete version 5, and
the round trip recovers 5. -/
theorem c9_versioned_attr_witness :
    ∃ a, Attr.from_wasm_abi 5 = some a ∧
      a.value = natToHex 4 ∧ a.as_wasm_abi = some 5 :=
  c9_versioned_attr.2.1 5 (by decide) (by norm_num [usizeCap])

theorem restyHexFall_isSome (a : List Char) :
    (restyHexFall a).isSome = true := by
  by_cases h : 64 ≤ ((a.take 64).takeWhile isHexCh).length
  · simp only [restyHexFall, optP, takeWhileMN, if_pos h, Option.isSome_some]
  · simp only [restyHexFall, optP, takeWhileMN, if_neg h, Option.isSome_some]

theorem restyHexFall_of_short (a : List Char) (hx : hex64At a = false) :
    restyHexFall a = some (a, ResTy.None) := by
  have hx2 : ¬ 64 ≤ ((a.take 64).takeWhile isHexCh).length := by
    intro hc
    rw [hex64At] at hx
    simp [hc] at hx
  simp only [restyHexFall, optP, takeWhileMN, if_neg hx2]

theorem b64Vals_len : ∀ (s : List Char) (vs : List Nat),
    b64Vals s = some vs → vs.length = s.length := by
  intro s
  induction s with
  | nil =>
    intro vs h
    rw [b64Vals] at h
    have hv := Option.some.inj h
    subst hv
    rfl
  | cons c t ih =>
    intro vs h
    rw [b64Vals] at h
    cases hv : b64Val c with
    | none =>
      simp only [hv] at h
      exact absurd h (by simp)
    | some v =>
      simp only [hv] at h
      cases hr : b64Vals t with
      | none =>
        simp only [hr] at h
        exact absurd h (by simp)
      | some r =>
        simp only [hr] at h
        have he := Option.some.inj h
        subst he
        simp [ih r hr]

theorem b64DecodeVals_len : ∀ (vs bytes : List Nat),
    b64DecodeVals vs = some bytes →
    3 * vs.length ≤ 4 * bytes.length + 2 ∧
      4 * bytes.length ≤ 3 * vs.length
  | [], bytes, h => by
    rw [b64DecodeVals] at h
    have he := Option.some.inj h
    subst he
    simp
  | [a], bytes, h => by
    rw [b64DecodeVals] at h
    exact absurd h (by simp)
  | [a, b], bytes, h => by
    rw [b64DecodeVals] at h
    by_cases hb : b % 16 = 0
    · rw [if_pos hb] at h
      have he := Option.some.inj h
      subst he
      simp
    · rw [if_neg hb] at h
      exact absurd h (by simp)
  | [a, b, c], bytes, h => by
    rw [b64DecodeVals] at h
    by_cases hc : c % 4 = 0
    · rw [if_pos hc] at h
      have he := Option.some.inj h
      subst he
      simp
    · rw [if_neg hc] at h
      exact absurd h (by simp)
  | a :: b :: c :: d :: t, bytes, h => by
    rw [b64DecodeVals] at h
    cases ht : b64DecodeVals t with
    | none =>
      simp only [ht] at h
      exact absurd h (by simp)
    | some r =>
      simp only [ht] at h
      have he := Option.some.inj h
      subst he
      have := b64DecodeVals_len t r ht
      simp only [List.length_cons]
      omega

theorem b64Decode_len (s : List Char) (bytes : List Nat)
    (h : b64Decode s = some bytes) :
    3 * s.length ≤ 4 * bytes.length + 2 ∧
      4 * bytes.length ≤ 3 * s.length := by
  rw [b64Decode] at h
  cases hv : b64Vals s with
  | none => simp only [hv] at h; exact absurd h (by simp)
  | some vs =>
    rw [hv] at h
    simp only [Option.some_bind] at h
    have := b64DecodeVals_len vs bytes h
    rw [b64Vals_len s vs hv] at this
    exact this

theorem b64At_false (s : List Char) : b64At s = false := by
  rw [b64At]
  cases h1 : stripPre (str "~b64") s with
  | none => simp only [h1]
  | some rest =>
    simp only [h1]
    cases h2 : splitOnce '~' rest with
    | none => simp only [h2]
    | some p =>
      simp only [h2]
      obtain ⟨be, after⟩ := p
      cases h3 : decodeSlice32 be with
      | none => simp only [h3]
      | some bytes =>
        simp only [h3]
        rw [decodeSlice32] at h3
        by_cases hest : b64EstLen be.length ≤ 32
        · rw [if_pos hest] at h3
          have hlen := b64Decode_len be bytes h3
          rw [b64EstLen] at hest
          have hne : bytes.length ≠ 32 := by
            intro h32
            rw [h32] at hlen
            have hn : be.length = 43 := by omega
            rw [hn] at hest
            rw [show (if 43 % 4 > 0 then 1 else 0) = 1 from rfl] at hest
            omega
          simp [hne]
        · rw [if_neg hest] at h3
          exact absurd h3 (by simp)

theorem mangleCount_none (s : List Char) : mangleCount s = none := by
  rw [mangleCount, andThenP]
  cases h : tagP (str ";") s with
  | none => rfl
  | some rv =>
    obtain ⟨r, o⟩ := rv
    have ho : o = str ";" := by
      rw [tagP] at h
      by_cases hp : s.take (str ";").length = str ";"
      · rw [if_pos hp] at h
        exact ((Prod.mk.injEq _ _ _ _).mp (Option.some.inj h)).2.symm
      · rw [if_neg hp] at h
        exact Option.noConfusion h
    rw [ho]
    rfl

theorem arity_demangle_none (s : List Char) : Arity.demangle s = none := by
  rw [Arity.demangle, mangleCount_none]
  rfl

theorem parse_nonattrF_none (g : P Param) (s : List Char) :
    parse_nonattrF g s = none := by
  rw [parse_nonattrF, pair2P, andThenP]
  cases h : tagP (str "R") s with
  | none => rfl
  | some rv =>
    obtain ⟨r, o⟩ := rv
    have ho : o = str "R" := by
      rw [tagP] at h
      by_cases hp : s.take (str "R").length = str "R"
      · rw [if_pos hp] at h
        exact ((Prod.mk.injEq _ _ _ _).mp (Option.some.inj h)).2.symm
      · rw [if_neg hp] at h
        exact Option.noConfusion h
    rw [ho]
    rfl

theorem parse_attr_head_fail {c : Char} (t : List Char)
    (hws : isWs c = false) (hc : ¬ c = '[') : parse_attr (c :: t) = none := by
  rw [parse_attr]
  simp only [multispace0, List.dropWhile_cons, hws, Bool.false_eq_true,
    if_false, List.takeWhile_cons, Option.bind_eq_bind, Option.some_bind,
    charP, if_neg hc]
  rfl

/-- C1 (code bug): the mangling round trip fails on the code as written.
Because nom `and_then` runs its second parser over the output of the
first, the `;`-count headers of `Arity::demangle` and the `R`-id header
of `Param::demangle`'s interface branch can never succeed, so
`Arity::demangle` rejects every input — including the mangled text of
the empty arity — and `Param::demangle` rejects the mangled text of
every `Param::Interface` value (only the `Param::Attr` branch can ever
parse). -/
theorem c1_mangle_roundtrip_fails :
    (∀ s, Arity.demangle s = none) ∧
    Arity.demangle (mangleArity (Arity.mk [])) = none ∧
    Param.demangle (mangleParam (Param.Interface (List.replicate 32 0) []))
      = none := by
  refine ⟨arity_demangle_none, arity_demangle_none _, ?_⟩
  have hhead : ∃ t, mangleParam (Param.Interface (List.replicate 32 0) []) =
      'R' :: t := ⟨_, by rw [mangleParam]⟩
  obtain ⟨t, ht⟩ := hhead
  rw [ht, Param.demangle, demangleParamF, orP, mapP,
    parse_attr_head_fail t (by decide) (by decide)]
  exact parse_nonattrF_none _ _

/-- C8 (code bug): the claim says a declared child count larger than the
decode stack is tolerated and demangling still succeeds; on the code as
written `Arity::demangle` fails on every input — `;1Pa;5` declares five
children for an empty stack and parsing errors out before any stack
reduction happens. -/
theorem c8_underflow_input_fails : Arity.demangle (str ";1Pa;5") = none :=
  arity_demangle_none _

theorem insertA_append (lt : κ → κ → Bool) [DecidableEq κ]
    (hirr : ∀ a, lt a a = false)
    (hasymB : ∀ a b : κ, lt a b = true → lt b a = false) (k : κ) (v : β) :
    ∀ m : List (κ × β), (∀ p ∈ m, lt p.1 k = true) →
      insertA lt k v m = m ++ [(k, v)] := by
  intro m
  induction m with
  | nil => intro _; rfl
  | cons q l ih =>
    obtain ⟨q1, w1⟩ := q
    intro hall
    have hq : lt q1 k = true := hall (q1, w1) (by simp)
    have h1 : ¬ lt k q1 = true := by
      rw [hasymB q1 k hq]
      simp
    have h2 : ¬ k = q1 := by
      intro he
      subst he
      rw [hirr k] at hq
      exact Bool.noConfusion hq
    rw [insertA, if_neg h1, if_neg h2,
      ih (fun p hp => hall p (by simp [hp]))]
    rfl

theorem lookupA_none_of_gt (lt : κ → κ → Bool) [DecidableEq κ]
    (hirr : ∀ a, lt a a = false) (k : κ) :
    ∀ m : List (κ × β), (∀ p ∈ m, lt p.1 k = true) → lookupA k m = none := by
  intro m
  induction m with
  | nil => intro _; rfl
  | cons q l ih =>
    obtain ⟨q1, w1⟩ := q
    intro hall
    have h2 : ¬ k = q1 := by
      intro he
      subst he
      have := hall (k, w1) (by simp)
      rw [hirr k] at this
      exact Bool.noConfusion this
    rw [lookupA, if_neg h2]
    exact ih (fun p hp => hall p (by simp [hp]))

theorem mergeFold_sorted_id (lt : κ → κ → Bool) [DecidableEq κ]
    (hirr : ∀ a, lt a a = false)
    (hasymB : ∀ a b : κ, lt a b = true → lt b a = false)
    (dflt : β) (mrg : β → β → β) (b : List (κ × β)) (hwf : MapWF lt b)
    (hm : ∀ p ∈ b, mrg dflt p.2 = p.2) :
    mergeFold lt dflt mrg [] b = b := by
  have aux : ∀ (l m : List (κ × β)), MapWF lt (m ++ l) →
      (∀ p ∈ l, mrg dflt p.2 = p.2) →
      l.foldl (fun m p =>
        insertA lt p.1 (mrg ((lookupA p.1 m).getD dflt) p.2) m) m =
        m ++ l := by
    intro l
    induction l with
    | nil => intro m _ _; simp
    | cons p t ih =>
      intro m hwf2 hm2
      have hgt : ∀ q ∈ m, lt q.1 p.1 = true := by
        intro q hq
        have := (List.pairwise_append.mp hwf2).2.2 q hq p (by simp)
        exact this
      simp only [List.foldl_cons]
      rw [lookupA_none_of_gt lt hirr p.1 m hgt]
      simp only [Option.getD_none]
      rw [hm2 p (by simp)]
      have hp : insertA lt p.1 p.2 m = m ++ [p] := by
        have := insertA_append lt hirr hasymB p.1 p.2 m hgt
        simpa using this
      rw [hp]
      have : (m ++ [p]) ++ t = m ++ p :: t := by simp
      rw [← this] at hwf2 ⊢
      exact ih (m ++ [p]) hwf2 (fun q hq => hm2 q (by simp [hq]))
  have h0 : mergeFold lt dflt mrg [] b =
      b.foldl (fun m p =>
        insertA lt p.1 (mrg ((lookupA p.1 m).getD dflt) p.2) m) [] := by
    rw [mergeFold]
    rfl
  rw [h0]
  exact aux b [] (by simpa using hwf) hm

theorem toMapA_of_mapWF (lt : κ → κ → Bool) [DecidableEq κ]
    (hirr : ∀ a, lt a a = false)
    (hasymB : ∀ a b : κ, lt a b = true → lt b a = false)
    (l : List (κ × β)) (hwf : MapWF lt l) : toMapA lt l = l := by
  have aux : ∀ (l m : List (κ × β)), MapWF lt (m ++ l) →
      l.foldl (fun m p => insertA lt p.1 p.2 m) m = m ++ l := by
    intro l
    induction l with
    | nil => intro m _; simp
    | cons p t ih =>
      intro m hwf2
      have hgt : ∀ q ∈ m, lt q.1 p.1 = true := by
        intro q hq
        exact (List.pairwise_append.mp hwf2).2.2 q hq p (by simp)
      simp only [List.foldl_cons]
      have hp : insertA lt p.1 p.2 m = m ++ [p] := by
        have := insertA_append lt hirr hasymB p.1 p.2 m hgt
        simpa using this
      rw [hp]
      have he : (m ++ [p]) ++ t = m ++ p :: t := by simp
      rw [← he] at hwf2 ⊢
      exact ih (m ++ [p]) hwf2
  rw [toMapA]
  exact aux l [] (by simpa using hwf)

theorem lexLt_irr : ∀ a : List Char, lexLt a a = false := fun a =>
  lexLtBy_irrefl _ a

theorem lexLt_asymB : ∀ a b : List Char, lexLt a b = true →
    lexLt b a = false := fun _ _ h => lexLtBy_asymm h

theorem lexLtN_irr : ∀ a : List Nat, lexLtN a a = false := fun a =>
  lexLtBy_irrefl _ a

theorem lexLtN_asymB : ∀ a b : List Nat, lexLtN a b = true →
    lexLtN b a = false := fun _ _ h => lexLtBy_asymm h

theorem natLt_irr : ∀ a : Nat, natLt a a = false := by
  intro a
  simp [natLt]

theorem natLt_asymB : ∀ a b : Nat, natLt a b = true → natLt b a = false := by
  intro a b h
  simp [natLt] at h ⊢
  omega

theorem merge_nil_left (l : List Attr) (h : sortedAttrs l) :
    merge [] l = l := by
  rw [merge]
  simp only [List.nil_append]
  have hwf : MapWF lexLt (l.map fun x => (x.name, x.value)) := by
    rw [MapWF, List.pairwise_map]
    exact h
  rw [toMapA_of_mapWF lexLt lexLt_irr lexLt_asymB _ hwf]
  have : (fun p : List Char × List Char => (⟨p.1, p.2⟩ : Attr)) ∘
      (fun x : Attr => (x.name, x.value)) = fun x => x := rfl
  rw [List.map_map, this]
  simp

theorem paramEntry_merge_dflt (p : ParamEntry) (h : sortedAttrs p.attrs) :
    ParamEntry.default.merge p = p := by
  rw [ParamEntry.merge, ParamEntry.default]
  rw [merge_nil_left p.attrs h]

theorem methEntry_merge_dflt (m : MethEntry) (h : m.norm) :
    MethEntry.default.merge m = m := by
  obtain ⟨h1, h2, h3, h4, h5⟩ := h
  rw [MethEntry.merge, MethEntry.default]
  simp only []
  rw [merge_nil_left m.attrs h1]
  rw [mergeFold_sorted_id natLt natLt_irr natLt_asymB _ _ m.params h2
    (fun p hp => paramEntry_merge_dflt p.2 (h4 p hp))]
  rw [mergeFold_sorted_id natLt natLt_irr natLt_asymB _ _ m.returns h3
    (fun p hp => paramEntry_merge_dflt p.2 (h5 p hp))]

theorem infoEntry_merge_dflt (e : InfoEntry) (h : e.norm) :
    InfoEntry.default.merge e = e := by
  obtain ⟨h1, h2, h3⟩ := h
  rw [InfoEntry.merge, InfoEntry.default]
  simp only []
  rw [merge_nil_left e.attrs h1]
  rw [mergeFold_sorted_id lexLt lexLt_irr lexLt_asymB _ _ e.methods h2
    (fun q hq => methEntry_merge_dflt q.2 (h3 q hq))]

/-- C4 counterexample: for the `Info` holding one entry whose attribute
list is `[b=], [a=]` (unsorted, as a Rust `Vec<Attr>` may be), merging
with the empty `Info` re-sorts the attributes, so
`Info::default().merge(x) ≠ x` — the claim fails as stated over every
`Info` value. -/
theorem c4_counterexample :
    Info.merge Info.default
        ⟨[(List.replicate 32 0,
          ⟨[⟨str "b", str ""⟩, ⟨str "a", str ""⟩], []⟩)]⟩ =
      ⟨[(List.replicate 32 0,
          ⟨[⟨str "a", str ""⟩, ⟨str "b", str ""⟩], []⟩)]⟩ ∧
    Info.merge Info.default
        ⟨[(List.replicate 32 0,
          ⟨[⟨str "b", str ""⟩, ⟨str "a", str ""⟩], []⟩)]⟩ ≠
      ⟨[(List.replicate 32 0,
          ⟨[⟨str "b", str ""⟩, ⟨str "a", str ""⟩], []⟩)]⟩ := by
  constructor
  · decide
  · decide

/-- C4 (amended): the empty `Info` is a left identity of `merge` on
every normalized `Info` — one whose maps are well-formed `BTreeMap`
contents and whose attribute lists are strictly sorted by name, which
is exactly the shape `Info::parse` and `merge` themselves produce. -/
theorem c4_merge_left_identity (x : Info) (h : x.norm) :
    Info.merge Info.default x = x := by
  obtain ⟨h1, h2⟩ := h
  rw [Info.merge, Info.default]
  simp only []
  rw [mergeFold_sorted_id lexLtN lexLtN_irr lexLtN_asymB _ _ x.interfaces h1
    (fun q hq => infoEntry_merge_dflt q.2 (h2 q hq))]

/-- Witness for C4 at a concrete normalized `Info` with one interface,
one sorted attribute list and one method. -/
theorem c4_merge_left_identity_witness :
    Info.merge Info.default
        ⟨[(List.replicate 32 7,
          ⟨[⟨str "a", str "1"⟩, ⟨str "b", str "2"⟩],
           [(str "m", ⟨[⟨str "doc", str "d"⟩], [(0, ⟨[⟨str "n", str "x"⟩]⟩)],
             []⟩)]⟩)]⟩ =
      ⟨[(List.replicate 32 7,
          ⟨[⟨str "a", str "1"⟩, ⟨str "b", str "2"⟩],
           [(str "m", ⟨[⟨str "doc", str "d"⟩], [(0, ⟨[⟨str "n", str "x"⟩]⟩)],
             []⟩)]⟩)]⟩ :=
  c4_merge_left_identity _ (by decide)

theorem multispace0_skip (s : List Char) (h : headNotWs s = true) :
    multispace0 s = some (s, []) := by
  cases s with
  | nil => rfl
  | cons c t =>
    rw [headNotWs] at h
    simp only [Bool.not_eq_eq_eq_not, Bool.not_true] at h
    rw [multispace0, List.dropWhile_cons, List.takeWhile_cons, h]
    simp

theorem charP_cons (c : Char) (t : List Char) : charP c (c :: t) = some (t, c) := by
  simp [charP]

theorem tagP_pre (t rest : List Char) :
    tagP t (t ++ rest) = some (rest, t) := by
  rw [tagP, if_pos (List.take_left t rest), List.drop_left]

theorem takeWhile_append_stop (p : Char → Bool) :
    ∀ (k : List Char) (rest : List Char), (∀ c ∈ k, p c = true) →
      (match rest with | [] => True | c :: _ => p c = false) →
      (k ++ rest).takeWhile p = k := by
  intro k
  induction k with
  | nil =>
    intro rest _ hr
    cases rest with
    | nil => rfl
    | cons c u =>
      simp only [List.nil_append, List.takeWhile_cons]
      rw [hr]
      rfl
  | cons a u ih =>
    intro rest hk hr
    simp only [List.cons_append, List.takeWhile_cons, hk a (by simp)]
    rw [ih rest (fun c hc => hk c (by simp [hc])) hr]
    simp

theorem parse_balanced_render :
    ∀ (v : List Char) (i : Nat) (acc rest : List Char), balGo i v = true →
      parse_balanced_aux i acc (v ++ ']' :: rest) =
        some (']' :: rest, acc ++ v) := by
  intro v
  induction v with
  | nil =>
    intro i acc rest hb
    rw [balGo] at hb
    have hi : i = 0 := by simpa using hb
    subst hi
    simp [parse_balanced_aux]
  | cons c t ih =>
    intro i acc rest hb
    rw [balGo] at hb
    by_cases h1 : c = '['
    · rw [if_pos h1] at hb
      simp only [List.cons_append, parse_balanced_aux, if_pos h1,
        List.append_eq]
      rw [ih (i + 1) (acc ++ [c]) rest hb]
      simp
    · rw [if_neg h1] at hb
      by_cases h2 : c = ']'
      · rw [if_pos h2] at hb
        by_cases h3 : i = 0
        · rw [if_pos (by simpa using h3)] at hb
          exact Bool.noConfusion hb
        · rw [if_neg (by simpa using h3)] at hb
          simp only [List.cons_append, parse_balanced_aux, if_neg h1,
            if_pos h2, if_neg h3, List.append_eq]
          rw [ih (i - 1) (acc ++ [c]) rest hb]
          simp
      · rw [if_neg h2] at hb
        simp only [List.cons_append, parse_balanced_aux, if_neg h1, if_neg h2,
          List.append_eq]
        rw [ih i (acc ++ [c]) rest hb]
        simp

theorem many0_noneOfEq (name : List Char) (hn : ∀ c ∈ name, ¬ c = '=') :
    ∀ u : List Char, many0 (noneOfP (str "=")) (name ++ '=' :: u) =
      some ('=' :: u, name) := by
  induction name with
  | nil =>
    intro u
    apply many0_of_fail
    simp [noneOfP, str]
  | cons c t ih =>
    intro u
    have hc : ¬ c ∈ str "=" := by
      simp [str]
      exact hn c (by simp)
    apply many0_of_step (r := t ++ '=' :: u)
    · simp [noneOfP, hc]
    · simp
    · exact ih (fun x hx => hn x (by simp [hx])) u

theorem headNotWs_append (k rest : List Char) (hk : headNotWs k = true)
    (hr : headNotWs rest = true) : headNotWs (k ++ rest) = true := by
  cases k with
  | nil => simpa using hr
  | cons c t => simpa [headNotWs] using hk

theorem parse_attr_render (a : Attr) (hv : validAttr a = true)
    (rest : List Char) (hr : headNotWs rest = true) :
    parse_attr (renderAttr a ++ rest) = some (rest, a) := by
  rw [validAttr] at hv
  simp only [Bool.and_eq_true] at hv
  obtain ⟨⟨⟨hname, hnws⟩, hvws⟩, hbal⟩ := hv
  rw [renderAttr, parse_attr]
  simp only [List.cons_append, List.append_assoc, List.cons_append]
  rw [multispace0_skip _ (by rw [headNotWs]; decide)]
  simp only [Option.bind_eq_bind, Option.some_bind]
  rw [charP_cons]
  simp only [Option.some_bind]
  rw [multispace0_skip _ (headNotWs_append _ _ hnws (by rw [headNotWs]; decide))]
  simp only [Option.some_bind]
  have hnamec : ∀ c ∈ a.name, ¬ c = '=' := by
    intro c hc
    have := List.all_eq_true.mp hname c hc
    simpa using this
  rw [many0_noneOfEq a.name hnamec]
  simp only [Option.some_bind]
  rw [multispace0_skip _ (by rw [headNotWs]; decide)]
  simp only [Option.some_bind]
  rw [charP_cons]
  simp only [Option.some_bind]
  rw [multispace0_skip _ (headNotWs_append _ _ hvws (by rw [headNotWs]; decide))]
  simp only [Option.some_bind]
  rw [parse_balanced]
  simp only [List.nil_append]
  rw [parse_balanced_render a.value 0 [] rest hbal]
  simp only [Option.some_bind, List.nil_append]
  rw [charP_cons]
  simp only [Option.some_bind]
  rw [multispace0_skip _ hr]
  rfl

theorem parse_attr_stop (s : List Char) (h : attrStop s = true) :
    parse_attr s = none := by
  cases s with
  | nil => rfl
  | cons c t =>
    rw [attrStop] at h
    simp only [Bool.and_eq_true, Bool.not_eq_eq_eq_not, Bool.not_true,
      decide_eq_false_iff_not] at h
    exact parse_attr_head_fail t h.1 h.2

theorem renderAttr_len (a : Attr) :
    (renderAttr a).length = a.name.length + a.value.length + 3 := by
  simp [renderAttr]
  omega

theorem renderAttrs_headNotWs (t : List Attr) (rest : List Char)
    (hr : attrStop rest = true) :
    headNotWs (renderAttrs t ++ rest) = true := by
  cases t with
  | nil =>
    simp only [renderAttrs, List.flatMap_nil, List.nil_append]
    cases rest with
    | nil => rfl
    | cons c u =>
      rw [attrStop] at hr
      simp only [Bool.and_eq_true] at hr
      rw [headNotWs]
      exact hr.1
  | cons a u =>
    simp only [renderAttrs, List.flatMap_cons, renderAttr]
    rfl

theorem many0_attrs_render (l : List Attr) (hv : ∀ a ∈ l, validAttr a = true)
    (rest : List Char) (hr : attrStop rest = true) :
    many0 parse_attr (renderAttrs l ++ rest) = some (rest, l) := by
  induction l with
  | nil =>
    simp only [renderAttrs, List.flatMap_nil, List.nil_append]
    exact many0_of_fail (parse_attr_stop rest hr)
  | cons a t ih =>
    have hren : renderAttrs (a :: t) ++ rest =
        renderAttr a ++ (renderAttrs t ++ rest) := by
      simp [renderAttrs, List.flatMap_cons]
    rw [hren]
    apply many0_of_step (r := renderAttrs t ++ rest)
    · exact parse_attr_render a (hv a (by simp)) _
        (renderAttrs_headNotWs t rest hr)
    · have := renderAttr_len a
      simp only [List.length_append]
      omega
    · exact ih (fun x hx => hv x (by simp [hx]))

theorem parse_attrs_render (l : List Attr) (hv : ValidAttrList l)
    (rest : List Char) (hr : attrStop rest = true) :
    parse_attrs (renderAttrs l ++ rest) = some (rest, l) := by
  rw [parse_attrs]
  simp only [Option.bind_eq_bind]
  rw [many0_attrs_render l hv.1 rest hr]
  simp only [Option.some_bind]
  rw [insSort_of_pairwise attrLe l hv.2]

theorem parse_attrs_stop (s : List Char) (hr : attrStop s = true) :
    parse_attrs s = some (s, []) := by
  have := parse_attrs_render [] ⟨by simp, by simp⟩ s hr
  simpa [renderAttrs] using this

theorem stripPre_pre (t rest : List Char) :
    stripPre t (t ++ rest) = some rest := by
  rw [stripPre, if_pos (List.take_left t rest), List.drop_left]

theorem stripPre_none_head (t0 c : Char) (tt s : List Char) (h : c ≠ t0) :
    stripPre (t0 :: tt) (c :: s) = none := by
  rw [stripPre, if_neg]
  intro he
  simp only [List.length_cons, List.take_succ_cons] at he
  exact h (List.cons.injEq _ _ _ _ |>.mp he).1

theorem hexDigitCh_not_t : ∀ d, d < 16 → ¬ hexDigitCh d = 't' := by
  decide

theorem hexDigitCh_not_tilde : ∀ d, d < 16 → ¬ hexDigitCh d = '~' := by
  decide

theorem hex64At_cons_false (c : Char) (t : List Char)
    (hx : isHexCh c = false) : hex64At (c :: t) = false := by
  rw [hex64At, List.take_succ_cons, List.takeWhile_cons, hx]
  simp

theorem strThis : str "this" = 't' :: 'h' :: 'i' :: 's' :: [] := rfl

theorem strB64 : str "~b64" = '~' :: 'b' :: '6' :: '4' :: [] := rfl

theorem parse_resty_stop (c : Char) (t : List Char) (hc : ¬ c = 't')
    (hb : ¬ c = '~') (hx : isHexCh c = false) :
    parse_resty (c :: t) = some (c :: t, ResTy.None) := by
  rw [parse_resty, strThis, strB64]
  rw [stripPre_none_head 't' c _ t hc]
  rw [stripPre_none_head '~' c _ t hb]
  exact restyHexFall_of_short _ (hex64At_cons_false c t hx)

theorem parse_resty_this (rest : List Char) :
    parse_resty (str "this" ++ rest) = some (rest, ResTy.This) := by
  rw [parse_resty]
  rw [show str "this" ++ rest = (str "this") ++ rest from rfl]
  rw [stripPre_pre]

theorem hexEncode_cons (b : Nat) (t : List Nat) :
    hexEncode (b :: t) =
      hexDigitCh (b / 16) :: hexDigitCh (b % 16) :: hexEncode t := by
  simp [hexEncode, encByte]

theorem parse_resty_hex (id : List Nat) (h32 : id.length = 32)
    (hb : ∀ b ∈ id, b < 256) (rest : List Char) :
    parse_resty (hexEncode id ++ rest) = some (rest, ResTy.Of id) := by
  cases id with
  | nil => simp at h32
  | cons b t =>
    have hblt : b < 256 := hb b (by simp)
    have hd : b / 16 < 16 := by omega
    rw [hexEncode_cons]
    simp only [List.cons_append]
    rw [parse_resty, strThis, strB64]
    rw [stripPre_none_head 't' _ _ _ (hexDigitCh_not_t _ hd)]
    rw [stripPre_none_head '~' _ _ _ (hexDigitCh_not_tilde _ hd)]
    have hfull : hexDigitCh (b / 16) :: hexDigitCh (b % 16) ::
        (hexEncode t ++ rest) = hexEncode (b :: t) ++ rest := by
      rw [hexEncode_cons]
      rfl
    rw [hfull]
    have hlen : (hexEncode (b :: t)).length = 64 := by
      rw [hexEncode_length, h32]
    have htk : (hexEncode (b :: t) ++ rest).take 64 = hexEncode (b :: t) := by
      rw [← hlen]
      exact List.take_left _ _
    have hallhex : ∀ c ∈ hexEncode (b :: t), isHexCh c = true :=
      hexEncode_all_hex (b :: t) hb
    have htw : ((hexEncode (b :: t) ++ rest).take 64).takeWhile isHexCh =
        hexEncode (b :: t) := by
      rw [htk]
      have := takeWhile_append_stop isHexCh (hexEncode (b :: t)) [] hallhex
        (by simp)
      simpa using this
    rw [restyHexFall, optP, takeWhileMN, htw, hlen]
    simp only [Nat.le_refl, if_pos]
    rw [show ((hexEncode (b :: t) ++ rest).drop 64) = rest from by
      rw [← hlen]; exact List.drop_left _ _]
    rw [hexDecodePairs_hexEncode (b :: t) hb]

theorem optP_tag_yes (t rest : List Char) :
    optP (tagP t) (t ++ rest) = some (rest, some t) := by
  rw [optP, tagP_pre]

theorem optP_of_none {p : P α} {s : List Char} (h : p s = none) :
    optP p s = some (s, none) := by
  rw [optP, h]

theorem tagP_one_no (c d : Char) (u : List Char) (h : ¬ d = c) :
    tagP [c] (d :: u) = none := by
  rw [tagP, if_neg]
  intro he
  simp only [List.length_cons, List.length_nil, List.take_succ_cons,
    List.take_zero] at he
  exact h (List.cons.injEq _ _ _ _ |>.mp he).1

theorem tagP_nil_no (c : Char) : tagP [c] [] = none := by
  rw [tagP, if_neg]
  intro he
  simp at he

theorem parse_arg_take3 (kw rest : List Char) (hlen : kw.length = 3)
    (hstop : attrStop (kw ++ rest) = true)
    (hhead : headNotWs (kw ++ rest) = true)
    (hR : stripPre (str "R") (kw ++ rest) = none) :
    parse_arg (kw ++ rest) =
      (if kw = str "I32" then some (rest, Arg.I32)
       else if kw = str "I64" then some (rest, Arg.I64)
       else if kw = str "F32" then some (rest, Arg.F32)
       else if kw = str "F64" then some (rest, Arg.F64)
       else none) := by
  rw [parse_arg]
  rw [parse_attrs_stop _ hstop]
  simp only [Option.bind_eq_bind, Option.some_bind]
  rw [multispace0_skip _ hhead]
  simp only [Option.some_bind, hR]
  rw [takeP, if_pos (by rw [List.length_append, hlen]; omega)]
  rw [show (kw ++ rest).take 3 = kw from by rw [← hlen]; exact List.take_left _ _]
  rw [show (kw ++ rest).drop 3 = rest from by rw [← hlen]; exact List.drop_left _ _]
  simp only [Option.some_bind]

theorem parse_arg_rparen (t : List Char) : parse_arg (')' :: t) = none := by
  have hR : stripPre (str "R") (')' :: t) = none := by
    rw [show str "R" = ['R'] from rfl]
    exact stripPre_none_head 'R' ')' _ _ (by decide)
  rw [parse_arg]
  rw [parse_attrs_stop _ (by rw [attrStop]; decide)]
  simp only [Option.bind_eq_bind, Option.some_bind]
  rw [multispace0_skip _ (by rw [headNotWs]; decide)]
  simp only [Option.some_bind, hR]
  have hgen : ∀ (c : Char) (k : List Char), ¬ ')' = c →
      ¬ (')' :: t.take 2 = c :: k) := fun c k hc he =>
    hc ((List.cons.injEq _ _ _ _).mp he).1
  by_cases h3 : 3 ≤ (')' :: t).length
  · rw [takeP, if_pos h3]
    simp only [Option.some_bind, List.take_succ_cons]
    rw [show str "I32" = 'I' :: str "32" from rfl]
    rw [show str "I64" = 'I' :: str "64" from rfl]
    rw [show str "F32" = 'F' :: str "32" from rfl]
    rw [show str "F64" = 'F' :: str "64" from rfl]
    rw [if_neg (hgen 'I' (str "32") (by decide))]
    rw [if_neg (hgen 'I' (str "64") (by decide))]
    rw [if_neg (hgen 'F' (str "32") (by decide))]
    rw [if_neg (hgen 'F' (str "64") (by decide))]
  · rw [takeP, if_neg h3]
    rfl

theorem optP_n (nb : Bool) (Y : List Char) (h : headNe 'n' Y) :
    optP (tagP (str "n")) ((if nb then ['n'] else []) ++ Y) =
      some (Y, if nb then some (str "n") else none) := by
  cases nb with
  | true =>
    show optP (tagP (str "n")) (str "n" ++ Y) = some (Y, some (str "n"))
    exact optP_tag_yes (str "n") Y
  | false =>
    show optP (tagP (str "n")) Y = some (Y, none)
    apply optP_of_none
    cases Y with
    | nil => exact tagP_nil_no 'n'
    | cons d u => exact tagP_one_no 'n' d u h

theorem optP_amp (tk : Bool) (rest : List Char) (h : headNe '&' rest) :
    optP (tagP (str "&")) ((if tk then [] else ['&']) ++ rest) =
      some (rest, if tk then none else some (str "&")) := by
  cases tk with
  | false =>
    show optP (tagP (str "&")) (str "&" ++ rest) = some (rest, some (str "&"))
    exact optP_tag_yes (str "&") rest
  | true =>
    show optP (tagP (str "&")) rest = some (rest, none)
    apply optP_of_none
    cases rest with
    | nil => exact tagP_nil_no '&'
    | cons d u => exact tagP_one_no '&' d u h

theorem renderResTy_hex (g : GAttrs) (hg : g (str "ridFmtVer") = none)
    (id : List Nat) : renderResTy g (ResTy.Of id) = hexEncode id := by
  rw [renderResTy, hg]
  simp

theorem parse_arg_render (g : GAttrs) (hg : g (str "ridFmtVer") = none)
    (ar : Arg) (hv : ValidArg ar) (rest : List Char) (hr : argCtx rest = true) :
    parse_arg (renderArg g ar ++ rest) = some (rest, ar) := by
  obtain ⟨c0, t0, hrest, hc0⟩ : ∃ c t, rest = c :: t ∧ (c = ',' ∨ c = ')') := by
    cases rest with
    | nil => simp [argCtx] at hr
    | cons c t =>
      rw [argCtx] at hr
      simp only [Bool.or_eq_true, decide_eq_true_eq] at hr
      exact ⟨c, t, rfl, hr⟩
  subst hrest
  cases ar with
  | I32 =>
    rw [show renderArg g Arg.I32 = str "I32" from rfl]
    rw [parse_arg_take3 (str "I32") (c0 :: t0) (by decide) rfl rfl (by
      rw [show str "I32" ++ (c0 :: t0) = 'I' :: (str "32" ++ (c0 :: t0))
        from rfl, show str "R" = ['R'] from rfl]
      exact stripPre_none_head 'R' 'I' _ _ (by decide))]
    rw [if_pos rfl]
  | I64 =>
    rw [show renderArg g Arg.I64 = str "I64" from rfl]
    rw [parse_arg_take3 (str "I64") (c0 :: t0) (by decide) rfl rfl (by
      rw [show str "I64" ++ (c0 :: t0) = 'I' :: (str "64" ++ (c0 :: t0))
        from rfl, show str "R" = ['R'] from rfl]
      exact stripPre_none_head 'R' 'I' _ _ (by decide))]
    rw [if_neg (by decide), if_pos rfl]
  | F32 =>
    rw [show renderArg g Arg.F32 = str "F32" from rfl]
    rw [parse_arg_take3 (str "F32") (c0 :: t0) (by decide) rfl rfl (by
      rw [show str "F32" ++ (c0 :: t0) = 'F' :: (str "32" ++ (c0 :: t0))
        from rfl, show str "R" = ['R'] from rfl]
      exact stripPre_none_head 'R' 'F' _ _ (by decide))]
    rw [if_neg (by decide), if_neg (by decide), if_pos rfl]
  | F64 =>
    rw [show renderArg g Arg.F64 = str "F64" from rfl]
    rw [parse_arg_take3 (str "F64") (c0 :: t0) (by decide) rfl rfl (by
      rw [show str "F64" ++ (c0 :: t0) = 'F' :: (str "64" ++ (c0 :: t0))
        from rfl, show str "R" = ['R'] from rfl]
      exact stripPre_none_head 'R' 'F' _ _ (by decide))]
    rw [if_neg (by decide), if_neg (by decide), if_neg (by decide),
      if_pos rfl]
  | Resource ty nb tk ann =>
    obtain ⟨hann, hty⟩ := hv
    have hamp : headNe '&' (c0 :: t0) := by
      rcases hc0 with h | h
      · subst h; exact (by decide : ¬ (',' = '&'))
      · subst h; exact (by decide : ¬ (')' = '&'))
    have hn : headNe 'n' ((if tk then [] else ['&']) ++ (c0 :: t0)) := by
      cases tk with
      | true =>
        rcases hc0 with h | h
        · subst h; exact (by decide : ¬ (',' = 'n'))
        · subst h; exact (by decide : ¬ (')' = 'n'))
      | false => exact (by decide : ¬ ('&' = 'n'))
    have hassoc : renderArg g (Arg.Resource ty nb tk ann) ++ (c0 :: t0) =
        renderAttrs ann ++ ('R' :: (renderResTy g ty ++
          ((if nb then ['n'] else []) ++
            ((if tk then [] else ['&']) ++ (c0 :: t0))))) := by
      rw [renderArg]
      simp [List.append_assoc]
    rw [hassoc]
    rw [parse_arg]
    rw [parse_attrs_render ann hann ('R' :: (renderResTy g ty ++
      ((if nb then ['n'] else []) ++
        ((if tk then [] else ['&']) ++ (c0 :: t0))))) rfl]
    simp only [Option.bind_eq_bind, Option.some_bind]
    rw [multispace0_skip ('R' :: (renderResTy g ty ++
      ((if nb then ['n'] else []) ++
        ((if tk then [] else ['&']) ++ (c0 :: t0))))) rfl]
    simp only [Option.some_bind]
    have hstrip : stripPre (str "R") ('R' :: (renderResTy g ty ++
        ((if nb then ['n'] else []) ++
          ((if tk then [] else ['&']) ++ (c0 :: t0))))) =
        some (renderResTy g ty ++ ((if nb then ['n'] else []) ++
          ((if tk then [] else ['&']) ++ (c0 :: t0)))) := by
      rw [show ('R' :: (renderResTy g ty ++ ((if nb then ['n'] else []) ++
        ((if tk then [] else ['&']) ++ (c0 :: t0))))) =
        str "R" ++ (renderResTy g ty ++ ((if nb then ['n'] else []) ++
        ((if tk then [] else ['&']) ++ (c0 :: t0)))) from rfl]
      exact stripPre_pre _ _
    simp only [hstrip]
    have hresty : parse_resty (renderResTy g ty ++
        ((if nb then ['n'] else []) ++
          ((if tk then [] else ['&']) ++ (c0 :: t0)))) =
        some ((if nb then ['n'] else []) ++
          ((if tk then [] else ['&']) ++ (c0 :: t0)), ty) := by
      cases ty with
      | This =>
        rw [renderResTy]
        exact parse_resty_this _
      | Of id =>
        rw [renderResTy_hex g hg id]
        exact parse_resty_hex id hty.1 hty.2 _
      | None =>
        rw [renderResTy]
        simp only [List.nil_append]
        cases nb with
        | true =>
          show parse_resty ('n' :: ((if tk then [] else ['&']) ++ (c0 :: t0)))
            = some ('n' :: ((if tk then [] else ['&']) ++ (c0 :: t0)),
              ResTy.None)
          exact parse_resty_stop 'n' _ (by decide) (by decide) (by decide)
        | false =>
          cases tk with
          | false =>
            show parse_resty ('&' :: (c0 :: t0)) =
              some ('&' :: (c0 :: t0), ResTy.None)
            exact parse_resty_stop '&' _ (by decide) (by decide) (by decide)
          | true =>
            show parse_resty (c0 :: t0) = some (c0 :: t0, ResTy.None)
            rcases hc0 with h | h <;>
              (subst h; exact parse_resty_stop _ _ (by decide) (by decide)
                (by decide))
    simp only [hresty, Option.some_bind]
    rw [optP_n nb _ hn]
    simp only [Option.some_bind]
    rw [optP_amp tk _ hamp]
    simp only [Option.some_bind]
    cases nb <;> cases tk <;> rfl

theorem argCtx_tail (g : GAttrs) (u : List Arg) (rest : List Char)
    (hrp : rest.head? = some ')') :
    argCtx (u.flatMap (fun b => ',' :: renderArg g b) ++ rest) = true := by
  cases u with
  | nil =>
    simp only [List.flatMap_nil, List.nil_append]
    cases rest with
    | nil => simp at hrp
    | cons c w =>
      simp only [List.head?_cons, Option.some.injEq] at hrp
      subst hrp
      rfl
  | cons b w => rfl

theorem args_sepTail (g : GAttrs) (hg : g (str "ridFmtVer") = none)
    (t : List Arg) (hv : ∀ p ∈ t, ValidArg p) (rest : List Char)
    (hrp : rest.head? = some ')') :
    sepTail (charP ',') parse_arg
      (t.flatMap (fun b => ',' :: renderArg g b) ++ rest) = some (rest, t) := by
  induction t with
  | nil =>
    simp only [List.flatMap_nil, List.nil_append]
    obtain ⟨u, hu⟩ : ∃ u, rest = ')' :: u := by
      cases rest with
      | nil => simp at hrp
      | cons c w =>
        simp only [List.head?_cons, Option.some.injEq] at hrp
        exact ⟨w, by rw [hrp]⟩
    subst hu
    rw [sepTail_eq]
    rw [show charP ',' (')' :: u) = none from by rw [charP, if_neg (by decide)]]
  | cons a u ih =>
    have hflat : (a :: u).flatMap (fun b => ',' :: renderArg g b) ++ rest =
        ',' :: (renderArg g a ++
          (u.flatMap (fun b => ',' :: renderArg g b) ++ rest)) := by
      simp [List.flatMap_cons, List.append_assoc]
    rw [hflat, sepTail_eq, charP_cons]
    simp only []
    rw [if_neg (by simp)]
    rw [parse_arg_render g hg a (hv a (by simp)) _ (argCtx_tail g u rest hrp)]
    simp only []
    rw [if_pos (by simp [List.length_append]; omega)]
    rw [ih (fun p hp => hv p (by simp [hp]))]

theorem args_sepList (g : GAttrs) (hg : g (str "ridFmtVer") = none)
    (l : List Arg) (hv : ∀ p ∈ l, ValidArg p) (rest : List Char)
    (hrp : rest.head? = some ')') :
    sepList0 (charP ',') parse_arg (renderArgsJ g l ++ rest) =
      some (rest, l) := by
  cases l with
  | nil =>
    obtain ⟨u, hu⟩ : ∃ u, rest = ')' :: u := by
      cases rest with
      | nil => simp at hrp
      | cons c w =>
        simp only [List.head?_cons, Option.some.injEq] at hrp
        exact ⟨w, by rw [hrp]⟩
    subst hu
    rw [renderArgsJ]
    simp only [List.nil_append]
    rw [sepList0_eq, parse_arg_rparen]
  | cons a t =>
    have hflat : renderArgsJ g (a :: t) ++ rest =
        renderArg g a ++ (t.flatMap (fun b => ',' :: renderArg g b) ++ rest) := by
      rw [renderArgsJ]
      simp [List.append_assoc]
    rw [hflat, sepList0_eq]
    rw [parse_arg_render g hg a (hv a (by simp)) _ (argCtx_tail g t rest hrp)]
    simp only []
    rw [args_sepTail g hg t (fun p hp => hv p (by simp [hp])) rest hrp]

theorem multispace0_sp (x : List Char) (h : headNotWs x = true) :
    multispace0 (' ' :: x) = some (x, [' ']) := by
  rw [multispace0, List.dropWhile_cons, List.takeWhile_cons]
  simp only [show isWs ' ' = true from rfl, if_true]
  cases x with
  | nil => rfl
  | cons c t =>
    rw [headNotWs] at h
    simp only [Bool.not_eq_eq_eq_not, Bool.not_true] at h
    rw [List.dropWhile_cons, List.takeWhile_cons, h]
    simp

theorem parse_sig_render (g : GAttrs) (hg : g (str "ridFmtVer") = none)
    (sg : Sig) (hv : ValidSig sg) (rest : List Char)
    (hr : sigCtx rest = true) :
    parse_sig (renderSig g sg ++ rest) = some (rest, sg) := by
  obtain ⟨hann, hparams, hrets⟩ := hv
  have hassoc : renderSig g sg ++ rest =
      renderAttrs sg.ann ++ ('(' :: (renderArgsJ g sg.params ++
        (')' :: (' ' :: (str "->" ++ (' ' :: ('(' ::
          (renderArgsJ g sg.rets ++ (')' :: rest))))))))) := by
    rw [renderSig]
    simp only [List.append_assoc, List.cons_append]
    rfl
  rw [hassoc, parse_sig]
  rw [parse_attrs_render sg.ann hann ('(' :: (renderArgsJ g sg.params ++
    (')' :: (' ' :: (str "->" ++ (' ' :: ('(' ::
      (renderArgsJ g sg.rets ++ (')' :: rest))))))))) rfl]
  simp only [Option.bind_eq_bind, Option.some_bind]
  rw [multispace0_skip ('(' :: (renderArgsJ g sg.params ++
    (')' :: (' ' :: (str "->" ++ (' ' :: ('(' ::
      (renderArgsJ g sg.rets ++ (')' :: rest))))))))) rfl]
  simp only [Option.some_bind]
  rw [delimitedP]
  simp only [charP_cons]
  rw [args_sepList g hg sg.params hparams (')' :: (' ' :: (str "->" ++
    (' ' :: ('(' :: (renderArgsJ g sg.rets ++ (')' :: rest))))))) rfl]
  simp only [charP_cons, Option.some_bind]
  rw [multispace0_sp (str "->" ++ (' ' :: ('(' ::
    (renderArgsJ g sg.rets ++ (')' :: rest))))) rfl]
  simp only [Option.some_bind]
  rw [tagP_pre (str "->") (' ' :: ('(' ::
    (renderArgsJ g sg.rets ++ (')' :: rest))))]
  simp only [Option.some_bind]
  rw [multispace0_sp ('(' :: (renderArgsJ g sg.rets ++ (')' :: rest))) rfl]
  simp only [Option.some_bind]
  rw [delimitedP]
  simp only [charP_cons]
  rw [args_sepList g hg sg.rets hrets (')' :: rest) rfl]
  simp only [charP_cons, Option.some_bind]

theorem identCh_not_ws (c : Char) (h : isIdentCh c = true) : isWs c = false := by
  by_cases h1 : c = ' '
  · subst h1; exact absurd h (by decide)
  by_cases h2 : c = '\t'
  · subst h2; exact absurd h (by decide)
  by_cases h3 : c = '\r'
  · subst h3; exact absurd h (by decide)
  by_cases h4 : c = '\n'
  · subst h4; exact absurd h (by decide)
  rw [isWs]
  simp [h1, h2, h3, h4]

theorem ident_render (k rest : List Char) (hk : k ≠ [])
    (hkc : ∀ c ∈ k, isIdentCh c = true)
    (hr : match rest with | [] => True | c :: _ => isIdentCh c = false) :
    ident (k ++ rest) = some (rest, k) := by
  rw [ident]
  rw [takeWhile_append_stop isIdentCh k rest hkc hr]
  rw [if_neg hk, List.drop_left]

theorem renderSig_head (g : GAttrs) (sg : Sig) :
    ∃ c x, renderSig g sg = c :: x ∧ isIdentCh c = false := by
  rw [renderSig]
  cases hann : sg.ann with
  | nil =>
    refine ⟨'(', renderArgsJ g sg.params ++ (str ") -> (" ++
      (renderArgsJ g sg.rets ++ [')'])), ?_, by decide⟩
    simp [renderAttrs]
  | cons a t =>
    refine ⟨'[', (a.name ++ '=' :: (a.value ++ [']'])) ++
      (renderAttrs t ++ ('(' :: (renderArgsJ g sg.params ++ (str ") -> (" ++
        (renderArgsJ g sg.rets ++ [')']))))), ?_, by decide⟩
    simp [renderAttrs, List.flatMap_cons, renderAttr, List.append_assoc]

theorem meth_elem_render (g : GAttrs) (hg : g (str "ridFmtVer") = none)
    (k : List Char) (sg : Sig) (hk : ValidMethodName k) (hs : ValidSig sg)
    (rest : List Char) (hr : sigCtx rest = true) :
    pair3P multispace0 ident parse_sig (k ++ (renderSig g sg ++ rest)) =
      some (rest, ([], k, sg)) := by
  obtain ⟨hk1, hk2⟩ := hk
  obtain ⟨c0, t0, hkh⟩ : ∃ c t, k = c :: t := by
    cases k with
    | nil => exact absurd rfl hk1
    | cons c t => exact ⟨c, t, rfl⟩
  have hm : multispace0 (k ++ (renderSig g sg ++ rest)) =
      some (k ++ (renderSig g sg ++ rest), []) := by
    apply multispace0_skip
    rw [hkh]
    simp only [List.cons_append, headNotWs]
    rw [identCh_not_ws c0 (hk2 c0 (by rw [hkh]; simp))]
    rfl
  obtain ⟨ch, x, hsg, hid⟩ := renderSig_head g sg
  have hi : ident (k ++ (renderSig g sg ++ rest)) =
      some (renderSig g sg ++ rest, k) :=
    ident_render k (renderSig g sg ++ rest) hk1 hk2 (by rw [hsg]; exact hid)
  have hp : parse_sig (renderSig g sg ++ rest) = some (rest, sg) :=
    parse_sig_render g hg sg hs rest hr
  rw [pair3P]
  simp only [hm, hi, hp]

theorem meth_elem_rbrace (u : List Char) :
    pair3P multispace0 ident parse_sig ('\x7d' :: u) = none := by
  have hm : multispace0 ('\x7d' :: u) = some ('\x7d' :: u, []) := by
    apply multispace0_skip
    rw [headNotWs]
    decide
  have hi : ident ('\x7d' :: u) = none := by
    rw [ident, List.takeWhile_cons, show isIdentCh '\x7d' = false from rfl]
    simp
  rw [pair3P]
  simp only [hm, hi]

theorem sigCtx_tail (g : GAttrs) (w : List (List Char × Sig)) (u : List Char) :
    sigCtx (w.flatMap (fun q => ';' :: (q.1 ++ renderSig g q.2)) ++
      ('\x7d' :: u)) = true := by
  cases w with
  | nil => rfl
  | cons q t => rfl

theorem meths_sepTail (g : GAttrs) (hg : g (str "ridFmtVer") = none)
    (t : List (List Char × Sig))
    (hm : ∀ q ∈ t, ValidMethodName q.1 ∧ ValidSig q.2) (u : List Char) :
    sepTail (charP ';') (pair3P multispace0 ident parse_sig)
        (t.flatMap (fun q => ';' :: (q.1 ++ renderSig g q.2)) ++
          ('\x7d' :: u)) =
      some ('\x7d' :: u, t.map (fun q => (([] : List Char), q.1, q.2))) := by
  induction t with
  | nil =>
    simp only [List.flatMap_nil, List.nil_append, List.map_nil]
    rw [sepTail_eq]
    rw [show charP ';' ('\x7d' :: u) = none from by
      rw [charP, if_neg (by decide)]]
  | cons q w ih =>
    obtain ⟨k, sg⟩ := q
    have hflat : ((k, sg) :: w).flatMap
        (fun q => ';' :: (q.1 ++ renderSig g q.2)) ++ ('\x7d' :: u) =
        ';' :: (k ++ (renderSig g sg ++
          (w.flatMap (fun q => ';' :: (q.1 ++ renderSig g q.2)) ++
            ('\x7d' :: u)))) := by
      simp [List.flatMap_cons, List.append_assoc]
    rw [hflat, sepTail_eq, charP_cons]
    simp only []
    rw [if_neg (by simp)]
    rw [meth_elem_render g hg k sg (hm (k, sg) (by simp)).1
      (hm (k, sg) (by simp)).2 _ (sigCtx_tail g w u)]
    simp only []
    rw [if_pos (by simp [List.length_append]; omega)]
    rw [ih (fun p hp => hm p (by simp [hp]))]
    simp

theorem meths_sepList (g : GAttrs) (hg : g (str "ridFmtVer") = none)
    (ms : List (List Char × Sig))
    (hm : ∀ q ∈ ms, ValidMethodName q.1 ∧ ValidSig q.2) (u : List Char) :
    sepList0 (charP ';') (pair3P multispace0 ident parse_sig)
        (renderMethodsJ g ms ++ ('\x7d' :: u)) =
      some ('\x7d' :: u, ms.map (fun q => (([] : List Char), q.1, q.2))) := by
  cases ms with
  | nil =>
    rw [renderMethodsJ]
    simp only [List.nil_append, List.map_nil]
    rw [sepList0_eq, meth_elem_rbrace]
  | cons q w =>
    obtain ⟨k, sg⟩ := q
    have hflat : renderMethodsJ g ((k, sg) :: w) ++ ('\x7d' :: u) =
        k ++ (renderSig g sg ++
          (w.flatMap (fun q => ';' :: (q.1 ++ renderSig g q.2)) ++
            ('\x7d' :: u))) := by
      rw [renderMethodsJ]
      simp [List.append_assoc]
    rw [hflat, sepList0_eq]
    rw [meth_elem_render g hg k sg (hm (k, sg) (by simp)).1
      (hm (k, sg) (by simp)).2 _ (sigCtx_tail g w u)]
    simp only []
    rw [meths_sepTail g hg w (fun p hp => hm p (by simp [hp])) u]
    simp

theorem go_render (g : GAttrs) (hg : g (str "ridFmtVer") = none)
    (ms : List (List Char × Sig))
    (hm : ∀ q ∈ ms, ValidMethodName q.1 ∧ ValidSig q.2)
    (hwf : MapWF lexLt ms) (u : List Char) :
    parse_interface_go (renderMethodsJ g ms ++ ('\x7d' :: u)) =
      some ('\x7d' :: u, ⟨ms, []⟩) := by
  rw [parse_interface_go]
  rw [meths_sepList g hg ms hm u]
  simp only [Option.bind_eq_bind, Option.some_bind]
  rw [multispace0_skip _ (by rw [headNotWs]; decide)]
  simp only [Option.some_bind]
  have hmaps : (ms.map (fun q => (([] : List Char), q.1, q.2))).map
      (fun t => (t.2.1, t.2.2)) = ms := by
    rw [List.map_map]
    have : ((fun (t : List Char × List Char × Sig) => (t.2.1, t.2.2)) ∘
        (fun (q : List Char × Sig) => (([] : List Char), q.1, q.2))) =
        fun q => q := rfl
    rw [this]
    simp
  rw [hmaps]
  rw [toMapA_of_mapWF lexLt lexLt_irr lexLt_asymB ms hwf]

theorem parse_interface_render (v : Interface) (hv : ValidInterface v)
    (rest : List Char) :
    parse_interface (displayInterface v ++ rest) = some (rest, v) := by
  obtain ⟨hann, hwf, hmeth, hver⟩ := hv
  have hg : (fun ab => findAsVer ab v.ann) (str "ridFmtVer") = none := hver
  have hsorted : insSort methLe v.methods = v.methods := by
    apply insSort_of_pairwise
    apply List.Pairwise.imp ?_ hwf
    intro a b hab
    have h2 : lexLt b.1 a.1 = false := lexLtBy_asymm hab
    rw [methLe, h2]
    rfl
  have hassoc : displayInterface v ++ rest =
      renderAttrs v.ann ++ ('\x7b' ::
        (renderMethodsJ (fun ab => findAsVer ab v.ann) v.methods ++
          ('\x7d' :: rest))) := by
    rw [displayInterface, renderInterface, hsorted]
    simp [List.append_assoc]
  rw [hassoc, parse_interface]
  rw [show multispace0 (renderAttrs v.ann ++ ('\x7b' ::
      (renderMethodsJ (fun ab => findAsVer ab v.ann) v.methods ++
        ('\x7d' :: rest)))) = some (renderAttrs v.ann ++ ('\x7b' ::
      (renderMethodsJ (fun ab => findAsVer ab v.ann) v.methods ++
        ('\x7d' :: rest))), []) from multispace0_skip _
      (renderAttrs_headNotWs v.ann _ rfl)]
  simp only [Option.bind_eq_bind, Option.some_bind]
  rw [parse_attrs_render v.ann hann ('\x7b' ::
    (renderMethodsJ (fun ab => findAsVer ab v.ann) v.methods ++
      ('\x7d' :: rest))) rfl]
  simp only [Option.some_bind]
  rw [delimitedP]
  simp only [charP_cons]
  rw [go_render (fun ab => findAsVer ab v.ann) hg v.methods hmeth hwf rest]
  simp only [charP_cons, Option.some_bind]

/-- C2: for every `Interface` built from valid components whose own
annotations leave the `ridFmtVer` capability unset (so resource ids
render in hex), parsing the canonical `Display` rendering succeeds,
consumes the whole string, and returns the interface itself; the method
map needs no further normalization because both sides are the sorted
`BTreeMap` contents. -/
theorem c2_interface_render_parse_roundtrip (v : Interface)
    (hv : ValidInterface v) :
    parse_interface (displayInterface v) = some ([], v) := by
  have := parse_interface_render v hv []
  simpa using this

/-- Witness for C2 at a concrete two-method interface carrying an
annotation, a resource argument with a 32-byte id, primitive arguments
and a borrowed nullable `this` resource. -/
theorem c2_interface_render_parse_roundtrip_witness :
    parse_interface (displayInterface
      ⟨[(str "bar", ⟨[], [Arg.Resource ResTy.This true false []], []⟩),
        (str "foo", ⟨[⟨str "c", str "d"⟩],
          [Arg.I32, Arg.Resource (ResTy.Of (List.replicate 32 222)) false
            true []],
          [Arg.F64]⟩)],
       [⟨str "a", str "b"⟩]⟩) =
      some ([],
        ⟨[(str "bar", ⟨[], [Arg.Resource ResTy.This true false []], []⟩),
          (str "foo", ⟨[⟨str "c", str "d"⟩],
            [Arg.I32, Arg.Resource (ResTy.Of (List.replicate 32 222)) false
              true []],
            [Arg.F64]⟩)],
         [⟨str "a", str "b"⟩]⟩) :=
  c2_interface_render_parse_roundtrip _ (by
    refine ⟨⟨?_, ?_⟩, ?_, ?_, ?_⟩ <;> decide)

theorem mem_keys_of_lookup_some [DecidableEq κ] (k : κ) (v : β) :
    ∀ l : List (κ × β), lookupA k l = some v → k ∈ l.map Prod.fst := by
  intro l
  induction l with
  | nil => intro h; exact Option.noConfusion h
  | cons q t ih =>
    obtain ⟨k2, w⟩ := q
    intro h
    rw [lookupA] at h
    by_cases he : k = k2
    · simp [he]
    · rw [if_neg he] at h
      simp [ih h]

theorem lookup_none_of_not_mem_keys [DecidableEq κ] (k : κ) :
    ∀ l : List (κ × β), k ∉ l.map Prod.fst → lookupA k l = none := by
  intro l
  induction l with
  | nil => intro _; rfl
  | cons q t ih =>
    obtain ⟨k2, w⟩ := q
    intro h
    simp only [List.map_cons, List.mem_cons] at h
    push_neg at h
    rw [lookupA, if_neg h.1]
    exact ih h.2

theorem wf_head_lt (lt : κ → κ → Bool) [DecidableEq κ] (k0 : κ) (v0 : β)
    (l : List (κ × β)) (hwf : MapWF lt ((k0, v0) :: l)) (k : κ)
    (hk : k ∈ l.map Prod.fst) : lt k0 k = true := by
  rcases List.mem_map.mp hk with ⟨p, hp, hpk⟩
  have := (List.pairwise_cons.mp hwf).1 p hp
  rw [hpk] at this
  exact this

theorem wf_head_lookup_none (lt : κ → κ → Bool) [DecidableEq κ]
    (hirr : ∀ a, lt a a = false) (k0 : κ) (v0 : β) (l : List (κ × β))
    (hwf : MapWF lt ((k0, v0) :: l)) : lookupA k0 l = none := by
  apply lookup_none_of_not_mem_keys
  intro hmem
  have := wf_head_lt lt k0 v0 l hwf k0 hmem
  rw [hirr] at this
  exact Bool.noConfusion this

theorem mapEq_of_lookup (lt : κ → κ → Bool) [DecidableEq κ]
    (hirr : ∀ a, lt a a = false)
    (hasymB : ∀ a b : κ, lt a b = true → lt b a = false) :
    ∀ (m1 m2 : List (κ × β)), MapWF lt m1 → MapWF lt m2 →
      (∀ k, lookupA k m1 = lookupA k m2) → m1 = m2 := by
  intro m1
  induction m1 with
  | nil =>
    intro m2 _ hwf2 hl
    cases m2 with
    | nil => rfl
    | cons q u =>
      obtain ⟨k2, v2⟩ := q
      have := hl k2
      simp [lookupA] at this
  | cons p t ih =>
    obtain ⟨k1, v1⟩ := p
    intro m2 hwf1 hwf2 hl
    cases m2 with
    | nil =>
      have := hl k1
      simp [lookupA] at this
    | cons q u =>
      obtain ⟨k2, v2⟩ := q
      have hk : k1 = k2 := by
        by_contra hne
        have h1 : lookupA k1 ((k2, v2) :: u) = some v1 := by
          rw [← hl k1]
          simp [lookupA]
        rw [lookupA, if_neg hne] at h1
        have hlt21 : lt k2 k1 = true :=
          wf_head_lt lt k2 v2 u hwf2 k1 (mem_keys_of_lookup_some k1 v1 u h1)
        have h2 : lookupA k2 ((k1, v1) :: t) = some v2 := by
          rw [hl k2]
          simp [lookupA]
        rw [lookupA, if_neg (fun he => hne he.symm)] at h2
        have hlt12 : lt k1 k2 = true :=
          wf_head_lt lt k1 v1 t hwf1 k2 (mem_keys_of_lookup_some k2 v2 t h2)
        rw [hasymB k1 k2 hlt12] at hlt21
        exact Bool.noConfusion hlt21
      subst hk
      have hv : v1 = v2 := by
        have := hl k1
        simp [lookupA] at this
        exact this
      subst hv
      have htail : t = u := by
        apply ih u (List.pairwise_cons.mp hwf1).2 (List.pairwise_cons.mp hwf2).2
        intro k
        by_cases he : k = k1
        · subst he
          rw [wf_head_lookup_none lt hirr k v1 t hwf1,
            wf_head_lookup_none lt hirr k v1 u hwf2]
        · have := hl k
          rw [lookupA, if_neg he, lookupA, if_neg he] at this
          exact this
      rw [htail]

theorem mapWF_keys_nodup (lt : κ → κ → Bool) [DecidableEq κ]
    (hirr : ∀ a, lt a a = false) (l : List (κ × β)) (hwf : MapWF lt l) :
    (l.map Prod.fst).Nodup := by
  have hp : l.Pairwise (fun p q : κ × β => p.1 ≠ q.1) := by
    apply List.Pairwise.imp ?_ hwf
    intro a b hab heq
    rw [heq, hirr] at hab
    exact Bool.noConfusion hab
  exact List.pairwise_map.mpr hp

theorem lookupA_some_iff [DecidableEq κ] (k : κ) (v : β) :
    ∀ l : List (κ × β), (l.map Prod.fst).Nodup →
      (lookupA k l = some v ↔ (k, v) ∈ l) := by
  intro l
  induction l with
  | nil => intro _; simp [lookupA]
  | cons q t ih =>
    obtain ⟨k2, w⟩ := q
    intro hnd
    simp only [List.map_cons, List.nodup_cons] at hnd
    by_cases he : k = k2
    · subst he
      rw [lookupA, if_pos rfl]
      constructor
      · intro h
        rw [Option.some.inj h]
        simp
      · intro h
        rcases List.mem_cons.mp h with h1 | h1
        · rw [(Prod.mk.injEq _ _ _ _).mp h1 |>.2]
        · exact absurd (List.mem_map.mpr ⟨(k, v), h1, rfl⟩) hnd.1
    · rw [lookupA, if_neg he]
      rw [ih hnd.2]
      constructor
      · intro h
        exact List.mem_cons_of_mem _ h
      · intro h
        rcases List.mem_cons.mp h with h1 | h1
        · exact absurd ((Prod.mk.injEq _ _ _ _).mp h1).1 he
        · exact h1

theorem lastPair_none_of_not_mem [DecidableEq κ] (k : κ) :
    ∀ l : List (κ × β), k ∉ l.map Prod.fst → lastPair k l = none := by
  intro l
  induction l with
  | nil => intro _; rfl
  | cons q t ih =>
    obtain ⟨k2, w⟩ := q
    intro h
    simp only [List.map_cons, List.mem_cons] at h
    push_neg at h
    have hcons : lastPair k ((k2, w) :: t) =
        t.foldl (fun acc p => if p.1 = k then some p.2 else acc)
          (if k2 = k then some w else none) := rfl
    rw [hcons, if_neg (fun he => h.1 he.symm), lastPair_aux, ih h.2]
    rfl

theorem lastPair_eq_lookupA [DecidableEq κ] (k : κ) :
    ∀ l : List (κ × β), (l.map Prod.fst).Nodup → lastPair k l = lookupA k l := by
  intro l
  induction l with
  | nil => intro _; rfl
  | cons q t ih =>
    obtain ⟨k2, w⟩ := q
    intro hnd
    simp only [List.map_cons, List.nodup_cons] at hnd
    have hcons : lastPair k ((k2, w) :: t) =
        t.foldl (fun acc p => if p.1 = k then some p.2 else acc)
          (if k2 = k then some w else none) := rfl
    rw [hcons, lastPair_aux]
    by_cases he : k = k2
    · subst he
      rw [if_pos rfl, lookupA, if_pos rfl]
      rw [lastPair_none_of_not_mem k t hnd.1]
      rfl
    · rw [if_neg (fun h2 => he h2.symm), lookupA, if_neg he, ih hnd.2]
      cases lookupA k t <;> rfl

theorem lookupA_perm [DecidableEq κ] (k : κ) (l1 l2 : List (κ × β))
    (hp : l1.Perm l2) (hnd : (l1.map Prod.fst).Nodup) :
    lookupA k l1 = lookupA k l2 := by
  have hnd2 : (l2.map Prod.fst).Nodup := ((hp.map Prod.fst).nodup_iff).mp hnd
  cases h : lookupA k l1 with
  | some v =>
    have hm : (k, v) ∈ l1 := (lookupA_some_iff k v l1 hnd).mp h
    exact ((lookupA_some_iff k v l2 hnd2).mpr (hp.mem_iff.mp hm)).symm
  | none =>
    have hm : k ∉ l1.map Prod.fst := by
      intro hmem
      rcases List.mem_map.mp hmem with ⟨p, hp1, hpk⟩
      have hsome : lookupA k l1 = some p.2 := by
        apply (lookupA_some_iff k p.2 l1 hnd).mpr
        rw [← hpk]
        simpa using hp1
      rw [h] at hsome
      exact Option.noConfusion hsome
    have hm2 : k ∉ l2.map Prod.fst := fun hx =>
      hm (((hp.map Prod.fst).mem_iff).mpr hx)
    rw [lookup_none_of_not_mem_keys k l2 hm2]

theorem toMapA_perm (lt : κ → κ → Bool) [DecidableEq κ]
    (hirr : ∀ a, lt a a = false)
    (hasymB : ∀ a b : κ, lt a b = true → lt b a = false)
    (htrans : ∀ a b c : κ, lt a b = true → lt b c = true → lt a c = true)
    (hne : ∀ a b : κ, lt a b ≠ true → a ≠ b → lt b a = true)
    (l1 l2 : List (κ × β)) (hp : l1.Perm l2)
    (hnd : (l1.map Prod.fst).Nodup) : toMapA lt l1 = toMapA lt l2 := by
  have hnd2 : (l2.map Prod.fst).Nodup := ((hp.map Prod.fst).nodup_iff).mp hnd
  apply mapEq_of_lookup lt hirr hasymB _ _
    (mapWF_toMapA lt htrans hne l1) (mapWF_toMapA lt htrans hne l2)
  intro k
  rw [lookupA_toMapA, lookupA_toMapA]
  rw [lastPair_eq_lookupA k l1 hnd, lastPair_eq_lookupA k l2 hnd2]
  exact lookupA_perm k l1 l2 hp hnd

/-- C3: the resource id is a function of the canonical rendering alone —
for any hash `h` (hence for SHA3-256), interfaces with equal `Display`
text get equal ids; computing the id twice on one value gives the same
bytes; and because methods live in a key-sorted map, the order in which
a method list is inserted into the map cannot change the id. -/
theorem c3_rid_determined_by_render :
    (∀ (h : List Char → List Nat) (u v : Interface),
      displayInterface u = displayInterface v → rid h u = rid h v) ∧
    (∀ (h : List Char → List Nat) (v : Interface), rid h v = rid h v) ∧
    (∀ (h : List Char → List Nat) (l1 l2 : List (List Char × Sig))
      (ann : List Attr), l1.Perm l2 → (l1.map Prod.fst).Nodup →
      rid h ⟨toMapA lexLt l1, ann⟩ = rid h ⟨toMapA lexLt l2, ann⟩) := by
  refine ⟨?_, fun h v => rfl, ?_⟩
  · intro h u v hren
    rw [rid, rid, hren]
  · intro h l1 l2 ann hp hnd
    rw [toMapA_perm lexLt lexLt_irr lexLt_asymB
      (fun a b c => lexLtBy_trans) (fun a b => lexLt_asymm_total) l1 l2 hp hnd]

/-- Witness for C3: applied to a constant hash, two structurally equal
interfaces, and a two-method list inserted in both orders. -/
theorem c3_rid_determined_by_render_witness :
    rid (fun _ => []) ⟨[], []⟩ = rid (fun _ => []) ⟨[], []⟩ ∧
    rid (fun _ => [])
        ⟨toMapA lexLt [(str "a", Sig.mk [] [] []),
          (str "b", Sig.mk [] [Arg.I32] [])], []⟩ =
      rid (fun _ => [])
        ⟨toMapA lexLt [(str "b", Sig.mk [] [Arg.I32] []),
          (str "a", Sig.mk [] [] [])], []⟩ := by
  constructor
  · exact c3_rid_determined_by_render.1 (fun _ => []) ⟨[], []⟩ ⟨[], []⟩ rfl
  · exact c3_rid_determined_by_render.2.2 (fun _ => [])
      [(str "a", Sig.mk [] [] []), (str "b", Sig.mk [] [Arg.I32] [])]
      [(str "b", Sig.mk [] [Arg.I32] []), (str "a", Sig.mk [] [] [])] []
      (List.Perm.swap (str "b", Sig.mk [] [Arg.I32] [])
        (str "a", Sig.mk [] [] []) [])
      (by decide)

theorem alnum_not_ws (c : Char) (h : isAlnum c = true) : isWs c = false :=
  identCh_not_ws c (by rw [isIdentCh, h]; rfl)

theorem digit_isAlnum (c : Char) (h : c.isDigit = true) :
    isAlnum c = true := by
  rw [isAlnum, h]
  simp

theorem multispace0_nl (x : List Char) (h : headNotWs x = true) :
    multispace0 ('\n' :: x) = some (x, ['\n']) := by
  rw [multispace0, List.dropWhile_cons, List.takeWhile_cons]
  simp only [show isWs '\n' = true from rfl, if_true]
  cases x with
  | nil => rfl
  | cons c t =>
    rw [headNotWs] at h
    simp only [Bool.not_eq_eq_eq_not, Bool.not_true] at h
    rw [List.dropWhile_cons, List.takeWhile_cons, h]
    simp

theorem parse_attr_render_nl (a : Attr) (hv : validAttr a = true)
    (rest : List Char) (hr : headNotWs rest = true) :
    parse_attr (renderAttr a ++ '\n' :: rest) = some (rest, a) := by
  rw [validAttr] at hv
  simp only [Bool.and_eq_true] at hv
  obtain ⟨⟨⟨hname, hnws⟩, hvws⟩, hbal⟩ := hv
  rw [renderAttr, parse_attr]
  simp only [List.cons_append, List.append_assoc, List.cons_append]
  rw [multispace0_skip _ (by rw [headNotWs]; decide)]
  simp only [Option.bind_eq_bind, Option.some_bind]
  rw [charP_cons]
  simp only [Option.some_bind]
  rw [multispace0_skip _ (headNotWs_append _ _ hnws (by rw [headNotWs]; decide))]
  simp only [Option.some_bind]
  have hnamec : ∀ c ∈ a.name, ¬ c = '=' := by
    intro c hc
    have := List.all_eq_true.mp hname c hc
    simpa using this
  rw [many0_noneOfEq a.name hnamec]
  simp only [Option.some_bind]
  rw [multispace0_skip _ (by rw [headNotWs]; decide)]
  simp only [Option.some_bind]
  rw [charP_cons]
  simp only [Option.some_bind]
  rw [multispace0_skip _ (headNotWs_append _ _ hvws (by rw [headNotWs]; decide))]
  simp only [Option.some_bind]
  rw [parse_balanced]
  simp only [List.nil_append]
  rw [parse_balanced_render a.value 0 [] ('\n' :: rest) hbal]
  simp only [Option.some_bind, List.nil_append]
  rw [charP_cons]
  simp only [Option.some_bind]
  rw [multispace0_nl _ hr]
  rfl

theorem alnum1_sp (k u : List Char) (hk : k ≠ [])
    (hka : k.all isAlnum = true) :
    alphanumeric1 (k ++ ' ' :: u) = some (' ' :: u, k) := by
  rw [alphanumeric1]
  rw [takeWhile_append_stop isAlnum k (' ' :: u)
    (fun c hc => List.all_eq_true.mp hka c hc)
    (show isAlnum ' ' = false by decide)]
  rw [if_neg hk, List.drop_left]

theorem alnum_headNotWs (k : List Char) (hk : k ≠ [])
    (hka : k.all isAlnum = true) (X : List Char) :
    headNotWs (k ++ X) = true := by
  cases k with
  | nil => exact absurd rfl hk
  | cons c t =>
    rw [List.cons_append, headNotWs,
      alnum_not_ws c (List.all_eq_true.mp hka c (by simp))]
    rfl

theorem natToDec_all_alnum (i : Nat) : (natToDec i).all isAlnum = true := by
  rw [List.all_eq_true]
  intro c hc
  exact digit_isAlnum c
    (List.all_eq_true.mp (natToDec_all_digit i) c hc)

theorem tagP_head_ne (c d : Char) (t u : List Char) (h : ¬ d = c) :
    tagP (c :: t) (d :: u) = none := by
  rw [tagP, if_neg]
  intro he
  rw [List.length_cons, List.take_succ_cons] at he
  exact h (List.cons.injEq _ _ _ _ |>.mp he).1

theorem pil_nil : parse_info_line [] = none := rfl

theorem pil_stop (c : Char) (u : List Char) (hw : isWs c = false)
    (h1 : ¬ c = 'r') (h2 : ¬ c = 'p') (h3 : ¬ c = 'm') :
    parse_info_line (c :: u) = none := by
  have t1 : tagP (str "root") (c :: u) = none := by
    rw [show str "root" = 'r' :: 'o' :: 'o' :: 't' :: [] from rfl]
    exact tagP_head_ne 'r' c _ u h1
  have t2 : tagP (str "param") (c :: u) = none := by
    rw [show str "param" = 'p' :: 'a' :: 'r' :: 'a' :: 'm' :: [] from rfl]
    exact tagP_head_ne 'p' c _ u h2
  have t3 : tagP (str "return") (c :: u) = none := by
    rw [show str "return" = 'r' :: 'e' :: 't' :: 'u' :: 'r' :: 'n' :: []
      from rfl]
    exact tagP_head_ne 'r' c _ u h1
  have t4 : tagP (str "method") (c :: u) = none := by
    rw [show str "method" = 'm' :: 'e' :: 't' :: 'h' :: 'o' :: 'd' :: []
      from rfl]
    exact tagP_head_ne 'm' c _ u h3
  rw [parse_info_line]
  rw [multispace0_skip _ (by rw [headNotWs, hw]; rfl)]
  simp only [Option.bind_eq_bind, Option.some_bind, t1, t2, t3, t4]

theorem pil_root (a : Attr) (hv : validAttr a = true) (rest : List Char)
    (hr : headNotWs rest = true) :
    parse_info_line (str "root " ++ (renderAttr a ++ '\n' :: rest)) =
      some (rest, InfoLine.Root a) := by
  rw [show str "root " ++ (renderAttr a ++ '\n' :: rest) =
    str "root" ++ (' ' :: (renderAttr a ++ '\n' :: rest)) from rfl]
  rw [parse_info_line]
  rw [multispace0_skip (str "root" ++ (' ' :: (renderAttr a ++
    '\n' :: rest))) rfl]
  simp only [Option.bind_eq_bind, Option.some_bind]
  simp only [tagP_pre (str "root") (' ' :: (renderAttr a ++ '\n' :: rest))]
  rw [multispace0_sp (renderAttr a ++ '\n' :: rest)
    (by rw [renderAttr]; rfl)]
  simp only [Option.some_bind]
  rw [parse_attr_render_nl a hv rest hr]
  rfl

theorem pil_method (k : List Char) (hk : k ≠ [])
    (hka : k.all isAlnum = true) (a : Attr) (hv : validAttr a = true)
    (rest : List Char) (hr : headNotWs rest = true) :
    parse_info_line (str "method " ++ (k ++ ' ' :: (renderAttr a ++
      '\n' :: rest))) = some (rest, InfoLine.Method k a) := by
  have t1 : tagP (str "root") (str "method " ++ (k ++ ' ' ::
      (renderAttr a ++ '\n' :: rest))) = none := by
    rw [show str "root" = 'r' :: 'o' :: 'o' :: 't' :: [] from rfl,
      show str "method " ++ (k ++ ' ' :: (renderAttr a ++ '\n' :: rest)) =
        'm' :: ('e' :: 't' :: 'h' :: 'o' :: 'd' :: ' ' :: [] ++
          (k ++ ' ' :: (renderAttr a ++ '\n' :: rest))) from rfl]
    exact tagP_head_ne 'r' 'm' _ _ (by decide)
  have t2 : tagP (str "param") (str "method " ++ (k ++ ' ' ::
      (renderAttr a ++ '\n' :: rest))) = none := by
    rw [show str "param" = 'p' :: 'a' :: 'r' :: 'a' :: 'm' :: [] from rfl,
      show str "method " ++ (k ++ ' ' :: (renderAttr a ++ '\n' :: rest)) =
        'm' :: ('e' :: 't' :: 'h' :: 'o' :: 'd' :: ' ' :: [] ++
          (k ++ ' ' :: (renderAttr a ++ '\n' :: rest))) from rfl]
    exact tagP_head_ne 'p' 'm' _ _ (by decide)
  have t3 : tagP (str "return") (str "method " ++ (k ++ ' ' ::
      (renderAttr a ++ '\n' :: rest))) = none := by
    rw [show str "return" = 'r' :: 'e' :: 't' :: 'u' :: 'r' :: 'n' :: []
      from rfl,
      show str "method " ++ (k ++ ' ' :: (renderAttr a ++ '\n' :: rest)) =
        'm' :: ('e' :: 't' :: 'h' :: 'o' :: 'd' :: ' ' :: [] ++
          (k ++ ' ' :: (renderAttr a ++ '\n' :: rest))) from rfl]
    exact tagP_head_ne 'r' 'm' _ _ (by decide)
  have t4 : tagP (str "method") (str "method " ++ (k ++ ' ' ::
      (renderAttr a ++ '\n' :: rest))) =
      some (' ' :: (k ++ ' ' :: (renderAttr a ++ '\n' :: rest)),
        str "method") := by
    rw [show str "method " ++ (k ++ ' ' :: (renderAttr a ++
      '\n' :: rest)) = str "method" ++ (' ' :: (k ++ ' ' ::
        (renderAttr a ++ '\n' :: rest))) from rfl]
    exact tagP_pre (str "method") _
  rw [parse_info_line]
  rw [multispace0_skip (str "method " ++ (k ++ ' ' :: (renderAttr a ++
    '\n' :: rest))) rfl]
  simp only [Option.bind_eq_bind, Option.some_bind, t1, t2, t3, t4]
  rw [multispace0_sp (k ++ ' ' :: (renderAttr a ++ '\n' :: rest))
    (alnum_headNotWs k hk hka _)]
  simp only [Option.some_bind]
  rw [alnum1_sp k (renderAttr a ++ '\n' :: rest) hk hka]
  simp only [Option.some_bind]
  rw [multispace0_sp (renderAttr a ++ '\n' :: rest)
    (by rw [renderAttr]; rfl)]
  simp only [Option.some_bind]
  rw [parse_attr_render_nl a hv rest hr]
  rfl

theorem pmia_render (k : List Char) (hk : k ≠ [])
    (hka : k.all isAlnum = true) (i : Nat) (hi : i < usizeCap) (a : Attr)
    (hv : validAttr a = true) (rest : List Char)
    (hr : headNotWs rest = true) :
    parse_meth_idx_attr (' ' :: (k ++ ' ' :: (natToDec i ++ ' ' ::
      (renderAttr a ++ '\n' :: rest)))) = some (rest, (k, i, a)) := by
  rw [parse_meth_idx_attr]
  rw [multispace0_sp (k ++ ' ' :: (natToDec i ++ ' ' ::
    (renderAttr a ++ '\n' :: rest))) (alnum_headNotWs k hk hka _)]
  simp only [Option.bind_eq_bind, Option.some_bind]
  rw [alnum1_sp k (natToDec i ++ ' ' :: (renderAttr a ++ '\n' :: rest))
    hk hka]
  simp only [Option.some_bind]
  rw [multispace0_sp (natToDec i ++ ' ' :: (renderAttr a ++ '\n' :: rest))
    (alnum_headNotWs (natToDec i) (natToDec_ne_nil i)
      (natToDec_all_alnum i) _)]
  simp only [Option.some_bind]
  rw [alnum1_sp (natToDec i) (renderAttr a ++ '\n' :: rest)
    (natToDec_ne_nil i) (natToDec_all_alnum i)]
  simp only [Option.some_bind]
  simp only [parseUsize_natToDec i hi]
  rw [multispace0_sp (renderAttr a ++ '\n' :: rest)
    (by rw [renderAttr]; rfl)]
  simp only [Option.some_bind]
  rw [parse_attr_render_nl a hv rest hr]
  rfl

theorem pil_param (k : List Char) (hk : k ≠ [])
    (hka : k.all isAlnum = true) (i : Nat) (hi : i < usizeCap) (a : Attr)
    (hv : validAttr a = true) (rest : List Char)
    (hr : headNotWs rest = true) :
    parse_info_line (str "param " ++ (k ++ ' ' :: (natToDec i ++ ' ' ::
      (renderAttr a ++ '\n' :: rest)))) =
      some (rest, InfoLine.Param k i a) := by
  have t1 : tagP (str "root") (str "param " ++ (k ++ ' ' ::
      (natToDec i ++ ' ' :: (renderAttr a ++ '\n' :: rest)))) = none := by
    rw [show str "root" = 'r' :: 'o' :: 'o' :: 't' :: [] from rfl,
      show str "param " ++ (k ++ ' ' :: (natToDec i ++ ' ' ::
        (renderAttr a ++ '\n' :: rest))) =
        'p' :: ('a' :: 'r' :: 'a' :: 'm' :: ' ' :: [] ++
          (k ++ ' ' :: (natToDec i ++ ' ' :: (renderAttr a ++
            '\n' :: rest)))) from rfl]
    exact tagP_head_ne 'r' 'p' _ _ (by decide)
  have t2 : tagP (str "param") (str "param " ++ (k ++ ' ' ::
      (natToDec i ++ ' ' :: (renderAttr a ++ '\n' :: rest)))) =
      some (' ' :: (k ++ ' ' :: (natToDec i ++ ' ' :: (renderAttr a ++
        '\n' :: rest))), str "param") := by
    rw [show str "param " ++ (k ++ ' ' :: (natToDec i ++ ' ' ::
      (renderAttr a ++ '\n' :: rest))) =
      str "param" ++ (' ' :: (k ++ ' ' :: (natToDec i ++ ' ' ::
        (renderAttr a ++ '\n' :: rest)))) from rfl]
    exact tagP_pre (str "param") _
  rw [parse_info_line]
  rw [multispace0_skip (str "param " ++ (k ++ ' ' :: (natToDec i ++
    ' ' :: (renderAttr a ++ '\n' :: rest)))) rfl]
  simp only [Option.bind_eq_bind, Option.some_bind, t1, t2]
  simp only [pmia_render k hk hka i hi a hv rest hr]

theorem pil_return (k : List Char) (hk : k ≠ [])
    (hka : k.all isAlnum = true) (i : Nat) (hi : i < usizeCap) (a : Attr)
    (hv : validAttr a = true) (rest : List Char)
    (hr : headNotWs rest = true) :
    parse_info_line (str "return " ++ (k ++ ' ' :: (natToDec i ++ ' ' ::
      (renderAttr a ++ '\n' :: rest)))) =
      some (rest, InfoLine.Return k i a) := by
  have t1 : tagP (str "root") (str "return " ++ (k ++ ' ' ::
      (natToDec i ++ ' ' :: (renderAttr a ++ '\n' :: rest)))) = none := by
    rw [tagP, if_neg]
    intro he
    rw [show (str "return " ++ (k ++ ' ' :: (natToDec i ++ ' ' ::
      (renderAttr a ++ '\n' :: rest)))).take (str "root").length =
      'r' :: 'e' :: 't' :: 'u' :: [] from rfl] at he
    exact absurd he (by decide)
  have t2 : tagP (str "param") (str "return " ++ (k ++ ' ' ::
      (natToDec i ++ ' ' :: (renderAttr a ++ '\n' :: rest)))) = none := by
    rw [show str "param" = 'p' :: 'a' :: 'r' :: 'a' :: 'm' :: [] from rfl,
      show str "return " ++ (k ++ ' ' :: (natToDec i ++ ' ' ::
        (renderAttr a ++ '\n' :: rest))) =
        'r' :: ('e' :: 't' :: 'u' :: 'r' :: 'n' :: ' ' :: [] ++
          (k ++ ' ' :: (natToDec i ++ ' ' :: (renderAttr a ++
            '\n' :: rest)))) from rfl]
    exact tagP_head_ne 'p' 'r' _ _ (by decide)
  have t3 : tagP (str "return") (str "return " ++ (k ++ ' ' ::
      (natToDec i ++ ' ' :: (renderAttr a ++ '\n' :: rest)))) =
      some (' ' :: (k ++ ' ' :: (natToDec i ++ ' ' :: (renderAttr a ++
        '\n' :: rest))), str "return") := by
    rw [show str "return " ++ (k ++ ' ' :: (natToDec i ++ ' ' ::
      (renderAttr a ++ '\n' :: rest))) =
      str "return" ++ (' ' :: (k ++ ' ' :: (natToDec i ++ ' ' ::
        (renderAttr a ++ '\n' :: rest)))) from rfl]
    exact tagP_pre (str "return") _
  rw [parse_info_line]
  rw [multispace0_skip (str "return " ++ (k ++ ' ' :: (natToDec i ++
    ' ' :: (renderAttr a ++ '\n' :: rest)))) rfl]
  simp only [Option.bind_eq_bind, Option.some_bind, t1, t2, t3]
  simp only [pmia_render k hk hka i hi a hv rest hr]

theorem pil_render (l : InfoLine) (hl : ValidLine l) (rest : List Char)
    (hr : headNotWs rest = true) :
    parse_info_line (renderLine l ++ rest) = some (rest, l) := by
  cases l with
  | Root a =>
    rw [renderLine]
    rw [show (str "root " ++ renderAttr a ++ ['\n']) ++ rest =
      str "root " ++ (renderAttr a ++ '\n' :: rest) from by
        simp [List.append_assoc]]
    exact pil_root a hl rest hr
  | Method k a =>
    obtain ⟨hk, hka, hv⟩ := hl
    rw [renderLine]
    rw [show (str "method " ++ k ++ ' ' :: renderAttr a ++ ['\n']) ++
      rest = str "method " ++ (k ++ ' ' :: (renderAttr a ++ '\n' :: rest))
      from by simp [List.append_assoc]]
    exact pil_method k hk hka a hv rest hr
  | Param k i a =>
    obtain ⟨hk, hka, hi, hv⟩ := hl
    rw [renderLine]
    rw [show (str "param " ++ k ++ ' ' :: natToDec i ++ ' ' ::
      renderAttr a ++ ['\n']) ++ rest =
      str "param " ++ (k ++ ' ' :: (natToDec i ++ ' ' ::
        (renderAttr a ++ '\n' :: rest))) from by simp [List.append_assoc]]
    exact pil_param k hk hka i hi a hv rest hr
  | Return k i a =>
    obtain ⟨hk, hka, hi, hv⟩ := hl
    rw [renderLine]
    rw [show (str "return " ++ k ++ ' ' :: natToDec i ++ ' ' ::
      renderAttr a ++ ['\n']) ++ rest =
      str "return " ++ (k ++ ' ' :: (natToDec i ++ ' ' ::
        (renderAttr a ++ '\n' :: rest))) from by simp [List.append_assoc]]
    exact pil_return k hk hka i hi a hv rest hr

theorem renderLine_len_pos (l : InfoLine) : 0 < (renderLine l).length := by
  cases l <;> simp [renderLine, str]

theorem renderLines_headNotWs (ls : List InfoLine) (rest : List Char)
    (hr : headNotWs rest = true) :
    headNotWs (ls.flatMap renderLine ++ rest) = true := by
  cases ls with
  | nil => simpa using hr
  | cons l t =>
    rw [List.flatMap_cons, List.append_assoc]
    cases l <;> rfl

theorem many0_lines_render (ls : List InfoLine)
    (hv : ∀ l ∈ ls, ValidLine l) (rest : List Char)
    (hstop : parse_info_line rest = none) (hr : headNotWs rest = true) :
    many0 parse_info_line (ls.flatMap renderLine ++ rest) =
      some (rest, ls) := by
  induction ls with
  | nil =>
    rw [List.flatMap_nil, List.nil_append]
    exact many0_of_fail hstop
  | cons l t ih =>
    rw [List.flatMap_cons, List.append_assoc]
    apply many0_of_step (r := t.flatMap renderLine ++ rest)
    · exact pil_render l (hv l (by simp)) _
        (renderLines_headNotWs t rest hr)
    · simp only [List.length_append]
      have := renderLine_len_pos l
      omega
    · exact ih (fun x hx => hv x (by simp [hx]))

theorem renderMethLines_lines (k : List Char) (m : MethEntry) :
    renderMethLines k m = (mlinesOf k m).flatMap renderLine := by
  rw [renderMethLines, mlinesOf]
  simp only [List.flatMap_append, List.flatMap_assoc, List.flatMap_map,
    Function.comp, renderLine]

theorem renderInfoEntry_lines (e : InfoEntry) :
    renderInfoEntry e = (linesOf e).flatMap renderLine := by
  rw [renderInfoEntry, linesOf]
  simp only [renderMethLines_lines, List.flatMap_append,
    List.flatMap_assoc, List.flatMap_map, Function.comp, renderLine]

theorem linesOf_valid (e : InfoEntry) (he : e.wfR) :
    ∀ l ∈ linesOf e, ValidLine l := by
  obtain ⟨⟨hav, _⟩, _, hms⟩ := he
  intro l hl
  rw [linesOf] at hl
  rcases List.mem_append.mp hl with h | h
  · rcases List.mem_map.mp h with ⟨a, ha, rfl⟩
    exact hav a ha
  · rcases List.mem_flatMap.mp h with ⟨q, hq, hlq⟩
    obtain ⟨⟨hk, hka⟩, hmv, hwp, hwr, hpv, hrv, _⟩ := hms q hq
    rw [mlinesOf] at hlq
    rcases List.mem_append.mp hlq with h2 | h2
    · rcases List.mem_append.mp h2 with h3 | h3
      · rcases List.mem_map.mp h3 with ⟨a, ha, rfl⟩
        exact ⟨hk, hka, hmv.1 a ha⟩
      · rcases List.mem_flatMap.mp h3 with ⟨p, hp, hlp⟩
        rcases List.mem_map.mp hlp with ⟨a, ha, rfl⟩
        obtain ⟨_, ⟨hv2, _⟩, hcap⟩ := hpv p hp
        exact ⟨hk, hka, hcap, hv2 a ha⟩
    · rcases List.mem_flatMap.mp h2 with ⟨p, hp, hlp⟩
      rcases List.mem_map.mp hlp with ⟨a, ha, rfl⟩
      obtain ⟨_, ⟨hv2, _⟩, hcap⟩ := hrv p hp
      exact ⟨hk, hka, hcap, hv2 a ha⟩

theorem lookupA_append [DecidableEq κ] (k : κ) :
    ∀ l1 l2 : List (κ × β), lookupA k (l1 ++ l2) =
      orO (lookupA k l1) (lookupA k l2) := by
  intro l1
  induction l1 with
  | nil => intro l2; simp [lookupA, orO]
  | cons p t ih =>
    intro l2
    obtain ⟨q, w⟩ := p
    by_cases h : k = q
    · subst h
      simp [lookupA, orO]
    · simp only [List.cons_append, lookupA, if_neg h]
      exact ih l2

theorem lookupA_last (lt : κ → κ → Bool) [DecidableEq κ]
    (hirr : ∀ a, lt a a = false) (k : κ) (v : β)
    (ms : List (κ × β)) (hgt : ∀ p ∈ ms, lt p.1 k = true) :
    lookupA k (ms ++ [(k, v)]) = some v := by
  rw [lookupA_append, lookupA_none_of_gt lt hirr k ms hgt]
  simp [lookupA, orO]

theorem insertA_last (lt : κ → κ → Bool) [DecidableEq κ]
    (hirr : ∀ a, lt a a = false)
    (hasymB : ∀ a b : κ, lt a b = true → lt b a = false) (k : κ)
    (v w : β) : ∀ ms : List (κ × β), (∀ p ∈ ms, lt p.1 k = true) →
    insertA lt k w (ms ++ [(k, v)]) = ms ++ [(k, w)] := by
  intro ms
  induction ms with
  | nil =>
    intro _
    rw [List.nil_append, insertA, if_neg (by rw [hirr k]; simp),
      if_pos rfl]
    rfl
  | cons p t ih =>
    intro hgt
    obtain ⟨q, u⟩ := p
    have hq : lt q k = true := hgt (q, u) (by simp)
    have h1 : ¬ lt k q = true := by rw [hasymB q k hq]; simp
    have h2 : ¬ k = q := by
      intro he
      subst he
      rw [hirr k] at hq
      exact Bool.noConfusion hq
    rw [List.cons_append, insertA, if_neg h1, if_neg h2,
      ih (fun p hp => hgt p (by simp [hp]))]
    rfl

theorem updEntryA_create (lt : κ → κ → Bool) [DecidableEq κ]
    (hirr : ∀ a, lt a a = false)
    (hasymB : ∀ a b : κ, lt a b = true → lt b a = false) (dflt : β)
    (k : κ) (f : β → β) (ms : List (κ × β))
    (hgt : ∀ p ∈ ms, lt p.1 k = true) :
    updEntryA lt dflt k f ms = ms ++ [(k, f dflt)] := by
  rw [updEntryA, lookupA_none_of_gt lt hirr k ms hgt, Option.getD_none,
    insertA_append lt hirr hasymB k _ ms hgt]

theorem updEntryA_last (lt : κ → κ → Bool) [DecidableEq κ]
    (hirr : ∀ a, lt a a = false)
    (hasymB : ∀ a b : κ, lt a b = true → lt b a = false) (dflt : β)
    (k : κ) (f : β → β) (v : β) (ms : List (κ × β))
    (hgt : ∀ p ∈ ms, lt p.1 k = true) :
    updEntryA lt dflt k f (ms ++ [(k, v)]) = ms ++ [(k, f v)] := by
  rw [updEntryA, lookupA_last lt hirr k v ms hgt, Option.getD_some,
    insertA_last lt hirr hasymB k v (f v) ms hgt]

theorem applyInfoLine_dflt (ra : List Attr)
    (ms : List (List Char × MethEntry)) (k : List Char) (l : InfoLine)
    (hl : lineKey l = some k)
    (hgt : ∀ p ∈ ms, lexLt p.1 k = true) :
    applyInfoLine (ra, ms) l =
      applyInfoLine (ra, ms ++ [(k, MethEntry.default)]) l := by
  cases l with
  | Root a => exact absurd hl (by rw [lineKey]; simp)
  | Method q a =>
    have hq2 : k = q := by
      rw [lineKey] at hl
      exact (Option.some.inj hl).symm
    subst hq2
    simp only [applyInfoLine]
    rw [updEntryA_create lexLt lexLt_irr lexLt_asymB _ k _ ms hgt,
      updEntryA_last lexLt lexLt_irr lexLt_asymB _ k _ _ ms hgt]
  | Param q i a =>
    have hq : k = q := by
      rw [lineKey] at hl
      exact (Option.some.inj hl).symm
    subst hq
    simp only [applyInfoLine]
    rw [updEntryA_create lexLt lexLt_irr lexLt_asymB _ k _ ms hgt,
      updEntryA_last lexLt lexLt_irr lexLt_asymB _ k _ _ ms hgt]
  | Return q i a =>
    have hq : k = q := by
      rw [lineKey] at hl
      exact (Option.some.inj hl).symm
    subst hq
    simp only [applyInfoLine]
    rw [updEntryA_create lexLt lexLt_irr lexLt_asymB _ k _ ms hgt,
      updEntryA_last lexLt lexLt_irr lexLt_asymB _ k _ _ ms hgt]

theorem build_mattrs (k : List Char) (as : List Attr) :
    ∀ (ra : List Attr) (ms : List (List Char × MethEntry))
      (cur : MethEntry), (∀ p ∈ ms, lexLt p.1 k = true) →
    (as.map (InfoLine.Method k)).foldl applyInfoLine
      (ra, ms ++ [(k, cur)]) =
      (ra, ms ++ [(k, ⟨cur.attrs ++ as, cur.params, cur.returns⟩)]) := by
  induction as with
  | nil =>
    intro ra ms cur hgt
    simp
  | cons a t ih =>
    intro ra ms cur hgt
    rw [List.map_cons, List.foldl_cons]
    have step : applyInfoLine (ra, ms ++ [(k, cur)])
        (InfoLine.Method k a) =
        (ra, ms ++ [(k, (⟨cur.attrs ++ [a], cur.params, cur.returns⟩ :
          MethEntry))]) := by
      simp only [applyInfoLine]
      rw [updEntryA_last lexLt lexLt_irr lexLt_asymB _ k _ cur ms hgt]
    rw [step, ih ra ms ⟨cur.attrs ++ [a], cur.params, cur.returns⟩ hgt]
    simp

theorem build_mpattrs (k : List Char) (i : Nat) (as : List Attr) :
    ∀ (ra : List Attr) (ms : List (List Char × MethEntry)) (cA : List Attr)
      (cP : List (Nat × ParamEntry)) (cR : List (Nat × ParamEntry))
      (acc : List Attr), (∀ p ∈ ms, lexLt p.1 k = true) →
      (∀ r ∈ cP, natLt r.1 i = true) →
    (as.map (InfoLine.Param k i)).foldl applyInfoLine
      (ra, ms ++ [(k, ⟨cA, cP ++ [(i, ⟨acc⟩)], cR⟩)]) =
      (ra, ms ++ [(k, ⟨cA, cP ++ [(i, ⟨acc ++ as⟩)], cR⟩)]) := by
  induction as with
  | nil =>
    intro ra ms cA cP cR acc hgt hpi
    simp
  | cons a t ih =>
    intro ra ms cA cP cR acc hgt hpi
    rw [List.map_cons, List.foldl_cons]
    have step : applyInfoLine (ra, ms ++ [(k, ⟨cA, cP ++ [(i, ⟨acc⟩)],
        cR⟩)]) (InfoLine.Param k i a) =
        (ra, ms ++ [(k, (⟨cA, cP ++ [(i, ⟨acc ++ [a]⟩)], cR⟩ :
          MethEntry))]) := by
      simp only [applyInfoLine]
      rw [updEntryA_last lexLt lexLt_irr lexLt_asymB _ k _ _ ms hgt]
      rw [show (updEntryA natLt ParamEntry.default i
        (fun p => ⟨p.attrs ++ [a]⟩) (cP ++ [(i, ⟨acc⟩)]) :
          List (Nat × ParamEntry)) = cP ++ [(i, ⟨acc ++ [a]⟩)] from by
        rw [updEntryA_last natLt natLt_irr natLt_asymB _ i _ _ cP hpi]]
    rw [step, ih ra ms cA cP cR (acc ++ [a]) hgt hpi]
    simp

theorem build_mparam (k : List Char) (i : Nat) (as : List Attr)
    (has : as ≠ []) (ra : List Attr)
    (ms : List (List Char × MethEntry)) (cA : List Attr)
    (cP : List (Nat × ParamEntry)) (cR : List (Nat × ParamEntry))
    (hgt : ∀ p ∈ ms, lexLt p.1 k = true)
    (hpi : ∀ r ∈ cP, natLt r.1 i = true) :
    (as.map (InfoLine.Param k i)).foldl applyInfoLine
      (ra, ms ++ [(k, ⟨cA, cP, cR⟩)]) =
      (ra, ms ++ [(k, ⟨cA, cP ++ [(i, ⟨as⟩)], cR⟩)]) := by
  cases as with
  | nil => exact absurd rfl has
  | cons a t =>
    rw [List.map_cons, List.foldl_cons]
    have step : applyInfoLine (ra, ms ++ [(k, ⟨cA, cP, cR⟩)])
        (InfoLine.Param k i a) =
        (ra, ms ++ [(k, (⟨cA, cP ++ [(i, ⟨[a]⟩)], cR⟩ :
          MethEntry))]) := by
      simp only [applyInfoLine]
      rw [updEntryA_last lexLt lexLt_irr lexLt_asymB _ k _ _ ms hgt]
      rw [show (updEntryA natLt ParamEntry.default i
        (fun p => ⟨p.attrs ++ [a]⟩) cP : List (Nat × ParamEntry)) =
          cP ++ [(i, ⟨[a]⟩)] from by
        rw [updEntryA_create natLt natLt_irr natLt_asymB _ i _ cP hpi]
        rfl]
    rw [step]
    have := build_mpattrs k i t ra ms cA cP cR [a] hgt hpi
    rw [this]
    simp

theorem build_mrattrs (k : List Char) (i : Nat) (as : List Attr) :
    ∀ (ra : List Attr) (ms : List (List Char × MethEntry)) (cA : List Attr)
      (cP : List (Nat × ParamEntry)) (cR : List (Nat × ParamEntry))
      (acc : List Attr), (∀ p ∈ ms, lexLt p.1 k = true) →
      (∀ r ∈ cR, natLt r.1 i = true) →
    (as.map (InfoLine.Return k i)).foldl applyInfoLine
      (ra, ms ++ [(k, ⟨cA, cP, cR ++ [(i, ⟨acc⟩)]⟩)]) =
      (ra, ms ++ [(k, ⟨cA, cP, cR ++ [(i, ⟨acc ++ as⟩)]⟩)]) := by
  induction as with
  | nil =>
    intro ra ms cA cP cR acc hgt hpi
    simp
  | cons a t ih =>
    intro ra ms cA cP cR acc hgt hpi
    rw [List.map_cons, List.foldl_cons]
    have step : applyInfoLine (ra, ms ++ [(k, ⟨cA, cP,
        cR ++ [(i, ⟨acc⟩)]⟩)]) (InfoLine.Return k i a) =
        (ra, ms ++ [(k, (⟨cA, cP, cR ++ [(i, ⟨acc ++ [a]⟩)]⟩ :
          MethEntry))]) := by
      simp only [applyInfoLine]
      rw [updEntryA_last lexLt lexLt_irr lexLt_asymB _ k _ _ ms hgt]
      rw [show (updEntryA natLt ParamEntry.default i
        (fun p => ⟨p.attrs ++ [a]⟩) (cR ++ [(i, ⟨acc⟩)]) :
          List (Nat × ParamEntry)) = cR ++ [(i, ⟨acc ++ [a]⟩)] from by
        rw [updEntryA_last natLt natLt_irr natLt_asymB _ i _ _ cR hpi]]
    rw [step, ih ra ms cA cP cR (acc ++ [a]) hgt hpi]
    simp

theorem build_mret (k : List Char) (i : Nat) (as : List Attr)
    (has : as ≠ []) (ra : List Attr)
    (ms : List (List Char × MethEntry)) (cA : List Attr)
    (cP : List (Nat × ParamEntry)) (cR : List (Nat × ParamEntry))
    (hgt : ∀ p ∈ ms, lexLt p.1 k = true)
    (hpi : ∀ r ∈ cR, natLt r.1 i = true) :
    (as.map (InfoLine.Return k i)).foldl applyInfoLine
      (ra, ms ++ [(k, ⟨cA, cP, cR⟩)]) =
      (ra, ms ++ [(k, ⟨cA, cP, cR ++ [(i, ⟨as⟩)]⟩)]) := by
  cases as with
  | nil => exact absurd rfl has
  | cons a t =>
    rw [List.map_cons, List.foldl_cons]
    have step : applyInfoLine (ra, ms ++ [(k, ⟨cA, cP, cR⟩)])
        (InfoLine.Return k i a) =
        (ra, ms ++ [(k, (⟨cA, cP, cR ++ [(i, ⟨[a]⟩)]⟩ :
          MethEntry))]) := by
      simp only [applyInfoLine]
      rw [updEntryA_last lexLt lexLt_irr lexLt_asymB _ k _ _ ms hgt]
      rw [show (updEntryA natLt ParamEntry.default i
        (fun p => ⟨p.attrs ++ [a]⟩) cR : List (Nat × ParamEntry)) =
          cR ++ [(i, ⟨[a]⟩)] from by
        rw [updEntryA_create natLt natLt_irr natLt_asymB _ i _ cR hpi]
        rfl]
    rw [step]
    have := build_mrattrs k i t ra ms cA cP cR [a] hgt hpi
    rw [this]
    simp

theorem build_mparams (k : List Char) (ps : List (Nat × ParamEntry)) :
    ∀ (ra : List Attr) (ms : List (List Char × MethEntry)) (cA : List Attr)
      (cP : List (Nat × ParamEntry)) (cR : List (Nat × ParamEntry)),
      (∀ p ∈ ms, lexLt p.1 k = true) → MapWF natLt ps →
      (∀ r ∈ cP, ∀ s ∈ ps, natLt r.1 s.1 = true) →
      (∀ s ∈ ps, s.2.attrs ≠ []) →
    (ps.flatMap (fun q => q.2.attrs.map (InfoLine.Param k q.1))).foldl
      applyInfoLine (ra, ms ++ [(k, ⟨cA, cP, cR⟩)]) =
      (ra, ms ++ [(k, ⟨cA, cP ++ ps, cR⟩)]) := by
  induction ps with
  | nil =>
    intro ra ms cA cP cR hgt _ _ _
    simp
  | cons q t ih =>
    intro ra ms cA cP cR hgt hwf hlt hne
    obtain ⟨i, p⟩ := q
    rw [List.flatMap_cons, List.foldl_append]
    rw [build_mparam k i p.attrs (hne (i, p) (by simp)) ra ms cA cP cR
      hgt (fun r hr => hlt r hr (i, p) (by simp))]
    have hp : (⟨p.attrs⟩ : ParamEntry) = p := rfl
    rw [hp]
    have hwf2 : MapWF natLt t := (List.pairwise_cons.mp hwf).2
    have hlt2 : ∀ r ∈ cP ++ [(i, p)], ∀ s ∈ t, natLt r.1 s.1 = true := by
      intro r hr s hs
      rcases List.mem_append.mp hr with h | h
      · exact hlt r h s (by simp [hs])
      · have : r = (i, p) := by simpa using h
        subst this
        exact (List.pairwise_cons.mp hwf).1 s hs
    have := ih ra ms cA (cP ++ [(i, p)]) cR hgt hwf2 hlt2
      (fun s hs => hne s (by simp [hs]))
    rw [this]
    simp

theorem build_mrets (k : List Char) (ps : List (Nat × ParamEntry)) :
    ∀ (ra : List Attr) (ms : List (List Char × MethEntry)) (cA : List Attr)
      (cP : List (Nat × ParamEntry)) (cR : List (Nat × ParamEntry)),
      (∀ p ∈ ms, lexLt p.1 k = true) → MapWF natLt ps →
      (∀ r ∈ cR, ∀ s ∈ ps, natLt r.1 s.1 = true) →
      (∀ s ∈ ps, s.2.attrs ≠ []) →
    (ps.flatMap (fun q => q.2.attrs.map (InfoLine.Return k q.1))).foldl
      applyInfoLine (ra, ms ++ [(k, ⟨cA, cP, cR⟩)]) =
      (ra, ms ++ [(k, ⟨cA, cP, cR ++ ps⟩)]) := by
  induction ps with
  | nil =>
    intro ra ms cA cP cR hgt _ _ _
    simp
  | cons q t ih =>
    intro ra ms cA cP cR hgt hwf hlt hne
    obtain ⟨i, p⟩ := q
    rw [List.flatMap_cons, List.foldl_append]
    rw [build_mret k i p.attrs (hne (i, p) (by simp)) ra ms cA cP cR
      hgt (fun r hr => hlt r hr (i, p) (by simp))]
    have hp : (⟨p.attrs⟩ : ParamEntry) = p := rfl
    rw [hp]
    have hwf2 : MapWF natLt t := (List.pairwise_cons.mp hwf).2
    have hlt2 : ∀ r ∈ cR ++ [(i, p)], ∀ s ∈ t, natLt r.1 s.1 = true := by
      intro r hr s hs
      rcases List.mem_append.mp hr with h | h
      · exact hlt r h s (by simp [hs])
      · have : r = (i, p) := by simpa using h
        subst this
        exact (List.pairwise_cons.mp hwf).1 s hs
    have := ih ra ms cA cP (cR ++ [(i, p)]) hgt hwf2 hlt2
      (fun s hs => hne s (by simp [hs]))
    rw [this]
    simp

theorem mlinesOf_key (k : List Char) (m : MethEntry) :
    ∀ l ∈ mlinesOf k m, lineKey l = some k := by
  intro l hl
  rw [mlinesOf] at hl
  rcases List.mem_append.mp hl with h | h
  · rcases List.mem_append.mp h with h2 | h2
    · rcases List.mem_map.mp h2 with ⟨a, _, rfl⟩
      rfl
    · rcases List.mem_flatMap.mp h2 with ⟨q, _, hq⟩
      rcases List.mem_map.mp hq with ⟨a, _, rfl⟩
      rfl
  · rcases List.mem_flatMap.mp h with ⟨q, _, hq⟩
    rcases List.mem_map.mp hq with ⟨a, _, rfl⟩
    rfl

theorem mlinesOf_ne_nil (k : List Char) (m : MethEntry)
    (hm : m.attrs ≠ [] ∨ m.params ≠ [] ∨ m.returns ≠ [])
    (hp : ∀ q ∈ m.params, q.2.attrs ≠ [])
    (hr : ∀ q ∈ m.returns, q.2.attrs ≠ []) : mlinesOf k m ≠ [] := by
  intro hnil
  rw [mlinesOf] at hnil
  rcases List.append_eq_nil.mp hnil with ⟨h12, h3⟩
  rcases List.append_eq_nil.mp h12 with ⟨h1, h2⟩
  have ha : m.attrs = [] := by
    cases hA : m.attrs with
    | nil => rfl
    | cons x u => rw [hA] at h1; simp at h1
  have hps : m.params = [] := by
    cases hP : m.params with
    | nil => rfl
    | cons q u =>
      rw [hP, List.flatMap_cons] at h2
      rcases List.append_eq_nil.mp h2 with ⟨h4, _⟩
      have := hp q (by rw [hP]; simp)
      cases hQ : q.2.attrs with
      | nil => exact absurd hQ this
      | cons y v => rw [hQ] at h4; simp at h4
  have hrs : m.returns = [] := by
    cases hR : m.returns with
    | nil => rfl
    | cons q u =>
      rw [hR, List.flatMap_cons] at h3
      rcases List.append_eq_nil.mp h3 with ⟨h4, _⟩
      have := hr q (by rw [hR]; simp)
      cases hQ : q.2.attrs with
      | nil => exact absurd hQ this
      | cons y v => rw [hQ] at h4; simp at h4
  rcases hm with h | h | h
  · exact h ha
  · exact h hps
  · exact h hrs

theorem build_mblock (k : List Char) (m : MethEntry) (ra : List Attr)
    (ms : List (List Char × MethEntry))
    (hgt : ∀ p ∈ ms, lexLt p.1 k = true) (hm : m.wfR) :
    (mlinesOf k m).foldl applyInfoLine (ra, ms) = (ra, ms ++ [(k, m)]) := by
  obtain ⟨hav, hwp, hwr, hpv, hrv, hne⟩ := hm
  have hstart : (mlinesOf k m).foldl applyInfoLine (ra, ms) =
      (mlinesOf k m).foldl applyInfoLine
        (ra, ms ++ [(k, MethEntry.default)]) := by
    cases hml : mlinesOf k m with
    | nil =>
      exact absurd hml (mlinesOf_ne_nil k m hne
        (fun q hq => (hpv q hq).1) (fun q hq => (hrv q hq).1))
    | cons l t =>
      rw [List.foldl_cons, List.foldl_cons,
        applyInfoLine_dflt ra ms k l
          (mlinesOf_key k m l (by rw [hml]; simp)) hgt]
  rw [hstart, mlinesOf, List.foldl_append, List.foldl_append]
  rw [show (ms ++ [(k, MethEntry.default)]) =
    ms ++ [(k, (⟨[], [], []⟩ : MethEntry))] from rfl]
  rw [build_mattrs k m.attrs ra ms ⟨[], [], []⟩ hgt]
  rw [show ((⟨[], [], []⟩ : MethEntry).attrs ++ m.attrs) = m.attrs from by
    simp]
  rw [build_mparams k m.params ra ms m.attrs [] [] hgt hwp
    (by intro r hr; simp at hr) (fun s hs => (hpv s hs).1)]
  rw [show (([] : List (Nat × ParamEntry)) ++ m.params) = m.params from by
    simp]
  rw [build_mrets k m.returns ra ms m.attrs m.params [] hgt hwr
    (by intro r hr; simp at hr) (fun s hs => (hrv s hs).1)]
  rw [show (([] : List (Nat × ParamEntry)) ++ m.returns) = m.returns from
    by simp]

theorem build_meths (w : List (List Char × MethEntry)) :
    ∀ (ra : List Attr) (ms : List (List Char × MethEntry)),
      MapWF lexLt w → (∀ p ∈ ms, ∀ q ∈ w, lexLt p.1 q.1 = true) →
      (∀ q ∈ w, MethEntry.wfR q.2) →
    (w.flatMap (fun q => mlinesOf q.1 q.2)).foldl applyInfoLine (ra, ms) =
      (ra, ms ++ w) := by
  induction w with
  | nil =>
    intro ra ms _ _ _
    simp
  | cons q t ih =>
    intro ra ms hwf hlt hv
    obtain ⟨k, m⟩ := q
    rw [List.flatMap_cons, List.foldl_append]
    rw [build_mblock k m ra ms
      (fun p hp => hlt p hp (k, m) (by simp)) (hv (k, m) (by simp))]
    have hlt2 : ∀ p ∈ ms ++ [(k, m)], ∀ q2 ∈ t, lexLt p.1 q2.1 = true := by
      intro p hp q2 hq2
      rcases List.mem_append.mp hp with h | h
      · exact hlt p h q2 (by simp [hq2])
      · have : p = (k, m) := by simpa using h
        subst this
        exact (List.pairwise_cons.mp hwf).1 q2 hq2
    rw [ih ra (ms ++ [(k, m)]) (List.pairwise_cons.mp hwf).2 hlt2
      (fun q2 hq2 => hv q2 (by simp [hq2]))]
    simp

theorem build_roots (as : List Attr) :
    ∀ (ra : List Attr) (ms : List (List Char × MethEntry)),
    (as.map InfoLine.Root).foldl applyInfoLine (ra, ms) = (ra ++ as, ms) := by
  induction as with
  | nil =>
    intro ra ms
    simp
  | cons a t ih =>
    intro ra ms
    rw [List.map_cons, List.foldl_cons]
    rw [show applyInfoLine (ra, ms) (InfoLine.Root a) =
      (ra ++ [a], ms) from rfl]
    rw [ih (ra ++ [a]) ms]
    simp

theorem build_entry (e : InfoEntry) (he : e.wfR) :
    (linesOf e).foldl applyInfoLine
      (([], []) : List Attr × List (List Char × MethEntry)) =
      (e.attrs, e.methods) := by
  obtain ⟨_, hwf, hms⟩ := he
  rw [linesOf, List.foldl_append, build_roots e.attrs [] []]
  rw [show (([] : List Attr) ++ e.attrs) = e.attrs from by simp]
  rw [build_meths e.methods e.attrs [] hwf
    (by intro p hp; simp at hp) (fun q hq => (hms q hq).2)]
  simp

theorem sortedAttrs_pairwiseLe (l : List Attr) (h : sortedAttrs l) :
    l.Pairwise (fun x y => attrLe x y = true) := by
  rw [sortedAttrs] at h
  refine h.imp ?_
  intro x y hxy
  rw [attrLe, lexLt_asymB x.name y.name hxy]
  rfl

theorem insSortA_id (l : List Attr) (h : sortedAttrs l) :
    insSort attrLe l = l :=
  insSort_of_pairwise attrLe l (sortedAttrs_pairwiseLe l h)

theorem sortParamA_id (p : ParamEntry) (h : sortedAttrs p.attrs) :
    sortParamA p = p := by
  rw [sortParamA, insSortA_id p.attrs h]

theorem sortMethA_id (m : MethEntry) (hm : m.wfR) : sortMethA m = m := by
  obtain ⟨⟨_, hsa⟩, _, _, hpv, hrv, _⟩ := hm
  rw [sortMethA, insSortA_id m.attrs hsa]
  rw [show m.params.map (fun q => (q.1, sortParamA q.2)) = m.params from by
    rw [show m.params.map (fun q => (q.1, sortParamA q.2)) =
      m.params.map id from List.map_congr_left (fun q hq => by
        obtain ⟨i, p⟩ := q
        simp [sortParamA_id p (hpv (i, p) hq).2.1.2]), List.map_id]]
  rw [show m.returns.map (fun q => (q.1, sortParamA q.2)) = m.returns from
    by
    rw [show m.returns.map (fun q => (q.1, sortParamA q.2)) =
      m.returns.map id from List.map_congr_left (fun q hq => by
        obtain ⟨i, p⟩ := q
        simp [sortParamA_id p (hrv (i, p) hq).2.1.2]), List.map_id]]

theorem infoEntry_parse_render (e : InfoEntry) (he : e.wfR)
    (rest : List Char) (hstop : parse_info_line rest = none)
    (hr : headNotWs rest = true) :
    InfoEntry.parse (renderInfoEntry e ++ rest) = some (rest, e) := by
  rw [InfoEntry.parse]
  rw [multispace0_skip (renderInfoEntry e ++ rest) (by
    rw [renderInfoEntry_lines]
    exact renderLines_headNotWs (linesOf e) rest hr)]
  simp only [Option.bind_eq_bind, Option.some_bind]
  rw [renderInfoEntry_lines]
  rw [many0_lines_render (linesOf e) (linesOf_valid e he) rest hstop hr]
  simp only [Option.some_bind]
  rw [build_entry e he]
  rw [multispace0_skip rest hr]
  simp only [Option.some_bind]
  rw [insSortA_id e.attrs he.1.2]
  rw [show e.methods.map (fun q => (q.1, sortMethA q.2)) = e.methods from
    by
    rw [show e.methods.map (fun q => (q.1, sortMethA q.2)) =
      e.methods.map id from List.map_congr_left (fun q hq => by
        obtain ⟨k, m⟩ := q
        simp [sortMethA_id m (he.2.2 (k, m) hq).2]), List.map_id]]

theorem renderInfo_eq (i : Info) :
    renderInfo i = i.interfaces.flatMap entryText := rfl

theorem hexDigitCh_not_ws : ∀ d, d < 16 → isWs (hexDigitCh d) = false := by
  decide

theorem hexEncode_headNotWs (idb : List Nat) (h32 : idb.length = 32)
    (hb : ∀ b ∈ idb, b < 256) (X : List Char) :
    headNotWs (hexEncode idb ++ X) = true := by
  cases idb with
  | nil => simp at h32
  | cons b t =>
    have hblt : b < 256 := hb b (by simp)
    rw [hexEncode_cons, List.cons_append, headNotWs,
      hexDigitCh_not_ws (b / 16) (by omega)]
    rfl

theorem takeWhileMN_hexEncode (idb : List Nat) (h32 : idb.length = 32)
    (hb : ∀ b ∈ idb, b < 256) (u : List Char) :
    takeWhileMN 64 64 isHexCh (hexEncode idb ++ ':' :: u) =
      some (':' :: u, hexEncode idb) := by
  have hlen : (hexEncode idb).length = 64 := by
    rw [hexEncode_length, h32]
  have htk : (hexEncode idb ++ ':' :: u).take 64 = hexEncode idb := by
    rw [← hlen]
    exact List.take_left _ _
  have htw : ((hexEncode idb ++ ':' :: u).take 64).takeWhile isHexCh =
      hexEncode idb := by
    rw [htk]
    have := takeWhile_append_stop isHexCh (hexEncode idb) []
      (hexEncode_all_hex idb hb) (by simp)
    simpa using this
  rw [takeWhileMN, htw, hlen, if_pos (Nat.le_refl 64)]
  rw [show ((hexEncode idb ++ ':' :: u).drop 64) = ':' :: u from by
    rw [← hlen]; exact List.drop_left _ _]

theorem pie_render (idb : List Nat) (h32 : idb.length = 32)
    (hb : ∀ b ∈ idb, b < 256) (e : InfoEntry) (he : e.wfR)
    (rest : List Char) (hr : headNotWs rest = true) :
    parse_interface_entry (hexEncode idb ++ ':' :: ' ' :: '[' ::
      (renderInfoEntry e ++ ']' :: rest)) = some (rest, (idb, e)) := by
  rw [parse_interface_entry]
  rw [multispace0_skip (hexEncode idb ++ ':' :: ' ' :: '[' ::
    (renderInfoEntry e ++ ']' :: rest)) (hexEncode_headNotWs idb h32 hb _)]
  simp only [Option.bind_eq_bind, Option.some_bind]
  rw [takeWhileMN_hexEncode idb h32 hb (' ' :: '[' ::
    (renderInfoEntry e ++ ']' :: rest))]
  simp only [Option.some_bind]
  rw [hexDecodePairs_hexEncode idb hb]
  rw [multispace0_skip (':' :: ' ' :: '[' ::
    (renderInfoEntry e ++ ']' :: rest)) rfl]
  simp only [Option.some_bind]
  have ht : tagP (str ":") (':' :: ' ' :: '[' ::
      (renderInfoEntry e ++ ']' :: rest)) =
      some (' ' :: '[' :: (renderInfoEntry e ++ ']' :: rest), str ":") := by
    rw [show (':' :: ' ' :: '[' :: (renderInfoEntry e ++ ']' :: rest)) =
      str ":" ++ (' ' :: '[' :: (renderInfoEntry e ++ ']' :: rest))
      from rfl]
    exact tagP_pre (str ":") _
  simp only [ht, Option.some_bind]
  rw [multispace0_sp ('[' :: (renderInfoEntry e ++ ']' :: rest)) rfl]
  simp only [Option.some_bind]
  rw [delimitedP]
  have ht2 : tagP (str "[") ('[' :: (renderInfoEntry e ++ ']' :: rest)) =
      some (renderInfoEntry e ++ ']' :: rest, str "[") := by
    rw [show ('[' :: (renderInfoEntry e ++ ']' :: rest)) =
      str "[" ++ (renderInfoEntry e ++ ']' :: rest) from rfl]
    exact tagP_pre (str "[") _
  simp only [ht2]
  rw [infoEntry_parse_render e he (']' :: rest)
    (pil_stop ']' rest (by decide) (by decide) (by decide) (by decide))
    rfl]
  have ht3 : tagP (str "]") (']' :: rest) = some (rest, str "]") := by
    rw [show (']' :: rest) = str "]" ++ rest from rfl]
    exact tagP_pre (str "]") rest
  simp only [ht3]
  rfl

theorem pie_nil : parse_interface_entry [] = none := rfl

theorem entriesText_headNotWs (t : List (List Nat × InfoEntry))
    (hq : ∀ q ∈ t, q.1.length = 32 ∧ ∀ b ∈ q.1, b < 256) :
    headNotWs (t.flatMap entryText) = true := by
  cases t with
  | nil => rfl
  | cons q u =>
    rw [List.flatMap_cons, entryText]
    obtain ⟨h32, hb⟩ := hq q (by simp)
    simp only [List.append_assoc]
    exact hexEncode_headNotWs q.1 h32 hb _

theorem entryText_len_pos (q : List Nat × InfoEntry)
    (h32 : q.1.length = 32) : 0 < (entryText q).length := by
  rw [entryText]
  simp only [List.length_append]
  have : (hexEncode q.1).length = 64 := by rw [hexEncode_length, h32]
  omega

theorem many0_entries_render (w : List (List Nat × InfoEntry))
    (hq : ∀ q ∈ w, (q.1.length = 32 ∧ ∀ b ∈ q.1, b < 256) ∧
      InfoEntry.wfR q.2) :
    many0 parse_interface_entry (w.flatMap entryText) = some ([], w) := by
  induction w with
  | nil => exact many0_of_fail pie_nil
  | cons q t ih =>
    obtain ⟨⟨h32, hb⟩, he⟩ := hq q (by simp)
    rw [List.flatMap_cons]
    apply many0_of_step (r := t.flatMap entryText)
    · rw [show entryText q ++ t.flatMap entryText =
        hexEncode q.1 ++ ':' :: ' ' :: '[' ::
          (renderInfoEntry q.2 ++ ']' :: t.flatMap entryText) from by
        rw [entryText]
        simp only [List.append_assoc]
        rfl]
      exact pie_render q.1 h32 hb q.2 he (t.flatMap entryText)
        (entriesText_headNotWs t (fun x hx => (hq x (by simp [hx])).1))
    · simp only [List.length_append]
      have := entryText_len_pos q h32
      omega
    · exact ih (fun x hx => hq x (by simp [hx]))

theorem info_parse_render (i : Info) (hi : i.wfR) :
    Info.parse (renderInfo i) = some ([], i) := by
  rw [Info.parse, renderInfo_eq]
  rw [many0_entries_render i.interfaces hi.2]
  simp only [Option.bind_eq_bind, Option.some_bind]
  rw [toMapA_of_mapWF lexLtN lexLtN_irr lexLtN_asymB i.interfaces hi.1]

/-- C7 (amended): rendering and re-parsing is the identity on every
`InfoEntry`/`Info` tree in the image of the parser itself — attribute
lists sorted by name without duplicates and representable by their own
text, method names nonempty and alphanumeric, slot indices within
`usize`, every slot holding at least one attribute, every method
contributing at least one line, and ids genuine 32-byte values. The
claim as frozen (sorted, duplicate-free attribute lists alone) is
refuted by `c7_counterexample`: a method with no attributes anywhere
renders to nothing and is dropped by the re-parse. -/
theorem c7_info_render_parse_roundtrip (e : InfoEntry) (he : e.wfR)
    (i : Info) (hi : i.wfR) :
    InfoEntry.parse (renderInfoEntry e) = some ([], e) ∧
      Info.parse (renderInfo i) = some ([], i) := by
  constructor
  · have := infoEntry_parse_render e he [] pil_nil rfl
    simpa using this
  · exact info_parse_render i hi

/-- C7 counterexample: the `InfoEntry` carrying one method named `a`
with the default (empty) `MethEntry` has only sorted, duplicate-free
attribute lists, yet renders to the empty string and re-parses to the
default entry — the round trip loses the method, refuting the claim as
stated. -/
theorem c7_counterexample :
    renderInfoEntry ⟨[], [(str "a", MethEntry.default)]⟩ = [] ∧
    InfoEntry.parse (renderInfoEntry ⟨[], [(str "a", MethEntry.default)]⟩) =
      some ([], (⟨[], []⟩ : InfoEntry)) ∧
    (⟨[], []⟩ : InfoEntry) ≠ ⟨[], [(str "a", MethEntry.default)]⟩ := by
  refine ⟨rfl, by decide, by decide⟩

/-- Witness for C7 at a one-method entry with a root attribute, a
method attribute, one parameter attribute and one return attribute, and
at an `Info` holding that entry under a 32-byte id. -/
theorem c7_info_render_parse_roundtrip_witness :
    InfoEntry.parse (renderInfoEntry
      ⟨[⟨str "n", str "V"⟩],
       [(str "m", ⟨[⟨str "d", str "x"⟩], [(0, ⟨[⟨str "p", str "q"⟩]⟩)],
         [(1, ⟨[⟨str "r", str "s"⟩]⟩)]⟩)]⟩) =
      some ([],
        ⟨[⟨str "n", str "V"⟩],
         [(str "m", ⟨[⟨str "d", str "x"⟩], [(0, ⟨[⟨str "p", str "q"⟩]⟩)],
           [(1, ⟨[⟨str "r", str "s"⟩]⟩)]⟩)]⟩) ∧
      Info.parse (renderInfo ⟨[(List.replicate 32 171,
        ⟨[⟨str "n", str "V"⟩],
         [(str "m", ⟨[⟨str "d", str "x"⟩], [(0, ⟨[⟨str "p", str "q"⟩]⟩)],
           [(1, ⟨[⟨str "r", str "s"⟩]⟩)]⟩)]⟩)]⟩) =
        some ([], ⟨[(List.replicate 32 171,
          ⟨[⟨str "n", str "V"⟩],
           [(str "m", ⟨[⟨str "d", str "x"⟩], [(0, ⟨[⟨str "p", str "q"⟩]⟩)],
             [(1, ⟨[⟨str "r", str "s"⟩]⟩)]⟩)]⟩)]⟩) :=
  c7_info_render_parse_roundtrip _ (by decide) _ (by decide)

theorem takeWhile_len_le (p : α → Bool) :
    ∀ l : List α, (l.takeWhile p).length ≤ l.length := by
  intro l
  induction l with
  | nil => simp
  | cons c t ih =>
    rw [List.takeWhile_cons]
    cases p c with
    | true => simpa using ih
    | false => simp

theorem hexCh_not_ws (c : Char) (h : isHexCh c = true) : isWs c = false := by
  by_cases h1 : c = ' '
  · subst h1; exact absurd h (by decide)
  by_cases h2 : c = '\t'
  · subst h2; exact absurd h (by decide)
  by_cases h3 : c = '\r'
  · subst h3; exact absurd h (by decide)
  by_cases h4 : c = '\n'
  · subst h4; exact absurd h (by decide)
  rw [isWs]
  simp [h1, h2, h3, h4]

theorem resty_fallthrough (s : List Char)
    (h1 : (stripPre (str "this") s).isSome = false) (h2 : b64At s = false)
    (h3 : hex64At s = false) : parse_resty s = some (s, ResTy.None) := by
  cases hA : stripPre (str "this") s with
  | some r => rw [hA] at h1; simp at h1
  | none =>
    rw [parse_resty]
    simp only [hA]
    cases hB : stripPre (str "~b64") s with
    | none =>
      simp only [hB]
      exact restyHexFall_of_short s h3
    | some rest =>
      simp only [hB]
      cases hC : splitOnce '~' rest with
      | none =>
        simp only [hC]
        exact restyHexFall_of_short s h3
      | some p =>
        simp only [hC]
        obtain ⟨be, after⟩ := p
        cases hD : decodeSlice32 be with
        | none =>
          simp only [hD]
          exact restyHexFall_of_short s h3
        | some bytes =>
          simp only [hD]
          by_cases h5 : bytes.length = 32
          · exfalso
            rw [b64At] at h2
            simp only [hB, hC, hD] at h2
            simp [h5] at h2
          · simp only [if_neg h5]
            exact restyHexFall_of_short s h3

/-- C5 (amended): the two 32-byte-id positions behave differently. In
`Info::parse`, the interface-id position is a hard failure of the entry
parser: when the input at that position (after whitespace) does not open
with exactly 64 hex digits — fewer than 64, or 64 followed by a 65th hex
digit where `:` is required — `parse_interface_entry` returns an error
and no decode is attempted. In `parse_resty`, by contrast, malformed hex
at the resource-id position is NOT a parse failure: the optional 64-hex
read simply declines, and the parser succeeds with `ResTy::None`,
consuming nothing (no best-effort decode either; the claim's "hard parse
failure" holds only on the `Info::parse` side). -/
theorem c5_id64_hard_failure :
    (∀ s : List Char,
      (((s.dropWhile isWs).take 64).takeWhile isHexCh).length < 64 →
      parse_interface_entry s = none) ∧
    (∀ (s : List Char) (c : Char) (u : List Char),
      hex64At (s.dropWhile isWs) = true →
      (s.dropWhile isWs).drop 64 = c :: u → isHexCh c = true →
      parse_interface_entry s = none) ∧
    (∀ s : List Char, (stripPre (str "this") s).isSome = false →
      b64At s = false → hex64At s = false →
      parse_resty s = some (s, ResTy.None)) := by
  refine ⟨?_, ?_, resty_fallthrough⟩
  · intro s hlt
    rw [parse_interface_entry]
    rw [show multispace0 s = some (s.dropWhile isWs, s.takeWhile isWs)
      from rfl]
    simp only [Option.bind_eq_bind, Option.some_bind]
    rw [takeWhileMN, if_neg (by omega)]
    rfl
  · intro s c u h64 hdrop hhex
    have hle : ((((s.dropWhile isWs).take 64)).takeWhile isHexCh).length ≤
        64 :=
      le_trans (takeWhile_len_le isHexCh _) (List.length_take_le _ _)
    have h64b : 64 ≤
        ((((s.dropWhile isWs).take 64)).takeWhile isHexCh).length := by
      rw [hex64At] at h64
      exact of_decide_eq_true h64
    have hlen : ((((s.dropWhile isWs).take 64)).takeWhile isHexCh).length =
        64 := le_antisymm hle h64b
    rw [parse_interface_entry]
    rw [show multispace0 s = some (s.dropWhile isWs, s.takeWhile isWs)
      from rfl]
    simp only [Option.bind_eq_bind, Option.some_bind]
    rw [takeWhileMN, if_pos (by omega), hlen, hdrop]
    simp only [Option.some_bind]
    rw [multispace0_skip (c :: u) (by
      rw [headNotWs, hexCh_not_ws c hhex]; rfl)]
    simp only [Option.some_bind]
    rw [show str ":" = [':'] from rfl, tagP_one_no ':' c u (by
      intro he
      subst he
      exact absurd hhex (by decide))]
    rfl

/-- C5 counterexample: at the resource-id position, `parse_resty` does
not hard-fail on malformed hex — on `beef` (4 hex digits, not 64) it
succeeds with `ResTy::None` and consumes nothing, so the claim's "hard
parse failure" is wrong for `parse_resty`. -/
theorem c5_counterexample :
    parse_resty (str "beef") = some (str "beef", ResTy.None) ∧
      parse_resty (str "beef") ≠ none := by
  exact ⟨by decide, by decide⟩

/-- Witness for C5: a concrete short-hex entry input is rejected by
`parse_interface_entry`, and a concrete non-hex input sails through
`parse_resty` as `ResTy::None`. -/
theorem c5_id64_hard_failure_witness :
    parse_interface_entry (str "ab : []") = none ∧
      parse_resty (str "zz") = some (str "zz", ResTy.None) :=
  ⟨c5_id64_hard_failure.1 (str "ab : []") (by decide),
   c5_id64_hard_failure.2.2 (str "zz") (by decide) (by decide) (by decide)⟩

/-- C10 (corrected): `parse_resty` is total — every branch returns
`Ok` — but the claim's `~b64` carve-out names a dead branch:
`decode_slice` into the fixed 32-byte id buffer first checks the
conservative size estimate `(n/4 + (n%4 > 0))*3`, which is at least 33
for any input whose decode would be 32 bytes, so the branch condition
(`b64At`) is false on every input. Consequently, for ANY input that
does not begin with `this` or a 64-hex-digit run — including inputs
beginning with a decodable 32-byte `~b64…~` form, contrary to the
claim — the parser succeeds with `ResTy::None` and consumes nothing. -/
theorem c10_parse_resty_total (s : List Char) :
    (parse_resty s).isSome = true ∧ b64At s = false ∧
    ((stripPre (str "this") s).isSome = false → hex64At s = false →
      parse_resty s = some (s, ResTy.None)) := by
  refine ⟨?_, b64At_false s,
    fun h1 h3 => resty_fallthrough s h1 (b64At_false s) h3⟩
  cases h1 : stripPre (str "this") s with
  | some r => simp only [parse_resty, h1, Option.isSome_some]
  | none =>
    simp only [parse_resty, h1]
    cases h2 : stripPre (str "~b64") s with
    | none =>
      simp only [h2]
      exact restyHexFall_isSome s
    | some rest =>
      simp only [h2]
      cases h3 : splitOnce '~' rest with
      | none =>
        simp only [h3]
        exact restyHexFall_isSome s
      | some p =>
        simp only [h3]
        obtain ⟨be, after⟩ := p
        cases h4 : decodeSlice32 be with
        | none =>
          simp only [h4]
          exact restyHexFall_isSome s
        | some bytes =>
          simp only [h4]
          by_cases h5 : bytes.length = 32
          · simp only [if_pos h5, Option.isSome_some]
          · simp only [if_neg h5]
            exact restyHexFall_isSome s

/-- C10 counterexample: `~b64AAA…A~` (43 `A`s) begins with a `~b64…~`
form whose payload decodes to exactly 32 bytes — one of the claim's
"accepted forms" — yet `parse_resty` does not take the base64 branch
(`decode_slice` into the 32-byte buffer rejects it by its size
estimate) and instead succeeds with `ResTy::None`, consuming
nothing. -/
theorem c10_counterexample :
    b64Decode (str "AAAAAAAAAAAAAAAAAAAAAAAAAAAAAAAAAAAAAAAAAAA") =
      some (List.replicate 32 0) ∧
    parse_resty (str "~b64AAAAAAAAAAAAAAAAAAAAAAAAAAAAAAAAAAAAAAAAAAA~") =
      some (str "~b64AAAAAAAAAAAAAAAAAAAAAAAAAAAAAAAAAAAAAAAAAAA~",
        ResTy.None) := by
  exact ⟨by decide, by decide⟩

/-- Witness for C10 at the concrete input `ab` (two hex digits, short
of 64): the parse succeeds, the base64 branch condition is false, and
the result is `ResTy::None` with nothing consumed. -/
theorem c10_parse_resty_total_witness :
    (parse_resty (str "ab")).isSome = true ∧ b64At (str "ab") = false ∧
      parse_resty (str "ab") = some (str "ab", ResTy.None) := by
  refine ⟨(c10_parse_resty_total (str "ab")).1,
    (c10_parse_resty_total (str "ab")).2.1, ?_⟩
  exact (c10_parse_resty_total (str "ab")).2.2 (by decide) (by decide)

end Pit
